import Mathlib

/-!
# Employee hierarchy import (hierarchy.go)

A shallow embedding of `hierarchy.go`: the record and employee types, the
company with its id-keyed employee map, `AddEmployee`,
`ImportRawEmployeeData` with its pending map and the recursive
`CheckManageeMap`, and the renderer `EmployeeWalk` / `GenerateHierarchyTable`.

Go pointers to managee slices (`Managees *[]Employee`) are addresses into an
explicit heap of slices, so that the copies of one employee held by the map,
by its manager's slice and by `CEO` share one managee list, as in Go.
Go maps are association lists with the three map operations.
The two recursive Go functions take a recursion budget and return `none`
when it is exhausted.
-/

namespace Hierarchy

/-- The four error values of `hierarchy.go` (lines 12-15). -/
inductive HError where
  | MissingManagerError
  | InvalidEmployeesError
  | MultipleCEOError
  | MissingCEOError
  deriving DecidableEq, Repr

open HError

/-- `type RawEmployee struct` (lines 17-21). -/
structure RawEmployee where
  Name : String
  ID : String
  Manager : String
  deriving DecidableEq, Repr

/-- `type Employee struct` (lines 23-28). `Manager` is the Go pointer to a copy
of the manager's struct (`none` for nil); `Managees` is the address of the
shared `[]Employee` slice. -/
inductive Employee where
  | mk (Name : String) (ID : String) (Manager : Option Employee) (Managees : Nat)

namespace Employee

/-- Field `Name`. -/
def Name : Employee → String
  | mk n _ _ _ => n

/-- Field `ID`. -/
def ID : Employee → String
  | mk _ i _ _ => i

/-- Field `Manager`. -/
def Manager : Employee → Option Employee
  | mk _ _ m _ => m

/-- Field `Managees` (an address). -/
def Managees : Employee → Nat
  | mk _ _ _ a => a

end Employee

/-- A Go `map[string]V`. -/
abbrev GoMap (V : Type) := List (String × V)

/-- The lookup `v, ok := m[key]`. -/
def mapLookup {V : Type} : GoMap V → String → Option V
  | [], _ => none
  | (k, v) :: m, key => if key = k then some v else mapLookup m key

/-- The builtin `delete(m, key)`. -/
def mapDelete {V : Type} (m : GoMap V) (key : String) : GoMap V :=
  m.filter (fun kv => decide (kv.1 ≠ key))

/-- The assignment `m[key] = v`. -/
def mapStore {V : Type} (m : GoMap V) (key : String) (v : V) : GoMap V :=
  (key, v) :: mapDelete m key

/-- The builtin `len(m)`. -/
def mapLen {V : Type} (m : GoMap V) : Nat := m.length

/-- The managee slices that `Managees` pointers point to: `cells a` is the
slice at address `a`, `next` the next unused address. -/
structure Heap where
  cells : Nat → List Employee
  next : Nat

/-- No slice allocated yet. -/
def Heap.empty : Heap := ⟨fun _ => [], 0⟩

/-- The allocation `managees := make([]Employee, 0)` taken by address. -/
def Heap.alloc (h : Heap) : Heap × Nat :=
  (⟨Function.update h.cells h.next [], h.next + 1⟩, h.next)

/-- The read `*p`. -/
def Heap.read (h : Heap) (a : Nat) : List Employee := h.cells a

/-- The write `*p = v`. -/
def Heap.write (h : Heap) (a : Nat) (v : List Employee) : Heap :=
  ⟨Function.update h.cells a v, h.next⟩

/-- `type Company struct` (lines 30-33); `CEO` is `none` for nil. -/
structure Company where
  Employees : GoMap Employee
  CEO : Option Employee

/-- The company built at lines 188-190: an empty map and a nil CEO. -/
def Company.fresh : Company := ⟨[], none⟩

/-- `AddEmployee` (lines 36-68). Returns the heap and company after the call
and the returned pair as `Except`. -/
def AddEmployee (heap : Heap) (company : Company) (rawEmployee : RawEmployee) :
    Heap × Company × Except HError Employee :=
  let (heap1, managees) := heap.alloc
  let employee : Employee := Employee.mk rawEmployee.Name rawEmployee.ID none managees
  if rawEmployee.Manager = "" then
    if company.CEO.isSome then
      (heap1, company, Except.error MultipleCEOError)
    else
      let company1 : Company := ⟨company.Employees, some employee⟩
      (heap1, ⟨mapStore company1.Employees employee.ID employee, company1.CEO⟩,
        Except.ok employee)
  else
    match mapLookup company.Employees rawEmployee.Manager with
    | some manager =>
      let employee1 : Employee :=
        Employee.mk employee.Name employee.ID (some manager) employee.Managees
      let heap2 := heap1.write manager.Managees (heap1.read manager.Managees ++ [employee1])
      (heap2, ⟨mapStore company.Employees employee1.ID employee1, company.CEO⟩,
        Except.ok employee1)
    | none => (heap1, company, Except.error MissingManagerError)

/-- The state `ImportRawEmployeeData` works on: the heap, the company and the
local `manageeMap`. -/
structure ImportState where
  heap : Heap
  company : Company
  manageeMap : GoMap (List RawEmployee)

/-- The `for _, managee := range managees` loop of `CheckManageeMap`
(lines 123-132); `check` is the recursive call, whose returned error is
discarded. Returns the state and the error returned from inside the loop. -/
def manageeLoop (check : ImportState → Employee → Option (ImportState × Option HError)) :
    List RawEmployee → ImportState → Option (ImportState × Option HError)
  | [], st => some (st, none)
  | managee :: rest, st =>
    match AddEmployee st.heap st.company managee with
    | (heap1, company1, Except.error err) =>
      some (⟨heap1, company1, st.manageeMap⟩, some err)
    | (heap1, company1, Except.ok employee) =>
      match check ⟨heap1, company1, st.manageeMap⟩ employee with
      | none => none
      | some (st2, _) => manageeLoop check rest st2

/-- `CheckManageeMap` (lines 120-139) with a recursion budget: `none` when
the recursion is deeper than the budget. -/
def CheckManageeMap : Nat → ImportState → Employee → Option (ImportState × Option HError)
  | 0, _, _ => none
  | fuel + 1, st, manager =>
    match mapLookup st.manageeMap manager.ID with
    | some managees =>
      match manageeLoop (CheckManageeMap fuel) managees st with
      | none => none
      | some (st1, some err) => some (st1, some err)
      | some (st1, none) =>
        some (⟨st1.heap, st1.company, mapDelete st1.manageeMap manager.ID⟩, none)
    | none => some (st, none)

/-- The `for _, rawEmployee := range rawEmployees` loop of
`ImportRawEmployeeData` (lines 74-95). -/
def importLoop (fuel : Nat) : List RawEmployee → ImportState →
    Option (ImportState × Option HError)
  | [], st => some (st, none)
  | rawEmployee :: rest, st =>
    match AddEmployee st.heap st.company rawEmployee with
    | (heap1, company1, Except.error err) =>
      if err = MissingManagerError then
        let manager := rawEmployee.Manager
        importLoop fuel rest
          ⟨heap1, company1,
            mapStore st.manageeMap manager
              ((mapLookup st.manageeMap manager).getD [] ++ [rawEmployee])⟩
      else some (⟨heap1, company1, st.manageeMap⟩, some err)
    | (heap1, company1, Except.ok employee) =>
      match CheckManageeMap fuel ⟨heap1, company1, st.manageeMap⟩ employee with
      | none => none
      | some (st2, some err) => some (st2, some err)
      | some (st2, none) => importLoop fuel rest st2

/-- `ImportRawEmployeeData` (lines 71-103): the final state and the returned
error (`none` for nil). -/
def ImportRawEmployeeData (fuel : Nat) (heap : Heap) (company : Company)
    (rawEmployees : List RawEmployee) : Option (ImportState × Option HError) :=
  match importLoop fuel rawEmployees ⟨heap, company, []⟩ with
  | none => none
  | some (st, some err) => some (st, some err)
  | some (st, none) =>
    if mapLen st.manageeMap > 0 then some (st, some InvalidEmployeesError)
    else some (st, none)

/-- `strings.Repeat(s, count)` for a non-negative count. -/
def stringsRepeat (s : String) : Nat → String
  | 0 => ""
  | n + 1 => s ++ stringsRepeat s n

/-- `GenerateTabularRow` (lines 142-144). -/
def GenerateTabularRow (name : String) (depth : Nat) : String :=
  stringsRepeat "\t" depth ++ name

/-- The `for _, managee := range *employee.Managees` loop of `EmployeeWalk`
(lines 152-154); `walk` is the recursive call. -/
def walkLoop (walk : Employee → Nat → Option (List String)) (depth : Nat) :
    List Employee → List String → Option (List String)
  | [], output => some output
  | managee :: rest, output =>
    match walk managee depth with
    | none => none
    | some rows => walkLoop walk depth rest (output ++ rows)

/-- `EmployeeWalk` (lines 147-157) with a recursion budget. -/
def EmployeeWalk (heap : Heap) : Nat → Employee → Nat → Option (List String)
  | 0, _, _ => none
  | fuel + 1, employee, depth =>
    walkLoop (EmployeeWalk heap fuel) (depth + 1) (heap.read employee.Managees)
      [GenerateTabularRow employee.Name depth]

/-- `GenerateHierarchyTable` (lines 106-116): the returned pair, `[]` for a
nil slice and `none` for a nil error. -/
def GenerateHierarchyTable (fuel : Nat) (heap : Heap) (company : Company) :
    Option (List String × Option HError) :=
  match company.CEO with
  | none => some ([], some MissingCEOError)
  | some ceo =>
    match EmployeeWalk heap fuel ceo 0 with
    | none => none
    | some output => some (output, none)

/-- `GenerateHierarchyFromCSV` from the parsed records on (lines 188-197):
a fresh company, `ImportRawEmployeeData`, then `GenerateHierarchyTable`. -/
def GenerateHierarchyFromCSV (fuel : Nat) (rawEmployees : List RawEmployee) :
    Option (List String × Option HError) :=
  match ImportRawEmployeeData fuel Heap.empty Company.fresh rawEmployees with
  | none => none
  | some (_, some err) => some ([], some err)
  | some (st, none) => GenerateHierarchyTable fuel st.heap st.company

/-- The six rows of `TestHierarchyGeneration`. -/
def testRows : List RawEmployee :=
  [⟨"jamie", "1", ""⟩, ⟨"alan", "2", "1"⟩, ⟨"martin", "3", "2"⟩,
   ⟨"alex", "4", "2"⟩, ⟨"steve", "5", "1"⟩, ⟨"david", "6", "5"⟩]

/-- The managee slices form a forest: every employee stored in the slice at
address `a` has its own slice at a later, allocated address. `AddEmployee`
builds such heaps: a new employee's slice is the newest one. -/
def HeapOrdered (heap : Heap) : Prop :=
  ∀ a e, e ∈ heap.cells a → a < e.Managees ∧ e.Managees < heap.next

/-- The import is past the point where an employee can be registered without
a CEO: a company with a nil CEO has an empty employee map. -/
def CeoFirst (company : Company) : Prop :=
  company.CEO = none → company.Employees = []

/-! ## The hierarchy the records describe -/

/-- The records of `rs` managed by the record with id `id`, in input order.
A record with an empty manager id has no manager (it is the CEO). -/
def manageesOf (rs : List RawEmployee) (id : String) : List RawEmployee :=
  rs.filter (fun c => decide (c.Manager ≠ "" ∧ c.Manager = id))

/-- `ManagerChain rs top r d`: following manager ids from `r` through records
of `rs` reaches `top` after `d` manager-edges. -/
inductive ManagerChain (rs : List RawEmployee) (top : RawEmployee) :
    RawEmployee → Nat → Prop
  | here : ManagerChain rs top top 0
  | up {r m : RawEmployee} {d : Nat} : r ∈ rs → r.Manager ≠ "" → m ∈ rs →
      m.ID = r.Manager → ManagerChain rs top m d → ManagerChain rs top r (d + 1)

/-- A valid input with CEO record `root`: pairwise-distinct ids, `root` the
only record with an empty manager id, and every record's manager chain
reaching `root`. -/
structure ValidInput (rs : List RawEmployee) (root : RawEmployee) : Prop where
  nodup : (rs.map RawEmployee.ID).Nodup
  root_mem : root ∈ rs
  root_manager : root.Manager = ""
  root_unique : ∀ r ∈ rs, r.Manager = "" → r = root
  chain : ∀ r ∈ rs, ∃ d, ManagerChain rs root r d

/-- The records with an empty manager id, in input order. -/
def roots (rs : List RawEmployee) : List RawEmployee :=
  rs.filter (fun r => decide (r.Manager = ""))

/-- The records of `cyc` form a manager cycle of length at least two: each has
a manager (a non-empty manager id), which is the next record of `cyc`, and the
manager of the last one is the first. -/
def IsManagerCycle (cyc : List RawEmployee) : Prop :=
  2 ≤ cyc.length ∧
  ∀ i : Fin cyc.length,
    (cyc.get i).Manager ≠ "" ∧
    ∃ h : (i.val + 1) % cyc.length < cyc.length,
      (cyc.get i).Manager = (cyc.get ⟨(i.val + 1) % cyc.length, h⟩).ID

/-- A check that the manager chain of `r` reaches `root` within `fuel`
manager-edges. -/
def chainCheck (rs : List RawEmployee) (root : RawEmployee) : Nat → RawEmployee → Bool
  | 0, r => decide (r = root)
  | fuel + 1, r =>
    decide (r = root) ||
      (decide (r ∈ rs) && decide (r.Manager ≠ "") &&
        rs.any (fun m => decide (m.ID = r.Manager) && chainCheck rs root fuel m))

/-- A check of `ValidInput`. -/
def validCheck (rs : List RawEmployee) (root : RawEmployee) : Bool :=
  decide ((rs.map RawEmployee.ID).Nodup) && decide (root ∈ rs) &&
    decide (root.Manager = "") &&
    rs.all (fun r => decide (r.Manager = "" → r = root)) &&
    rs.all (chainCheck rs root rs.length)

/-- The rows of `TestHierarchyGeneration` with every managee before its
manager. -/
def testRowsReversed : List RawEmployee :=
  [⟨"david", "6", "5"⟩, ⟨"alex", "4", "2"⟩, ⟨"martin", "3", "2"⟩,
   ⟨"steve", "5", "1"⟩, ⟨"alan", "2", "1"⟩, ⟨"jamie", "1", ""⟩]

/-- Concatenation of the listings `walk c` of the records `c` of a list, in
order; `none` if one of them is `none`. -/
def listEach {α β : Type} (walk : α → Option (List β)) :
    List α → Option (List β)
  | [] => some []
  | c :: cs =>
    match walk c, listEach walk cs with
    | some rows, some more => some (rows ++ more)
    | _, _ => none

/-- The pre-order depth-first listing of the subtree of `r` in the hierarchy
described by `rs`: the row of `r` (one tab per level of `depth`, then the
name), then the listings of its managees one level deeper, in input order.
`none` if the subtree is deeper than `fuel`. -/
def preorder (rs : List RawEmployee) : Nat → RawEmployee → Nat → Option (List String)
  | 0, _, _ => none
  | fuel + 1, r, depth =>
    match listEach (fun c => preorder rs fuel c (depth + 1)) (manageesOf rs r.ID) with
    | none => none
    | some rows => some ((stringsRepeat "\t" depth ++ r.Name) :: rows)

/-- The nodes behind `preorder`: each record of the subtree of `r` with its
depth, in the same order. -/
def preorderNodes (rs : List RawEmployee) :
    Nat → RawEmployee → Nat → Option (List (RawEmployee × Nat))
  | 0, _, _ => none
  | fuel + 1, r, depth =>
    match listEach (fun c => preorderNodes rs fuel c (depth + 1)) (manageesOf rs r.ID) with
    | none => none
    | some nodes => some ((r, depth) :: nodes)

/-- The records of `p` not yet registered in the employee map. -/
def unregistered (p : List RawEmployee) (st : ImportState) : List RawEmployee :=
  p.filter (fun r => (mapLookup st.company.Employees r.ID).isNone)

/-- The state of the import after the records `p`, for distinct ids.
`S` holds the keys whose drain is in progress; `ex` exempts the record that
is being added from the clauses on roots and on pending records. -/
structure Inv (p : List RawEmployee) (S : String → Prop) (ex : RawEmployee → Prop)
    (st : ImportState) : Prop where
  nodup : (p.map RawEmployee.ID).Nodup
  reg : ∀ id e, mapLookup st.company.Employees id = some e →
    e.ID = id ∧ e.Managees < st.heap.next ∧
    ∃ r ∈ p, r.ID = id ∧ e.Name = r.Name ∧
      (r.Manager = "" ∨ mapLookup st.company.Employees r.Manager ≠ none) ∧
      ∃ root d, root ∈ p ∧ root.Manager = "" ∧ ManagerChain p root r d
  cell_inj : ∀ id1 id2 e1 e2, mapLookup st.company.Employees id1 = some e1 →
    mapLookup st.company.Employees id2 = some e2 → e1.Managees = e2.Managees → id1 = id2
  cells : ∀ id e, mapLookup st.company.Employees id = some e →
    st.heap.cells e.Managees =
      (manageesOf p id).filterMap (fun c => mapLookup st.company.Employees c.ID)
  ceo_first : CeoFirst st.company
  ceo_root : ∀ r ∈ p, ¬ ex r → r.Manager = "" →
    st.company.CEO ≠ none ∧ st.company.CEO = mapLookup st.company.Employees r.ID
  ceo_has : st.company.CEO ≠ none → ∃ r ∈ p, r.Manager = ""
  mm_list : ∀ j l, mapLookup st.manageeMap j = some l →
    j ≠ "" ∧ l ≠ [] ∧ l = manageesOf p j
  mm_keys : ∀ j, mapLookup st.manageeMap j ≠ none →
    mapLookup st.company.Employees j ≠ none → S j
  pend : ∀ r ∈ p, ¬ ex r → mapLookup st.company.Employees r.ID = none →
    r.Manager ≠ "" ∧ mapLookup st.manageeMap r.Manager ≠ none

/-- Every registration of `st` is still there, unchanged, in `st1`. -/
def Grows (st st1 : ImportState) : Prop :=
  ∀ id e, mapLookup st.company.Employees id = some e →
    mapLookup st1.company.Employees id = some e

/-- The records of `p` registered between `st` and `st1` are managed by `k`
or by a record that was not registered in `st`. -/
def NewUnder (p : List RawEmployee) (st st1 : ImportState) (k : String) : Prop :=
  ∀ c ∈ p, mapLookup st.company.Employees c.ID = none →
    mapLookup st1.company.Employees c.ID ≠ none →
    c.Manager = k ∨ mapLookup st.company.Employees c.Manager = none

/-- The records of the pending map sit under their own manager id, which is
not empty. -/
def PendingWf (manageeMap : GoMap (List RawEmployee)) : Prop :=
  ∀ k l, mapLookup manageeMap k = some l → k ≠ "" ∧ ∀ m ∈ l, m.Manager = k

/-- The loop of `CheckManageeMap` with the error of the recursive call
returned instead of discarded. -/
def manageeLoopStrict
    (check : ImportState → Employee → Option (ImportState × Option HError)) :
    List RawEmployee → ImportState → Option (ImportState × Option HError)
  | [], st => some (st, none)
  | managee :: rest, st =>
    match AddEmployee st.heap st.company managee with
    | (heap1, company1, Except.error err) =>
      some (⟨heap1, company1, st.manageeMap⟩, some err)
    | (heap1, company1, Except.ok employee) =>
      match check ⟨heap1, company1, st.manageeMap⟩ employee with
      | none => none
      | some (st2, some err) => some (st2, some err)
      | some (st2, none) => manageeLoopStrict check rest st2

/-- `CheckManageeMap` with the error of every recursive call returned instead
of discarded: it returns nil only if every `AddEmployee` call of the drain, at
every depth of the recursion, has succeeded. -/
def CheckManageeMapStrict :
    Nat → ImportState → Employee → Option (ImportState × Option HError)
  | 0, _, _ => none
  | fuel + 1, st, manager =>
    match mapLookup st.manageeMap manager.ID with
    | some managees =>
      match manageeLoopStrict (CheckManageeMapStrict fuel) managees st with
      | none => none
      | some (st1, some err) => some (st1, some err)
      | some (st1, none) =>
        some (⟨st1.heap, st1.company, mapDelete st1.manageeMap manager.ID⟩, none)
    | none => some (st, none)

/-- `Reach heap e x k`: the employee `x` is `k` managee-edges below `e`,
following the managee slices of the heap. -/
inductive Reach (heap : Heap) : Employee → Employee → Nat → Prop
  | here (e : Employee) : Reach heap e e 0
  | down {e c x : Employee} {k : Nat} : c ∈ heap.read e.Managees → Reach heap c x k →
      Reach heap e x (k + 1)

/-- The nodes of the subtree of `e` in pre-order, each with the number of
managee-edges between `e` and it, counted from `k` for `e` itself. `none` if
the subtree is deeper than the budget. -/
def subtree (heap : Heap) : Nat → Employee → Nat → Option (List (Employee × Nat))
  | 0, _, _ => none
  | fuel + 1, e, k =>
    match listEach (fun c => subtree heap fuel c (k + 1)) (heap.read e.Managees) with
    | none => none
    | some nodes => some ((e, k) :: nodes)

/-- The error of a result of `AddEmployee`, `none` for nil. -/
def errorOf (res : Except HError Employee) : Option HError :=
  match res with
  | Except.error err => some err
  | Except.ok _ => none

/-! ## Map operations -/

theorem mapLookup_mapDelete {V : Type} (m : GoMap V) (key k : String) :
    mapLookup (mapDelete m key) k = if k = key then none else mapLookup m k := by
  induction m with
  | nil => simp [mapDelete, mapLookup]
  | cons kv m ih =>
    obtain ⟨k1, v1⟩ := kv
    unfold mapDelete at ih ⊢
    by_cases h1 : k1 = key
    · subst h1
      simp only [List.filter, ne_eq, not_true_eq_false, decide_False]
      rw [ih]
      by_cases h2 : k = k1
      · simp [h2]
      · simp [h2, mapLookup]
    · simp only [List.filter, ne_eq, h1, not_false_eq_true, decide_True, mapLookup]
      rw [ih]
      by_cases h2 : k = k1
      · subst h2
        simp [h1]
      · simp [h2]

theorem mapLookup_mapStore {V : Type} (m : GoMap V) (key k : String) (v : V) :
    mapLookup (mapStore m key v) k = if k = key then some v else mapLookup m k := by
  unfold mapStore
  by_cases h : k = key
  · simp [mapLookup, h]
  · simp [mapLookup, h, mapLookup_mapDelete]

theorem mapLookup_eq_none_of_nil {V : Type} (k : String) :
    mapLookup ([] : GoMap V) k = none := rfl

theorem mapLen_pos_of_lookup {V : Type} (m : GoMap V) (k : String) (v : V)
    (h : mapLookup m k = some v) : mapLen m > 0 := by
  cases m with
  | nil => simp [mapLookup] at h
  | cons kv m => simp [mapLen]

theorem exists_lookup_of_ne_nil {V : Type} (m : GoMap V) (h : m ≠ []) :
    ∃ k v, mapLookup m k = some v := by
  cases m with
  | nil => exact absurd rfl h
  | cons kv m => exact ⟨kv.1, kv.2, by simp [mapLookup]⟩

/-! ## `AddEmployee`, case by case -/

theorem AddEmployee_root {heap : Heap} {company : Company} {raw : RawEmployee}
    (hm : raw.Manager = "") (hc : company.CEO = none) :
    AddEmployee heap company raw =
      (heap.alloc.1,
        ⟨mapStore company.Employees raw.ID (Employee.mk raw.Name raw.ID none heap.next),
          some (Employee.mk raw.Name raw.ID none heap.next)⟩,
        Except.ok (Employee.mk raw.Name raw.ID none heap.next)) := by
  simp [AddEmployee, hm, hc, Heap.alloc, Employee.ID]

theorem AddEmployee_second_root {heap : Heap} {company : Company} {raw : RawEmployee}
    (hm : raw.Manager = "") (hc : company.CEO ≠ none) :
    AddEmployee heap company raw = (heap.alloc.1, company, Except.error MultipleCEOError) := by
  cases h : company.CEO with
  | none => exact absurd h hc
  | some c => simp [AddEmployee, hm, h, Heap.alloc]

theorem AddEmployee_missing {heap : Heap} {company : Company} {raw : RawEmployee}
    (hm : raw.Manager ≠ "") (hl : mapLookup company.Employees raw.Manager = none) :
    AddEmployee heap company raw =
      (heap.alloc.1, company, Except.error MissingManagerError) := by
  simp [AddEmployee, hm, hl, Heap.alloc]

theorem AddEmployee_found {heap : Heap} {company : Company} {raw : RawEmployee}
    {manager : Employee}
    (hm : raw.Manager ≠ "") (hl : mapLookup company.Employees raw.Manager = some manager) :
    AddEmployee heap company raw =
      ((heap.alloc.1).write manager.Managees
          ((heap.alloc.1).read manager.Managees ++
            [Employee.mk raw.Name raw.ID (some manager) heap.next]),
        ⟨mapStore company.Employees raw.ID (Employee.mk raw.Name raw.ID (some manager) heap.next),
          company.CEO⟩,
        Except.ok (Employee.mk raw.Name raw.ID (some manager) heap.next)) := by
  simp [AddEmployee, hm, hl, Heap.alloc, Employee.ID, Employee.Name, Employee.Managees]

/-! ## Inputs without a record with empty manager id -/

theorem importLoop_cons_missing (fuel : Nat) (raw : RawEmployee) (rest : List RawEmployee)
    (st : ImportState) (hm : raw.Manager ≠ "")
    (hl : mapLookup st.company.Employees raw.Manager = none) :
    importLoop fuel (raw :: rest) st =
      importLoop fuel rest
        ⟨st.heap.alloc.1, st.company,
          mapStore st.manageeMap raw.Manager
            ((mapLookup st.manageeMap raw.Manager).getD [] ++ [raw])⟩ := by
  rw [importLoop, AddEmployee_missing hm hl]
  simp

theorem importLoop_no_root (fuel : Nat) :
    ∀ (rs : List RawEmployee) (st : ImportState),
      st.company.Employees = [] → (∀ r ∈ rs, r.Manager ≠ "") →
      ∃ st', importLoop fuel rs st = some (st', none) ∧ st'.company = st.company ∧
        (∀ k l, mapLookup st.manageeMap k = some l →
          ∃ l', mapLookup st'.manageeMap k = some l' ∧ l ⊆ l') ∧
        (∀ r ∈ rs, ∃ l, mapLookup st'.manageeMap r.Manager = some l ∧ r ∈ l) := by
  intro rs
  induction rs with
  | nil =>
    intro st _ _
    exact ⟨st, rfl, rfl, fun k l h => ⟨l, h, fun _ hx => hx⟩, by simp⟩
  | cons raw rest ih =>
    intro st hE hrs
    have hm : raw.Manager ≠ "" := hrs raw (List.mem_cons_self _ _)
    have hl : mapLookup st.company.Employees raw.Manager = none := by
      rw [hE]; rfl
    rw [importLoop_cons_missing fuel raw rest st hm hl]
    obtain ⟨st', hrun, hco, hkeep, hall⟩ :=
      ih ⟨st.heap.alloc.1, st.company,
          mapStore st.manageeMap raw.Manager
            ((mapLookup st.manageeMap raw.Manager).getD [] ++ [raw])⟩ hE
        (fun r hr => hrs r (List.mem_cons_of_mem _ hr))
    refine ⟨st', hrun, hco, ?_, ?_⟩
    · intro k l hk
      by_cases hkr : k = raw.Manager
      · subst hkr
        obtain ⟨l', hl', hsub⟩ := hkeep raw.Manager (l ++ [raw]) (by
          simp [mapLookup_mapStore, hk])
        exact ⟨l', hl', fun x hx => hsub (List.mem_append_left _ hx)⟩
      · exact hkeep k l (by simp [mapLookup_mapStore, hkr, hk])
    · intro r hr
      rcases List.mem_cons.1 hr with rfl | hr
      · obtain ⟨l', hl', hsub⟩ := hkeep r.Manager
          ((mapLookup st.manageeMap r.Manager).getD [] ++ [r]) (by
            simp [mapLookup_mapStore])
        exact ⟨l', hl', hsub (by simp)⟩
      · exact hall r hr

theorem no_empty_manager_fails_InvalidEmployeesError_aux (fuel : Nat)
    (rs : List RawEmployee) (hne : rs ≠ []) (hno : ∀ r ∈ rs, r.Manager ≠ "") :
    GenerateHierarchyFromCSV fuel rs = some ([], some InvalidEmployeesError) ∧
    ∃ st, ImportRawEmployeeData fuel Heap.empty Company.fresh rs =
        some (st, some InvalidEmployeesError) ∧
      st.company.Employees = [] ∧ st.company.CEO = none ∧
      ∀ r ∈ rs, ∃ l, mapLookup st.manageeMap r.Manager = some l ∧ r ∈ l := by
  obtain ⟨st, hrun, hco, _, hall⟩ :=
    importLoop_no_root fuel rs ⟨Heap.empty, Company.fresh, []⟩ rfl hno
  have hpos : mapLen st.manageeMap > 0 := by
    cases rs with
    | nil => exact absurd rfl hne
    | cons r rest =>
      obtain ⟨l, hl, _⟩ := hall r (List.mem_cons_self _ _)
      exact mapLen_pos_of_lookup _ _ _ hl
  have himp : ImportRawEmployeeData fuel Heap.empty Company.fresh rs =
      some (st, some InvalidEmployeesError) := by
    simp [ImportRawEmployeeData, hrun, hpos]
  refine ⟨?_, st, himp, ?_, ?_, hall⟩
  · simp [GenerateHierarchyFromCSV, himp]
  · rw [hco]; rfl
  · rw [hco]; rfl

/-- C7. On every non-empty input without a record with empty manager id the
pipeline fails with `InvalidEmployeesError`, not `MissingCEOError`: the error
is the one `ImportRawEmployeeData` returns, at every recursion budget; at its
return no employee is registered, the CEO is unset, and every record is in the
pending map under its manager id. No employee is registered after any number
`k` of iterations of its loop either. -/
theorem no_empty_manager_fails_InvalidEmployeesError (fuel : Nat)
    (rs : List RawEmployee) (hne : rs ≠ []) (hno : ∀ r ∈ rs, r.Manager ≠ "") :
    GenerateHierarchyFromCSV fuel rs = some ([], some InvalidEmployeesError) ∧
    (∃ st, ImportRawEmployeeData fuel Heap.empty Company.fresh rs =
        some (st, some InvalidEmployeesError) ∧
      st.company.Employees = [] ∧ st.company.CEO = none ∧
      ∀ r ∈ rs, ∃ l, mapLookup st.manageeMap r.Manager = some l ∧ r ∈ l) ∧
    (∀ k, ∃ st, importLoop fuel (rs.take k) ⟨Heap.empty, Company.fresh, []⟩ =
        some (st, none) ∧
      st.company.Employees = [] ∧ st.company.CEO = none) := by
  obtain ⟨h1, h2⟩ := no_empty_manager_fails_InvalidEmployeesError_aux fuel rs hne hno
  refine ⟨h1, h2, fun k => ?_⟩
  obtain ⟨st, hrun, hco, _, _⟩ :=
    importLoop_no_root fuel (rs.take k) ⟨Heap.empty, Company.fresh, []⟩ rfl
      (fun r hr => hno r (List.mem_of_mem_take hr))
  exact ⟨st, hrun, by rw [hco]; rfl, by rw [hco]; rfl⟩

/-- Witness for C7: a single record whose manager is absent. -/
theorem no_empty_manager_fails_InvalidEmployeesError_witness :
    GenerateHierarchyFromCSV 0 [⟨"alan", "2", "1"⟩] = some ([], some InvalidEmployeesError) :=
  (no_empty_manager_fails_InvalidEmployeesError 0 [⟨"alan", "2", "1"⟩] (by simp)
    (by simp)).1

/-! ## `GenerateHierarchyTable` and the CEO check -/

theorem walkLoop_some (walk : Employee → Nat → Option (List String)) (depth : Nat) :
    ∀ (l : List Employee) (output : List String),
      (∀ e ∈ l, ∃ rows, walk e depth = some rows) →
      ∃ out, walkLoop walk depth l output = some out := by
  intro l
  induction l with
  | nil => intro output _; exact ⟨output, rfl⟩
  | cons e rest ih =>
    intro output h
    obtain ⟨rows, hrows⟩ := h e (List.mem_cons_self _ _)
    obtain ⟨out, hout⟩ := ih (output ++ rows) (fun x hx => h x (List.mem_cons_of_mem _ hx))
    exact ⟨out, by simp [walkLoop, hrows, hout]⟩

theorem EmployeeWalk_some_of_ordered (heap : Heap) (ho : HeapOrdered heap) :
    ∀ (fuel : Nat) (e : Employee) (depth : Nat),
      e.Managees < heap.next → heap.next - e.Managees ≤ fuel →
      ∃ out, EmployeeWalk heap fuel e depth = some out := by
  intro fuel
  induction fuel with
  | zero => intro e depth h1 h2; omega
  | succ fuel ih =>
    intro e depth h1 h2
    rw [EmployeeWalk]
    apply walkLoop_some
    intro c hc
    obtain ⟨h3, h4⟩ := ho _ _ hc
    exact ih c (depth + 1) h4 (by omega)

/-- C8. On the empty input the pipeline fails with `MissingCEOError` and
returns no lines. `GenerateHierarchyTable` returns `(nil, MissingCEOError)`
whenever the CEO is unset; whenever the CEO is set it never returns an error,
and on every forest of managee slices (the heaps `AddEmployee` builds) it
does return, with a nil error, once the budget covers the allocated slices. -/
theorem GenerateHierarchyTable_error_iff_CEO_unset :
    (∀ fuel, GenerateHierarchyFromCSV fuel [] = some ([], some MissingCEOError)) ∧
    (∀ fuel heap company, company.CEO = none →
      GenerateHierarchyTable fuel heap company = some ([], some MissingCEOError)) ∧
    (∀ fuel heap company out err, company.CEO ≠ none →
      GenerateHierarchyTable fuel heap company = some (out, err) → err = none) ∧
    (∀ fuel heap company ceo, company.CEO = some ceo → HeapOrdered heap →
      ceo.Managees < heap.next → heap.next ≤ fuel →
      ∃ out, GenerateHierarchyTable fuel heap company = some (out, none)) := by
  refine ⟨fun fuel => rfl, ?_, ?_, ?_⟩
  · intro fuel heap company h
    simp [GenerateHierarchyTable, h]
  · intro fuel heap company out err h hrun
    cases hc : company.CEO with
    | none => exact absurd hc h
    | some ceo =>
      simp only [GenerateHierarchyTable, hc] at hrun
      cases hw : EmployeeWalk heap fuel ceo 0 with
      | none => simp [hw] at hrun
      | some rows =>
        simp only [hw, Option.some.injEq, Prod.mk.injEq] at hrun
        exact hrun.2.symm
  · intro fuel heap company ceo hc ho hlt hfuel
    obtain ⟨out, hout⟩ := EmployeeWalk_some_of_ordered heap ho fuel ceo 0 hlt (by omega)
    exact ⟨out, by simp [GenerateHierarchyTable, hc, hout]⟩

/-- Witness for C8: a company whose CEO has no managee. -/
theorem GenerateHierarchyTable_error_iff_CEO_unset_witness :
    GenerateHierarchyTable 0 Heap.empty Company.fresh = some ([], some MissingCEOError) ∧
    ∃ out, GenerateHierarchyTable 1 ⟨fun _ => [], 1⟩
      ⟨[("1", Employee.mk "jamie" "1" none 0)], some (Employee.mk "jamie" "1" none 0)⟩ =
        some (out, none) :=
  ⟨GenerateHierarchyTable_error_iff_CEO_unset.2.1 0 Heap.empty Company.fresh rfl,
   GenerateHierarchyTable_error_iff_CEO_unset.2.2.2 1 ⟨fun _ => [], 1⟩
    ⟨[("1", Employee.mk "jamie" "1" none 0)], some (Employee.mk "jamie" "1" none 0)⟩
    (Employee.mk "jamie" "1" none 0) rfl (fun a e h => by simp at h)
    (by simp [Employee.Managees]) (by simp)⟩

/-! ## Which errors the import returns, and when the CEO stays unset -/

theorem AddEmployee_cases (heap : Heap) (company : Company) (raw : RawEmployee) :
    (raw.Manager = "" ∧ company.CEO = none ∧
      AddEmployee heap company raw =
        (heap.alloc.1,
          ⟨mapStore company.Employees raw.ID (Employee.mk raw.Name raw.ID none heap.next),
            some (Employee.mk raw.Name raw.ID none heap.next)⟩,
          Except.ok (Employee.mk raw.Name raw.ID none heap.next))) ∨
    (raw.Manager = "" ∧ company.CEO ≠ none ∧
      AddEmployee heap company raw =
        (heap.alloc.1, company, Except.error MultipleCEOError)) ∨
    (raw.Manager ≠ "" ∧ mapLookup company.Employees raw.Manager = none ∧
      AddEmployee heap company raw =
        (heap.alloc.1, company, Except.error MissingManagerError)) ∨
    (∃ manager, raw.Manager ≠ "" ∧
      mapLookup company.Employees raw.Manager = some manager ∧
      AddEmployee heap company raw =
        ((heap.alloc.1).write manager.Managees
            ((heap.alloc.1).read manager.Managees ++
              [Employee.mk raw.Name raw.ID (some manager) heap.next]),
          ⟨mapStore company.Employees raw.ID
              (Employee.mk raw.Name raw.ID (some manager) heap.next),
            company.CEO⟩,
          Except.ok (Employee.mk raw.Name raw.ID (some manager) heap.next))) := by
  by_cases hm : raw.Manager = ""
  · by_cases hc : company.CEO = none
    · exact Or.inl ⟨hm, hc, AddEmployee_root hm hc⟩
    · exact Or.inr (Or.inl ⟨hm, hc, AddEmployee_second_root hm hc⟩)
  · rcases Option.eq_none_or_eq_some (mapLookup company.Employees raw.Manager) with
      hl | ⟨manager, hl⟩
    · exact Or.inr (Or.inr (Or.inl ⟨hm, hl, AddEmployee_missing hm hl⟩))
    · exact Or.inr (Or.inr (Or.inr ⟨manager, hm, hl, AddEmployee_found hm hl⟩))

theorem AddEmployee_CEO_kept {heap heap1 : Heap} {company company1 : Company}
    {raw : RawEmployee} {res : Except HError Employee}
    (h : AddEmployee heap company raw = (heap1, company1, res))
    (hc : company.CEO ≠ none) : company1.CEO = company.CEO := by
  rcases AddEmployee_cases heap company raw with
    ⟨_, h2, _⟩ | ⟨_, _, h3⟩ | ⟨_, _, h3⟩ | ⟨m, _, _, h3⟩
  · exact absurd h2 hc
  all_goals
    rw [h3] at h
    simp only [Prod.mk.injEq] at h
    rw [← h.2.1]

theorem AddEmployee_error {heap heap1 : Heap} {company company1 : Company}
    {raw : RawEmployee} {err : HError}
    (h : AddEmployee heap company raw = (heap1, company1, Except.error err)) :
    company1 = company ∧
      ((err = MultipleCEOError ∧ raw.Manager = "" ∧ company.CEO ≠ none) ∨
       (err = MissingManagerError ∧ raw.Manager ≠ "" ∧
         mapLookup company.Employees raw.Manager = none)) := by
  rcases AddEmployee_cases heap company raw with
    ⟨_, _, h3⟩ | ⟨h1, h2, h3⟩ | ⟨h1, h2, h3⟩ | ⟨m, _, _, h3⟩
  · rw [h3] at h; simp at h
  · rw [h3] at h
    simp only [Prod.mk.injEq, Except.error.injEq] at h
    exact ⟨h.2.1.symm, Or.inl ⟨h.2.2.symm, h1, h2⟩⟩
  · rw [h3] at h
    simp only [Prod.mk.injEq, Except.error.injEq] at h
    exact ⟨h.2.1.symm, Or.inr ⟨h.2.2.symm, h1, h2⟩⟩
  · rw [h3] at h; simp at h

theorem AddEmployee_ok_CEO {heap heap1 : Heap} {company company1 : Company}
    {raw : RawEmployee} {e : Employee}
    (h : AddEmployee heap company raw = (heap1, company1, Except.ok e))
    (hf : CeoFirst company) : company1.CEO ≠ none := by
  rcases AddEmployee_cases heap company raw with
    ⟨_, _, h3⟩ | ⟨_, _, h3⟩ | ⟨_, _, h3⟩ | ⟨m, _, hl, h3⟩
  · rw [h3] at h
    simp only [Prod.mk.injEq] at h
    rw [← h.2.1]; simp
  · rw [h3] at h; simp at h
  · rw [h3] at h; simp at h
  · rw [h3] at h
    simp only [Prod.mk.injEq] at h
    rw [← h.2.1]
    intro hc
    have := hf hc
    rw [this] at hl
    simp [mapLookup] at hl

theorem manageeLoop_CEO (check : ImportState → Employee → Option (ImportState × Option HError))
    (hcheck : ∀ st e st' err, check st e = some (st', err) →
      st.company.CEO ≠ none → st'.company.CEO = st.company.CEO) :
    ∀ (l : List RawEmployee) (st st' : ImportState) (err : Option HError),
      manageeLoop check l st = some (st', err) →
      (err ≠ some MissingCEOError ∧ err ≠ some InvalidEmployeesError) ∧
      (st.company.CEO ≠ none → st'.company.CEO = st.company.CEO) := by
  intro l
  induction l with
  | nil =>
    intro st st' err h
    simp only [manageeLoop, Option.some.injEq, Prod.mk.injEq] at h
    obtain ⟨h1, h2⟩ := h
    subst h1; subst h2
    simp
  | cons x rest ih =>
    intro st st' err h
    rw [manageeLoop] at h
    rcases hadd : AddEmployee st.heap st.company x with ⟨heap1, company1, res⟩
    rw [hadd] at h
    cases res with
    | error e1 =>
      simp only [Option.some.injEq, Prod.mk.injEq] at h
      obtain ⟨h1, h2⟩ := h
      subst h1; subst h2
      obtain ⟨hco, hcase⟩ := AddEmployee_error hadd
      refine ⟨?_, fun _ => by simp [hco]⟩
      rcases hcase with ⟨he, _⟩ | ⟨he, _⟩ <;> simp [he]
    | ok e =>
      simp only at h
      cases hch : check ⟨heap1, company1, st.manageeMap⟩ e with
      | none => simp [hch] at h
      | some r =>
        obtain ⟨st2, err2⟩ := r
        simp only [hch] at h
        obtain ⟨h3, h4⟩ := ih st2 st' err h
        refine ⟨h3, fun hc => ?_⟩
        have h5 : company1.CEO = st.company.CEO := AddEmployee_CEO_kept hadd hc
        have h6 : st2.company.CEO = company1.CEO :=
          hcheck _ _ _ _ hch (by simpa [h5] using hc)
        rw [h4 (by rw [h6, h5]; exact hc), h6, h5]

theorem CheckManageeMap_CEO :
    ∀ (fuel : Nat) (st : ImportState) (e : Employee) (st' : ImportState)
      (err : Option HError),
      CheckManageeMap fuel st e = some (st', err) →
      (err ≠ some MissingCEOError ∧ err ≠ some InvalidEmployeesError) ∧
      (st.company.CEO ≠ none → st'.company.CEO = st.company.CEO) := by
  intro fuel
  induction fuel with
  | zero => intro st e st' err h; simp [CheckManageeMap] at h
  | succ fuel ih =>
    intro st e st' err h
    rw [CheckManageeMap] at h
    cases hl : mapLookup st.manageeMap e.ID with
    | none =>
      simp only [hl, Option.some.injEq, Prod.mk.injEq] at h
      obtain ⟨h1, h2⟩ := h
      subst h1; subst h2
      simp
    | some managees =>
      simp only [hl] at h
      cases hloop : manageeLoop (CheckManageeMap fuel) managees st with
      | none => simp [hloop] at h
      | some r =>
        obtain ⟨st1, err1⟩ := r
        obtain ⟨h3, h4⟩ := manageeLoop_CEO (CheckManageeMap fuel)
          (fun a b c d hab hc => (ih a b c d hab).2 hc) managees st st1 err1 hloop
        cases err1 with
        | none =>
          simp only [hloop, Option.some.injEq, Prod.mk.injEq] at h
          obtain ⟨h1, h2⟩ := h
          subst h1; subst h2
          exact ⟨by simp, h4⟩
        | some e1 =>
          simp only [hloop, Option.some.injEq, Prod.mk.injEq] at h
          obtain ⟨h1, h2⟩ := h
          subst h1; subst h2
          exact ⟨h3, h4⟩

theorem importLoop_CEO (fuel : Nat) :
    ∀ (rs : List RawEmployee) (st st' : ImportState) (err : Option HError),
      importLoop fuel rs st = some (st', err) →
      (err ≠ some MissingCEOError ∧ err ≠ some InvalidEmployeesError) ∧
      (st.company.CEO ≠ none → st'.company.CEO = st.company.CEO) ∧
      (CeoFirst st.company → st'.company.CEO = none → ∀ r ∈ rs, r.Manager ≠ "") := by
  intro rs
  induction rs with
  | nil =>
    intro st st' err h
    simp only [importLoop, Option.some.injEq, Prod.mk.injEq] at h
    obtain ⟨h1, h2⟩ := h
    subst h1; subst h2
    simp
  | cons x rest ih =>
    intro st st' err h
    rw [importLoop] at h
    rcases hadd : AddEmployee st.heap st.company x with ⟨heap1, company1, res⟩
    rw [hadd] at h
    cases res with
    | error e1 =>
      obtain ⟨hco, hcase⟩ := AddEmployee_error hadd
      subst hco
      rcases hcase with ⟨he, hx, hceo⟩ | ⟨he, hx, hlk⟩
      · subst he
        simp only [reduceCtorEq, ↓reduceIte, Option.some.injEq, Prod.mk.injEq] at h
        obtain ⟨h1, h2⟩ := h
        subst h1; subst h2
        refine ⟨by simp, fun _ => rfl, fun _ hnone => absurd hnone hceo⟩
      · subst he
        simp only [↓reduceIte] at h
        obtain ⟨h3, h4, h5⟩ := ih _ st' err h
        refine ⟨h3, h4, fun hf hnone r hr => ?_⟩
        rcases List.mem_cons.1 hr with rfl | hr
        · exact hx
        · exact h5 hf hnone r hr
    | ok e =>
      simp only at h
      cases hch : CheckManageeMap fuel ⟨heap1, company1, st.manageeMap⟩ e with
      | none => simp [hch] at h
      | some r =>
        obtain ⟨st2, err2⟩ := r
        obtain ⟨h6, h7⟩ := CheckManageeMap_CEO fuel _ e st2 err2 hch
        have hkeep : st.company.CEO ≠ none → company1.CEO = st.company.CEO :=
          fun hc => AddEmployee_CEO_kept hadd hc
        cases err2 with
        | some e2 =>
          simp only [hch, Option.some.injEq, Prod.mk.injEq] at h
          obtain ⟨h1, h2⟩ := h
          subst h1; subst h2
          refine ⟨h6, fun hc => ?_, fun hf hnone => ?_⟩
          · rw [h7 (by simpa [hkeep hc] using hc), hkeep hc]
          · have h8 := AddEmployee_ok_CEO hadd hf
            rw [h7 h8] at hnone
            exact absurd hnone h8
        | none =>
          simp only [hch] at h
          obtain ⟨h3, h4, _⟩ := ih st2 st' err h
          refine ⟨h3, fun hc => ?_, fun hf hnone => ?_⟩
          · have h9 : st2.company.CEO = st.company.CEO := by
              rw [h7 (by simpa [hkeep hc] using hc), hkeep hc]
            rw [h4 (by rw [h9]; exact hc), h9]
          · have h8 := AddEmployee_ok_CEO hadd hf
            have h9 : st2.company.CEO = company1.CEO := h7 h8
            rw [h4 (by rw [h9]; exact h8), h9] at hnone
            exact absurd hnone h8

/-- C9, as stated, fails. On the empty input `ImportRawEmployeeData` returns
nil and leaves the CEO unset; on a single record with an absent manager it
leaves the CEO unset and returns `InvalidEmployeesError`, not
`MissingCEOError`. -/
theorem ImportRawEmployeeData_misses_unset_CEO :
    (ImportRawEmployeeData 0 Heap.empty Company.fresh []).map
        (fun r => (r.1.company.CEO.isSome, r.2)) = some (false, none) ∧
    (ImportRawEmployeeData 0 Heap.empty Company.fresh [⟨"alan", "2", "1"⟩]).map
        (fun r => (r.1.company.CEO.isSome, r.2)) =
      some (false, some InvalidEmployeesError) := by
  decide

/-- C9, amended. `ImportRawEmployeeData` on a fresh company never returns
`MissingCEOError`. It leaves the CEO unset only when no record has an empty
manager id, and on a non-empty input it then fails with
`InvalidEmployeesError`. On inputs without an empty manager id it returns at
every budget, with the CEO unset. -/
theorem ImportRawEmployeeData_CEO_unset (fuel : Nat) (rs : List RawEmployee) :
    (∀ st err, ImportRawEmployeeData fuel Heap.empty Company.fresh rs = some (st, err) →
      err ≠ some MissingCEOError ∧
      (st.company.CEO = none →
        (∀ r ∈ rs, r.Manager ≠ "") ∧
        (rs ≠ [] → err = some InvalidEmployeesError))) ∧
    ((∀ r ∈ rs, r.Manager ≠ "") →
      ∃ st err, ImportRawEmployeeData fuel Heap.empty Company.fresh rs = some (st, err) ∧
        st.company.CEO = none) := by
  constructor
  · intro st err h
    have hfresh : CeoFirst (⟨Heap.empty, Company.fresh, []⟩ : ImportState).company :=
      fun _ => rfl
    simp only [ImportRawEmployeeData] at h
    cases hloop : importLoop fuel rs ⟨Heap.empty, Company.fresh, []⟩ with
    | none => simp [hloop] at h
    | some r =>
      obtain ⟨st1, err1⟩ := r
      obtain ⟨h1, _, h3⟩ := importLoop_CEO fuel rs _ st1 err1 hloop
      have hst : st = st1 := by
        cases err1 with
        | none =>
          simp only [hloop] at h
          split at h <;> simp only [Option.some.injEq, Prod.mk.injEq] at h <;> exact h.1.symm
        | some e1 =>
          simp only [hloop, Option.some.injEq, Prod.mk.injEq] at h
          exact h.1.symm
      subst hst
      constructor
      · cases err1 with
        | none =>
          simp only [hloop] at h
          split at h <;> simp only [Option.some.injEq, Prod.mk.injEq] at h <;>
            (rw [← h.2]; simp)
        | some e1 =>
          simp only [hloop, Option.some.injEq, Prod.mk.injEq] at h
          rw [← h.2]; exact h1.1
      · intro hnone
        have hno := h3 hfresh hnone
        refine ⟨hno, fun hne => ?_⟩
        obtain ⟨_, st2, h4, _⟩ :=
          no_empty_manager_fails_InvalidEmployeesError_aux fuel rs hne hno
        simp only [ImportRawEmployeeData, hloop] at h h4
        rw [h] at h4
        simp only [Option.some.injEq, Prod.mk.injEq] at h4
        exact h4.2
  · intro hno
    obtain ⟨st, hrun, hco, _, _⟩ :=
      importLoop_no_root fuel rs ⟨Heap.empty, Company.fresh, []⟩ rfl hno
    have hceo : st.company.CEO = none := by rw [hco]; rfl
    simp only [ImportRawEmployeeData, hrun]
    split
    · exact ⟨st, _, rfl, hceo⟩
    · exact ⟨st, _, rfl, hceo⟩

/-- Witness for C9, amended: one record whose manager is absent. -/
theorem ImportRawEmployeeData_CEO_unset_witness :
    ∃ st err, ImportRawEmployeeData 0 Heap.empty Company.fresh [⟨"alan", "2", "1"⟩] =
        some (st, err) ∧ st.company.CEO = none :=
  (ImportRawEmployeeData_CEO_unset 0 [⟨"alan", "2", "1"⟩]).2 (by simp)

/-! ## Records, manager chains and managee lists -/

theorem id_inj {p : List RawEmployee} (hn : (p.map RawEmployee.ID).Nodup)
    {a b : RawEmployee} (ha : a ∈ p) (hb : b ∈ p) (hab : a.ID = b.ID) : a = b :=
  List.inj_on_of_nodup_map hn ha hb hab

theorem mem_manageesOf {rs : List RawEmployee} {id : String} {c : RawEmployee} :
    c ∈ manageesOf rs id ↔ c ∈ rs ∧ c.Manager ≠ "" ∧ c.Manager = id := by
  simp [manageesOf]

theorem manageesOf_append (p q : List RawEmployee) (id : String) :
    manageesOf (p ++ q) id = manageesOf p id ++ manageesOf q id := by
  simp [manageesOf]

theorem manageesOf_nodup {p : List RawEmployee} (hn : (p.map RawEmployee.ID).Nodup)
    (id : String) : ((manageesOf p id).map RawEmployee.ID).Nodup :=
  hn.sublist ((List.filter_sublist p).map RawEmployee.ID)

theorem ManagerChain.mono {p q : List RawEmployee} (hpq : ∀ x, x ∈ p → x ∈ q)
    {top r : RawEmployee} {d : Nat} (h : ManagerChain p top r d) :
    ManagerChain q top r d := by
  induction h with
  | here => exact ManagerChain.here
  | up hr hm hmem hid _ ih => exact ManagerChain.up (hpq _ hr) hm (hpq _ hmem) hid ih

theorem unregistered_length_le (p : List RawEmployee) (st : ImportState) :
    (unregistered p st).length ≤ p.length :=
  List.length_filter_le _ _

theorem filter_length_le_of_imp {α : Type} (f g : α → Bool) :
    ∀ (l : List α), (∀ a ∈ l, g a = true → f a = true) →
      (l.filter g).length ≤ (l.filter f).length := by
  intro l
  induction l with
  | nil => intro _; simp
  | cons a l ih =>
    intro himp
    have h1 := ih (fun x hx => himp x (List.mem_cons_of_mem _ hx))
    have h2 := himp a (List.mem_cons_self _ _)
    simp only [List.filter_cons]
    cases hg : g a <;> cases hf : f a
    · simpa using h1
    · simp only [Bool.false_eq_true, ↓reduceIte, List.length_cons]; omega
    · rw [hg, hf] at h2; simp at h2
    · simpa using h1

theorem filter_length_lt_of_flip {α : Type} (f g : α → Bool) :
    ∀ (l : List α), (∀ a ∈ l, g a = true → f a = true) →
      (∃ x ∈ l, f x = true ∧ g x = false) →
      (l.filter g).length < (l.filter f).length := by
  intro l
  induction l with
  | nil => intro _ h; obtain ⟨x, hx, _⟩ := h; simp at hx
  | cons a l ih =>
    intro himp hex
    have himp1 : ∀ x ∈ l, g x = true → f x = true :=
      fun x hx => himp x (List.mem_cons_of_mem _ hx)
    have hle := filter_length_le_of_imp f g l himp1
    have h2 := himp a (List.mem_cons_self _ _)
    obtain ⟨x, hx, hfx, hgx⟩ := hex
    simp only [List.filter_cons]
    rcases List.mem_cons.1 hx with rfl | hx
    · simp only [hgx, hfx, Bool.false_eq_true, ↓reduceIte, List.length_cons]; omega
    · have h1 := ih himp1 ⟨x, hx, hfx, hgx⟩
      cases hg : g a <;> cases hf : f a
      · simpa using h1
      · simp only [Bool.false_eq_true, ↓reduceIte, List.length_cons]; omega
      · rw [hg, hf] at h2; simp at h2
      · simpa using h1

/-! ## The import invariant: allocation, a new record, a pending record -/

theorem manageesOf_singleton (x : RawEmployee) (id : String) :
    manageesOf [x] id = if x.Manager ≠ "" ∧ x.Manager = id then [x] else [] := by
  unfold manageesOf
  by_cases hc : x.Manager ≠ "" ∧ x.Manager = id
  · rw [if_pos hc, List.filter_cons_of_pos (by simpa using hc)]
    rfl
  · rw [if_neg hc, List.filter_cons_of_neg (by simpa using hc)]
    rfl

theorem Inv.alloc {p : List RawEmployee} {S : String → Prop} {ex : RawEmployee → Prop}
    {st : ImportState} (h : Inv p S ex st) :
    Inv p S ex ⟨st.heap.alloc.1, st.company, st.manageeMap⟩ where
  nodup := h.nodup
  reg := by
    intro id e he
    obtain ⟨h1, h2, h3⟩ := h.reg id e he
    exact ⟨h1, by simp only [Heap.alloc]; omega, h3⟩
  cell_inj := h.cell_inj
  cells := by
    intro id e he
    obtain ⟨_, h2, _⟩ := h.reg id e he
    have hne : e.Managees ≠ st.heap.next := by omega
    simp only [Heap.alloc, Function.update_noteq hne]
    exact h.cells id e he
  ceo_first := h.ceo_first
  ceo_root := h.ceo_root
  ceo_has := h.ceo_has
  mm_list := h.mm_list
  mm_keys := h.mm_keys
  pend := h.pend

theorem Inv.not_mem_ids {p : List RawEmployee} {S : String → Prop}
    {ex : RawEmployee → Prop} {st : ImportState} (h : Inv p S ex st) {id : String}
    (hid : id ∉ p.map RawEmployee.ID) : mapLookup st.company.Employees id = none := by
  rcases Option.eq_none_or_eq_some (mapLookup st.company.Employees id) with hl | ⟨e, hl⟩
  · exact hl
  · obtain ⟨_, _, r, hr, hrid, _⟩ := h.reg id e hl
    exact absurd (List.mem_map.2 ⟨r, hr, hrid⟩) hid

theorem Inv.reg_extend {p : List RawEmployee} {S : String → Prop}
    {ex : RawEmployee → Prop} {st : ImportState} (h : Inv p S ex st) (x : RawEmployee) :
    ∀ id e, mapLookup st.company.Employees id = some e →
      e.ID = id ∧ e.Managees < st.heap.next ∧
      ∃ r ∈ p ++ [x], r.ID = id ∧ e.Name = r.Name ∧
        (r.Manager = "" ∨ mapLookup st.company.Employees r.Manager ≠ none) ∧
        ∃ root d, root ∈ p ++ [x] ∧ root.Manager = "" ∧ ManagerChain (p ++ [x]) root r d := by
  intro id e he
  obtain ⟨h1, h2, r, hr, h3, h4, h5, root, d, h6, h7, h8⟩ := h.reg id e he
  exact ⟨h1, h2, r, List.mem_append_left _ hr, h3, h4, h5, root, d,
    List.mem_append_left _ h6, h7, h8.mono (fun y hy => List.mem_append_left _ hy)⟩

theorem Inv.cells_extend {p : List RawEmployee} {S : String → Prop}
    {ex : RawEmployee → Prop} {st : ImportState} (h : Inv p S ex st) (x : RawEmployee)
    (hx : x.ID ∉ p.map RawEmployee.ID) :
    ∀ id e, mapLookup st.company.Employees id = some e →
      st.heap.cells e.Managees =
        (manageesOf (p ++ [x]) id).filterMap
          (fun c => mapLookup st.company.Employees c.ID) := by
  intro id e he
  rw [h.cells id e he, manageesOf_append, List.filterMap_append]
  have hnone := h.not_mem_ids hx
  have : (manageesOf [x] id).filterMap
      (fun c => mapLookup st.company.Employees c.ID) = [] := by
    rw [manageesOf_singleton]
    by_cases hc : x.Manager ≠ "" ∧ x.Manager = id
    · rw [if_pos hc]
      simp [hnone]
    · rw [if_neg hc]
      rfl
  rw [this, List.append_nil]

theorem nodup_ids_append {p : List RawEmployee} {x : RawEmployee}
    (hn : (p.map RawEmployee.ID).Nodup) (hx : x.ID ∉ p.map RawEmployee.ID) :
    ((p ++ [x]).map RawEmployee.ID).Nodup := by
  rw [List.map_append, List.nodup_append]
  refine ⟨hn, by simp, ?_⟩
  intro a ha hb
  simp only [List.map_cons, List.map_nil, List.mem_singleton] at hb
  subst hb
  exact hx ha

/-- A new record joins the processed records before it is added. -/
theorem Inv.extend {p : List RawEmployee} {S : String → Prop} {st : ImportState}
    (h : Inv p S (fun _ => False) st) {x : RawEmployee}
    (hx : x.ID ∉ p.map RawEmployee.ID)
    (hkey : x.Manager ≠ "" → mapLookup st.manageeMap x.Manager = none) :
    Inv (p ++ [x]) S (fun r => r = x) st where
  nodup := nodup_ids_append h.nodup hx
  reg := h.reg_extend x
  cell_inj := h.cell_inj
  cells := h.cells_extend x hx
  ceo_first := h.ceo_first
  ceo_root := by
    intro r hr hne hm
    rcases List.mem_append.1 hr with hr | hr
    · exact h.ceo_root r hr (fun hf => hf) hm
    · simp only [List.mem_singleton] at hr
      exact absurd hr hne
  ceo_has := by
    intro hc
    obtain ⟨r, hr, hm⟩ := h.ceo_has hc
    exact ⟨r, List.mem_append_left _ hr, hm⟩
  mm_list := by
    intro j l hl
    obtain ⟨h1, h2, h3⟩ := h.mm_list j l hl
    refine ⟨h1, h2, ?_⟩
    rw [manageesOf_append, h3]
    have : manageesOf [x] j = [] := by
      rw [manageesOf_singleton]
      by_cases hc : x.Manager ≠ "" ∧ x.Manager = j
      · have := hkey hc.1
        rw [hc.2, hl] at this
        simp at this
      · rw [if_neg hc]
    rw [this, List.append_nil]
  mm_keys := h.mm_keys
  pend := by
    intro r hr hne hl
    rcases List.mem_append.1 hr with hr | hr
    · exact h.pend r hr (fun hf => hf) hl
    · simp only [List.mem_singleton] at hr
      exact absurd hr hne

/-- A record whose manager is not registered joins the pending map. -/
theorem Inv.pending {p : List RawEmployee} {S : String → Prop} {st : ImportState}
    (h : Inv p S (fun _ => False) st) {x : RawEmployee}
    (hx : x.ID ∉ p.map RawEmployee.ID) (hm : x.Manager ≠ "")
    (hl : mapLookup st.company.Employees x.Manager = none) :
    Inv (p ++ [x]) S (fun _ => False)
      ⟨st.heap, st.company,
        mapStore st.manageeMap x.Manager
          ((mapLookup st.manageeMap x.Manager).getD [] ++ [x])⟩ where
  nodup := nodup_ids_append h.nodup hx
  reg := h.reg_extend x
  cell_inj := h.cell_inj
  cells := h.cells_extend x hx
  ceo_first := h.ceo_first
  ceo_root := by
    intro r hr _ hrm
    rcases List.mem_append.1 hr with hr | hr
    · exact h.ceo_root r hr (fun hf => hf) hrm
    · simp only [List.mem_singleton] at hr
      subst hr
      exact absurd hrm hm
  ceo_has := by
    intro hc
    obtain ⟨r, hr, hm⟩ := h.ceo_has hc
    exact ⟨r, List.mem_append_left _ hr, hm⟩
  mm_list := by
    intro j l hjl
    simp only [mapLookup_mapStore] at hjl
    by_cases hj : j = x.Manager
    · subst hj
      simp only [↓reduceIte, Option.some.injEq] at hjl
      subst hjl
      refine ⟨hm, by simp, ?_⟩
      have hx1 : manageesOf [x] x.Manager = [x] := by
        rw [manageesOf_singleton, if_pos ⟨hm, rfl⟩]
      rw [manageesOf_append, hx1]
      congr 1
      rcases Option.eq_none_or_eq_some (mapLookup st.manageeMap x.Manager) with
        hn | ⟨l0, hs⟩
      · rw [hn]
        simp only [Option.getD_none]
        symm
        rw [List.eq_nil_iff_forall_not_mem]
        intro c hc
        obtain ⟨hcp, hcm, hcx⟩ := mem_manageesOf.1 hc
        rcases Option.eq_none_or_eq_some (mapLookup st.company.Employees c.ID) with
          hcn | ⟨e, hce⟩
        · have := (h.pend c hcp (fun hf => hf) hcn).2
          rw [hcx] at this
          exact this hn
        · obtain ⟨_, _, r, hr, hrid, _, hor, _⟩ := h.reg c.ID e hce
          have hrc : r = c := id_inj h.nodup hr hcp hrid
          subst hrc
          rcases hor with h0 | h0
          · exact hcm h0
          · rw [hcx] at h0
            exact h0 hl
      · rw [hs]
        simp only [Option.getD_some]
        exact (h.mm_list _ _ hs).2.2
    · simp only [hj, ↓reduceIte] at hjl
      obtain ⟨h1, h2, h3⟩ := h.mm_list j l hjl
      refine ⟨h1, h2, ?_⟩
      rw [manageesOf_append, h3]
      have : manageesOf [x] j = [] := by
        have hc : ¬ (x.Manager ≠ "" ∧ x.Manager = j) := fun hc => hj hc.2.symm
        rw [manageesOf_singleton, if_neg hc]
      rw [this, List.append_nil]
  mm_keys := by
    intro j hj hreg
    simp only [mapLookup_mapStore] at hj
    by_cases hjx : j = x.Manager
    · subst hjx
      exact absurd hl hreg
    · simp only [hjx, ↓reduceIte] at hj
      exact h.mm_keys j hj hreg
  pend := by
    intro r hr _ hrl
    simp only [mapLookup_mapStore]
    rcases List.mem_append.1 hr with hr | hr
    · obtain ⟨h1, h2⟩ := h.pend r hr (fun hf => hf) hrl
      refine ⟨h1, ?_⟩
      by_cases hj : r.Manager = x.Manager
      · simp [hj]
      · simpa [hj] using h2
    · simp only [List.mem_singleton] at hr
      subst hr
      exact ⟨hm, by simp⟩

/-! ## The import invariant: registering a record -/

/-- The first record with an empty manager id becomes the CEO. -/
theorem Inv.add_root {p : List RawEmployee} {S : String → Prop} {st : ImportState}
    {x : RawEmployee} (h : Inv p S (fun r => r = x) st) (hx : x ∈ p)
    (hm : x.Manager = "") (hc : st.company.CEO = none) :
    Inv p (fun j => S j ∨ j = x.ID) (fun _ => False)
      ⟨st.heap.alloc.1,
        ⟨mapStore st.company.Employees x.ID (Employee.mk x.Name x.ID none st.heap.next),
          some (Employee.mk x.Name x.ID none st.heap.next)⟩,
        st.manageeMap⟩ := by
  have hE : st.company.Employees = [] := h.ceo_first hc
  have hlk : ∀ id, mapLookup (mapStore st.company.Employees x.ID
      (Employee.mk x.Name x.ID none st.heap.next)) id =
      if id = x.ID then some (Employee.mk x.Name x.ID none st.heap.next) else none := by
    intro id
    rw [mapLookup_mapStore, hE]
    rfl
  refine
    { nodup := h.nodup, reg := ?_, cell_inj := ?_, cells := ?_, ceo_first := ?_,
      ceo_root := ?_, ceo_has := ?_, mm_list := h.mm_list, mm_keys := ?_, pend := ?_ }
  · intro id e he
    simp only [hlk] at he ⊢
    by_cases hid : id = x.ID
    · subst hid
      simp only [↓reduceIte, Option.some.injEq] at he
      subst he
      refine ⟨rfl, by simp [Heap.alloc, Employee.Managees], x, hx, rfl, rfl, Or.inl hm,
        x, 0, hx, hm, ManagerChain.here⟩
    · simp [hid] at he
  · intro id1 id2 e1 e2 h1 h2 _
    simp only [hlk] at h1 h2
    by_cases hid1 : id1 = x.ID
    · by_cases hid2 : id2 = x.ID
      · rw [hid1, hid2]
      · simp [hid2] at h2
    · simp [hid1] at h1
  · intro id e he
    simp only [hlk] at he ⊢
    by_cases hid : id = x.ID
    · subst hid
      simp only [↓reduceIte, Option.some.injEq] at he
      subst he
      simp only [Heap.alloc, Employee.Managees, Function.update_same]
      symm
      rw [List.filterMap_eq_nil_iff]
      intro c hcm
      obtain ⟨hcp, hcn, _⟩ := mem_manageesOf.1 hcm
      have hne : c.ID ≠ x.ID := by
        intro hcx
        have := id_inj h.nodup hcp hx hcx
        subst this
        exact hcn hm
      simp [hne]
    · simp [hid] at he
  · intro hnone
    simp at hnone
  · intro r hr _ hrm
    refine ⟨by simp, ?_⟩
    by_cases hrx : r = x
    · subst hrx
      simp [hlk]
    · exact absurd hc (h.ceo_root r hr hrx hrm).1
  · intro _
    exact ⟨x, hx, hm⟩
  · intro j _ hreg
    simp only [hlk] at hreg
    by_cases hj : j = x.ID
    · exact Or.inr hj
    · simp [hj] at hreg
  · intro r hr _ hrl
    have hrx : r ≠ x := by
      intro hrx
      subst hrx
      simp [hlk] at hrl
    have hrn : mapLookup st.company.Employees r.ID = none := by
      rw [hE]; rfl
    exact h.pend r hr hrx hrn

theorem Employee.Managees_mk (n i : String) (m : Option Employee) (a : Nat) :
    (Employee.mk n i m a).Managees = a := rfl

theorem Employee.ID_mk (n i : String) (m : Option Employee) (a : Nat) :
    (Employee.mk n i m a).ID = i := rfl

theorem Employee.Name_mk (n i : String) (m : Option Employee) (a : Nat) :
    (Employee.mk n i m a).Name = n := rfl

theorem filterMap_lookup_congr {E E' : GoMap Employee} {l : List RawEmployee}
    (h : ∀ c ∈ l, mapLookup E' c.ID = mapLookup E c.ID) :
    l.filterMap (fun c => mapLookup E' c.ID) = l.filterMap (fun c => mapLookup E c.ID) := by
  induction l with
  | nil => rfl
  | cons a l ih =>
    simp only [List.filterMap_cons]
    rw [h a (List.mem_cons_self _ _), ih (fun c hc => h c (List.mem_cons_of_mem _ hc))]

theorem filterMap_lookup_nil {E : GoMap Employee} {l : List RawEmployee}
    (h : ∀ c ∈ l, mapLookup E c.ID = none) :
    l.filterMap (fun c => mapLookup E c.ID) = [] := by
  rw [List.filterMap_eq_nil_iff]
  exact h

/-- A record whose manager is registered is appended to the manager's slice.
`A` are the manager's managees before it in the input, `B` the ones after it,
none of which is registered yet. -/
theorem Inv.add_child {p : List RawEmployee} {S : String → Prop} {st : ImportState}
    {x : RawEmployee} {em : Employee} {A B : List RawEmployee}
    (h : Inv p S (fun r => r = x) st) (hx : x ∈ p)
    (hm : x.Manager ≠ "") (hl : mapLookup st.company.Employees x.Manager = some em)
    (hnew : mapLookup st.company.Employees x.ID = none)
    (hshape : manageesOf p x.Manager = A ++ x :: B)
    (hB : ∀ b ∈ B, mapLookup st.company.Employees b.ID = none) :
    Inv p (fun j => S j ∨ j = x.ID) (fun _ => False)
      ⟨(st.heap.alloc.1).write em.Managees
          ((st.heap.alloc.1).read em.Managees ++
            [Employee.mk x.Name x.ID (some em) st.heap.next]),
        ⟨mapStore st.company.Employees x.ID
            (Employee.mk x.Name x.ID (some em) st.heap.next),
          st.company.CEO⟩,
        st.manageeMap⟩ := by
  obtain ⟨hemid, hemlt, rm, hrm, hrmid, _, _, root, d, hroot, hrootm, hchain⟩ :=
    h.reg _ _ hl
  have hmx : x.Manager ≠ x.ID := by
    intro heq
    rw [heq, hnew] at hl
    simp at hl
  have hlk : ∀ id, mapLookup (mapStore st.company.Employees x.ID
      (Employee.mk x.Name x.ID (some em) st.heap.next)) id =
      if id = x.ID then some (Employee.mk x.Name x.ID (some em) st.heap.next)
      else mapLookup st.company.Employees id := fun id => mapLookup_mapStore _ _ _ _
  have hlk_ne : ∀ c ∈ p, c ≠ x → mapLookup (mapStore st.company.Employees x.ID
      (Employee.mk x.Name x.ID (some em) st.heap.next)) c.ID =
      mapLookup st.company.Employees c.ID := by
    intro c hc hcx
    rw [hlk, if_neg (fun hid => hcx (id_inj h.nodup hc hx hid))]
  have hcell : ∀ a, ((st.heap.alloc.1).write em.Managees
      ((st.heap.alloc.1).read em.Managees ++
        [Employee.mk x.Name x.ID (some em) st.heap.next])).cells a =
      if a = em.Managees then
        st.heap.cells em.Managees ++ [Employee.mk x.Name x.ID (some em) st.heap.next]
      else if a = st.heap.next then [] else st.heap.cells a := by
    intro a
    have hne : em.Managees ≠ st.heap.next := by omega
    simp only [Heap.write, Heap.alloc, Heap.read, Function.update_apply, hne, ↓reduceIte]
  have hceo : st.company.CEO ≠ none := by
    intro hc
    rw [h.ceo_first hc] at hl
    simp [mapLookup] at hl
  have hkids : ∀ c ∈ p, c.Manager ≠ "" → c.Manager = x.ID →
      mapLookup st.company.Employees c.ID = none := by
    intro c hc hcm hcx
    rcases Option.eq_none_or_eq_some (mapLookup st.company.Employees c.ID) with
      hcn | ⟨e, hce⟩
    · exact hcn
    · obtain ⟨_, _, r, hr, hrid, _, hor, _⟩ := h.reg c.ID e hce
      have hrc : r = c := id_inj h.nodup hr hc hrid
      subst hrc
      rcases hor with h0 | h0
      · exact absurd h0 hcm
      · rw [hcx] at h0
        exact absurd hnew h0
  have hnd := manageesOf_nodup h.nodup x.Manager
  rw [hshape] at hnd
  refine
    { nodup := h.nodup, reg := ?_, cell_inj := ?_, cells := ?_, ceo_first := ?_,
      ceo_root := ?_, ceo_has := h.ceo_has, mm_list := h.mm_list, mm_keys := ?_,
      pend := ?_ }
  · intro id e he
    simp only [hlk] at he ⊢
    by_cases hid : id = x.ID
    · subst hid
      simp only [↓reduceIte, Option.some.injEq] at he
      subst he
      refine ⟨rfl, by simp [Heap.write, Heap.alloc, Employee.Managees_mk], x, hx, rfl, rfl,
        Or.inr ?_, root, d + 1, hroot, hrootm,
        ManagerChain.up hx hm hrm hrmid hchain⟩
      rw [if_neg hmx, hl]
      simp
    · simp only [hid, ↓reduceIte] at he
      obtain ⟨h1, h2, r, hr, h3, h4, h5, h6⟩ := h.reg id e he
      refine ⟨h1, by simp only [Heap.write, Heap.alloc]; omega, r, hr, h3, h4, ?_, h6⟩
      rcases h5 with h5 | h5
      · exact Or.inl h5
      · right
        by_cases hrx : r.Manager = x.ID
        · simp [hrx]
        · simpa [hrx] using h5
  · intro id1 id2 e1 e2 h1 h2 h12
    simp only [hlk] at h1 h2
    by_cases hid1 : id1 = x.ID
    · by_cases hid2 : id2 = x.ID
      · rw [hid1, hid2]
      · simp only [hid1, ↓reduceIte, Option.some.injEq] at h1
        simp only [hid2, ↓reduceIte] at h2
        have := (h.reg _ _ h2).2.1
        rw [← h12, ← h1] at this
        simp [Employee.Managees_mk] at this
    · simp only [hid1, ↓reduceIte] at h1
      by_cases hid2 : id2 = x.ID
      · simp only [hid2, ↓reduceIte, Option.some.injEq] at h2
        have := (h.reg _ _ h1).2.1
        rw [h12, ← h2] at this
        simp [Employee.Managees_mk] at this
      · simp only [hid2, ↓reduceIte] at h2
        exact h.cell_inj id1 id2 e1 e2 h1 h2 h12
  · intro id e he
    simp only [hlk] at he
    rw [hcell]
    by_cases hid : id = x.ID
    · subst hid
      simp only [↓reduceIte, Option.some.injEq] at he
      subst he
      have hne : st.heap.next ≠ em.Managees := by omega
      simp only [Employee.Managees_mk, hne, ↓reduceIte]
      symm
      apply filterMap_lookup_nil
      intro c hcm
      obtain ⟨hcp, hcn, hcx⟩ := mem_manageesOf.1 hcm
      have hcne : c ≠ x := by
        intro hcx2
        subst hcx2
        exact hmx hcx
      rw [hlk_ne c hcp hcne]
      exact hkids c hcp hcn hcx
    · simp only [hid, ↓reduceIte] at he
      have hlt := (h.reg _ _ he).2.1
      by_cases hidm : id = x.Manager
      · subst hidm
        have hee : e = em := by
          rw [hl] at he
          exact (Option.some.inj he).symm
        subst hee
        simp only [↓reduceIte]
        rw [h.cells _ _ he, hshape]
        simp only [List.filterMap_append, List.filterMap_cons, hlk, ↓reduceIte, hnew]
        have hA : A.filterMap (fun c => if c.ID = x.ID then
            some (Employee.mk x.Name x.ID (some e) st.heap.next)
            else mapLookup st.company.Employees c.ID) =
            A.filterMap (fun c => mapLookup st.company.Employees c.ID) := by
          apply List.filterMap_congr
          intro c hc
          have hcne : c.ID ≠ x.ID := by
            intro hcx
            rw [List.map_append, List.nodup_append] at hnd
            exact hnd.2.2 (List.mem_map.2 ⟨c, hc, hcx⟩) (by simp)
          simp [hcne]
        have hB1 : B.filterMap (fun c => if c.ID = x.ID then
            some (Employee.mk x.Name x.ID (some e) st.heap.next)
            else mapLookup st.company.Employees c.ID) = [] := by
          rw [List.filterMap_eq_nil_iff]
          intro c hc
          have hcne : c.ID ≠ x.ID := by
            intro hcx
            rw [List.map_append, List.nodup_append] at hnd
            have h2 := hnd.2.1
            simp only [List.map_cons, List.nodup_cons, List.mem_map, not_exists,
              not_and] at h2
            exact h2.1 c hc hcx
          simp [hcne, hB c hc]
        have hB0 : B.filterMap (fun c => mapLookup st.company.Employees c.ID) = [] :=
          filterMap_lookup_nil hB
        rw [hA, hB1, hB0]
        simp
      · have hne1 : e.Managees ≠ em.Managees := by
          intro heq
          exact hidm (h.cell_inj _ _ _ _ he hl heq)
        have hne2 : e.Managees ≠ st.heap.next := by omega
        simp only [hne1, hne2, ↓reduceIte]
        rw [h.cells _ _ he]
        symm
        apply filterMap_lookup_congr
        intro c hcm
        obtain ⟨hcp, _, hcx⟩ := mem_manageesOf.1 hcm
        apply hlk_ne c hcp
        intro hcx2
        subst hcx2
        exact hidm hcx.symm
  · intro hnone
    exact absurd hnone hceo
  · intro r hr _ hrm
    have hrx : r ≠ x := by
      intro hrx
      subst hrx
      exact hm hrm
    obtain ⟨h1, h2⟩ := h.ceo_root r hr hrx hrm
    refine ⟨h1, ?_⟩
    show st.company.CEO = _
    rw [hlk_ne r hr hrx]
    exact h2
  · intro j hj hreg
    simp only [hlk] at hreg
    by_cases hjx : j = x.ID
    · exact Or.inr hjx
    · simp only [hjx, ↓reduceIte] at hreg
      exact Or.inl (h.mm_keys j hj hreg)
  · intro r hr _ hrl
    simp only [hlk] at hrl
    by_cases hrid : r.ID = x.ID
    · simp [hrid] at hrl
    · simp only [hrid, ↓reduceIte] at hrl
      have hrx : r ≠ x := fun hrx => hrid (by rw [hrx])
      exact h.pend r hr hrx hrl

theorem Inv.weaken {p : List RawEmployee} {S S1 : String → Prop}
    {ex ex1 : RawEmployee → Prop} {st : ImportState} (h : Inv p S ex st)
    (hS : ∀ j, S j → S1 j) (hex : ∀ r, ex r → ex1 r) : Inv p S1 ex1 st where
  nodup := h.nodup
  reg := h.reg
  cell_inj := h.cell_inj
  cells := h.cells
  ceo_first := h.ceo_first
  ceo_root := fun r hr hne hm => h.ceo_root r hr (fun hf => hne (hex r hf)) hm
  ceo_has := h.ceo_has
  mm_list := h.mm_list
  mm_keys := fun j hj hreg => hS j (h.mm_keys j hj hreg)
  pend := fun r hr hne hl => h.pend r hr (fun hf => hne (hex r hf)) hl

/-- `AddEmployee` on a record that is not registered yet, whose manager is
registered (or that is the first record with an empty manager id): it
succeeds, registers exactly this record, and leaves one unregistered record
fewer. -/
theorem Inv.add {p : List RawEmployee} {S : String → Prop} {st : ImportState}
    {x : RawEmployee} (h : Inv p S (fun r => r = x) st) (hx : x ∈ p)
    (hnew : mapLookup st.company.Employees x.ID = none)
    (hok : (x.Manager = "" ∧ st.company.CEO = none) ∨
      (x.Manager ≠ "" ∧ mapLookup st.company.Employees x.Manager ≠ none))
    (hshape : x.Manager ≠ "" → ∃ A B, manageesOf p x.Manager = A ++ x :: B ∧
      ∀ b ∈ B, mapLookup st.company.Employees b.ID = none) :
    ∃ heap1 company1 e,
      AddEmployee st.heap st.company x = (heap1, company1, Except.ok e) ∧
      e.ID = x.ID ∧
      Inv p (fun j => S j ∨ j = x.ID) (fun _ => False) ⟨heap1, company1, st.manageeMap⟩ ∧
      (∀ id, mapLookup company1.Employees id =
        if id = x.ID then some e else mapLookup st.company.Employees id) ∧
      (∀ c ∈ p, c.Manager ≠ "" → c.Manager = x.ID →
        mapLookup company1.Employees c.ID = none) ∧
      (unregistered p ⟨heap1, company1, st.manageeMap⟩).length <
        (unregistered p st).length := by
  have hkids : ∀ c ∈ p, c.Manager ≠ "" → c.Manager = x.ID →
      c ≠ x ∧ mapLookup st.company.Employees c.ID = none := by
    intro c hc hcm hcx
    constructor
    · intro hcx2
      subst hcx2
      rcases hok with ⟨h1, _⟩ | ⟨_, h2⟩
      · exact hcm h1
      · rw [hcx] at h2
        exact h2 hnew
    · rcases Option.eq_none_or_eq_some (mapLookup st.company.Employees c.ID) with
        hcn | ⟨e, hce⟩
      · exact hcn
      · obtain ⟨_, _, r, hr, hrid, _, hor, _⟩ := h.reg c.ID e hce
        have hrc : r = c := id_inj h.nodup hr hc hrid
        subst hrc
        rcases hor with h0 | h0
        · exact absurd h0 hcm
        · rw [hcx] at h0
          exact absurd hnew h0
  have key : ∀ (heap1 : Heap) (company1 : Company) (e : Employee),
      e.ID = x.ID →
      company1.Employees = mapStore st.company.Employees x.ID e →
      Inv p (fun j => S j ∨ j = x.ID) (fun _ => False)
        ⟨heap1, company1, st.manageeMap⟩ →
      e.ID = x.ID ∧
      Inv p (fun j => S j ∨ j = x.ID) (fun _ => False) ⟨heap1, company1, st.manageeMap⟩ ∧
      (∀ id, mapLookup company1.Employees id =
        if id = x.ID then some e else mapLookup st.company.Employees id) ∧
      (∀ c ∈ p, c.Manager ≠ "" → c.Manager = x.ID →
        mapLookup company1.Employees c.ID = none) ∧
      (unregistered p ⟨heap1, company1, st.manageeMap⟩).length <
        (unregistered p st).length := by
    intro heap1 company1 e he hE hinv
    have hlk : ∀ id, mapLookup company1.Employees id =
        if id = x.ID then some e else mapLookup st.company.Employees id := by
      intro id
      rw [hE, mapLookup_mapStore]
    refine ⟨he, hinv, hlk, ?_, ?_⟩
    · intro c hc hcm hcx
      obtain ⟨h1, h2⟩ := hkids c hc hcm hcx
      rw [hlk, if_neg (fun hid => h1 (id_inj h.nodup hc hx hid))]
      exact h2
    · apply filter_length_lt_of_flip
      · intro a _ ha
        simp only [hlk] at ha
        by_cases hax : a.ID = x.ID
        · simp [hax] at ha
        · simpa [hax] using ha
      · exact ⟨x, hx, by simp [hnew], by simp [hlk]⟩
  rcases hok with ⟨hm, hc⟩ | ⟨hm, hl⟩
  · exact ⟨_, _, _, AddEmployee_root hm hc,
      key _ _ _ rfl rfl (h.add_root hx hm hc)⟩
  · rcases Option.eq_none_or_eq_some (mapLookup st.company.Employees x.Manager) with
      hn | ⟨em, hem⟩
    · exact absurd hn hl
    · obtain ⟨A, B, hAB, hB⟩ := hshape hm
      exact ⟨_, _, _, AddEmployee_found hm hem,
        key _ _ _ rfl rfl (h.add_child hx hm hem hnew hAB hB)⟩

/-! ## Draining the pending map -/

theorem Grows.refl (st : ImportState) : Grows st st := fun _ _ h => h

theorem Grows.trans {a b c : ImportState} (h1 : Grows a b) (h2 : Grows b c) : Grows a c :=
  fun id e h => h2 id e (h1 id e h)

theorem Grows.lookup_none {a b : ImportState} (h : Grows a b) {id : String}
    (hb : mapLookup b.company.Employees id = none) :
    mapLookup a.company.Employees id = none := by
  rcases Option.eq_none_or_eq_some (mapLookup a.company.Employees id) with hn | ⟨e, he⟩
  · exact hn
  · rw [h id e he] at hb
    simp at hb

theorem Grows.lookup_ne_none {a b : ImportState} (h : Grows a b) {id : String}
    (ha : mapLookup a.company.Employees id ≠ none) :
    mapLookup b.company.Employees id ≠ none :=
  fun hb => ha (h.lookup_none hb)

theorem Grows.unregistered_le {a b : ImportState} (h : Grows a b) (p : List RawEmployee) :
    (unregistered p b).length ≤ (unregistered p a).length := by
  apply filter_length_le_of_imp
  intro r _ hr
  simp only [Option.isNone_iff_eq_none] at hr ⊢
  exact h.lookup_none hr

theorem Inv.change_keys {p : List RawEmployee} {S S1 : String → Prop}
    {ex : RawEmployee → Prop} {st : ImportState} (h : Inv p S ex st)
    (hk : ∀ j, mapLookup st.manageeMap j ≠ none →
      mapLookup st.company.Employees j ≠ none → S j → S1 j) : Inv p S1 ex st where
  nodup := h.nodup
  reg := h.reg
  cell_inj := h.cell_inj
  cells := h.cells
  ceo_first := h.ceo_first
  ceo_root := h.ceo_root
  ceo_has := h.ceo_has
  mm_list := h.mm_list
  mm_keys := fun j hj hreg => hk j hj hreg (h.mm_keys j hj hreg)
  pend := h.pend

/-- After the loop over the records pending on `k`, the key `k` is deleted. -/
theorem Inv.delete_key {p : List RawEmployee} {S : String → Prop} {st : ImportState}
    {k : String} (h : Inv p (fun j => S j ∨ j = k) (fun _ => False) st)
    (hall : ∀ y ∈ manageesOf p k, mapLookup st.company.Employees y.ID ≠ none) :
    Inv p S (fun _ => False) ⟨st.heap, st.company, mapDelete st.manageeMap k⟩ where
  nodup := h.nodup
  reg := h.reg
  cell_inj := h.cell_inj
  cells := h.cells
  ceo_first := h.ceo_first
  ceo_root := h.ceo_root
  ceo_has := h.ceo_has
  mm_list := by
    intro j l hl
    simp only [mapLookup_mapDelete] at hl
    by_cases hj : j = k
    · simp [hj] at hl
    · simp only [hj, ↓reduceIte] at hl
      exact h.mm_list j l hl
  mm_keys := by
    intro j hj hreg
    simp only [mapLookup_mapDelete] at hj
    by_cases hjk : j = k
    · simp [hjk] at hj
    · simp only [hjk, ↓reduceIte] at hj
      rcases h.mm_keys j hj hreg with h1 | h1
      · exact h1
      · exact absurd h1 hjk
  pend := by
    intro r hr hne hl
    obtain ⟨h1, h2⟩ := h.pend r hr hne hl
    refine ⟨h1, ?_⟩
    simp only [mapLookup_mapDelete]
    by_cases hrk : r.Manager = k
    · exact absurd hl (hall r (mem_manageesOf.2 ⟨hr, h1, hrk⟩))
    · simpa [hrk] using h2

theorem manageeLoop_drains (p : List RawEmployee) (f : Nat)
    (ih : ∀ (S : String → Prop) (st : ImportState) (e : Employee),
      Inv p (fun j => S j ∨ j = e.ID) (fun _ => False) st →
      mapLookup st.company.Employees e.ID ≠ none →
      (∀ c ∈ p, c.Manager ≠ "" → c.Manager = e.ID →
        mapLookup st.company.Employees c.ID = none) →
      (unregistered p st).length < f →
      ∃ st1, CheckManageeMap f st e = some (st1, none) ∧
        Inv p S (fun _ => False) st1 ∧ Grows st st1 ∧ NewUnder p st st1 e.ID)
    (S : String → Prop) (k : String) :
    ∀ (rem done : List RawEmployee) (st : ImportState),
      Inv p S (fun _ => False) st →
      mapLookup st.company.Employees k ≠ none →
      manageesOf p k = done ++ rem →
      (∀ y ∈ rem, mapLookup st.company.Employees y.ID = none) →
      (∀ y ∈ done, mapLookup st.company.Employees y.ID ≠ none) →
      (unregistered p st).length ≤ f →
      ∃ st1, manageeLoop (CheckManageeMap f) rem st = some (st1, none) ∧
        Inv p S (fun _ => False) st1 ∧ Grows st st1 ∧ NewUnder p st st1 k ∧
        ∀ y ∈ done ++ rem, mapLookup st1.company.Employees y.ID ≠ none := by
  intro rem
  induction rem with
  | nil =>
    intro done st h _ _ _ hdone _
    refine ⟨st, rfl, h, Grows.refl st, ?_, ?_⟩
    · intro c _ h1 h2
      exact absurd h1 h2
    · simpa using hdone
  | cons x rem1 ihrem =>
    intro done st h hkreg hshape hrem hdone hfuel
    have hxm : x ∈ manageesOf p k := by rw [hshape]; simp
    obtain ⟨hxp, hxm1, hxk⟩ := mem_manageesOf.1 hxm
    have hnew : mapLookup st.company.Employees x.ID = none :=
      hrem x (List.mem_cons_self _ _)
    obtain ⟨heap1, company1, e, hadd, heid, hinv1, hlk1, hkids1, hlt1⟩ :=
      Inv.add (h.weaken (fun _ hj => hj) (fun _ hf => hf.elim)) hxp hnew
        (Or.inr ⟨hxm1, by rw [hxk]; exact hkreg⟩)
        (fun _ => ⟨done, rem1, by rw [hxk]; exact hshape,
          fun b hb => hrem b (List.mem_cons_of_mem _ hb)⟩)
    have hkx : k ≠ x.ID := by
      intro hkx
      rw [hkx] at hkreg
      exact hkreg hnew
    have hgrow1 : Grows st ⟨heap1, company1, st.manageeMap⟩ := by
      intro id e0 he0
      show mapLookup company1.Employees id = some e0
      rw [hlk1, if_neg, he0]
      intro hid
      rw [hid, hnew] at he0
      simp at he0
    obtain ⟨st2, hcheck, hinv2, hgrow2, hnew2⟩ :=
      ih S ⟨heap1, company1, st.manageeMap⟩ e
        (hinv1.weaken (fun j hj => by rw [heid]; exact hj) (fun _ hf => hf))
        (by show mapLookup company1.Employees e.ID ≠ none
            rw [hlk1, heid]; simp)
        (by rw [heid]; exact hkids1)
        (by omega)
    have hnd := manageesOf_nodup h.nodup k
    rw [hshape] at hnd
    obtain ⟨st3, hloop, hinv3, hgrow3, hnew3, hall3⟩ :=
      ihrem (done ++ [x]) st2 hinv2
        (hgrow2.lookup_ne_none (hgrow1.lookup_ne_none hkreg))
        (by rw [hshape]; simp)
        (by
          intro y hy
          have hyx : y.ID ≠ x.ID := by
            intro hyx
            rw [List.map_append, List.nodup_append] at hnd
            have h2 := hnd.2.1
            simp only [List.map_cons, List.nodup_cons, List.mem_map, not_exists,
              not_and] at h2
            exact h2.1 y hy hyx
          have hy1 : mapLookup company1.Employees y.ID = none := by
            rw [hlk1, if_neg hyx]
            exact hrem y (List.mem_cons_of_mem _ hy)
          have hym : y ∈ manageesOf p k := by rw [hshape]; simp [hy]
          obtain ⟨hyp, _, hyk⟩ := mem_manageesOf.1 hym
          by_contra hy2
          rcases hnew2 y hyp hy1 hy2 with h3 | h3
          · rw [hyk, heid] at h3
            exact hkx h3
          · rw [hyk] at h3
            exact hgrow1.lookup_ne_none hkreg h3)
        (by
          intro y hy
          rcases List.mem_append.1 hy with hy | hy
          · exact hgrow2.lookup_ne_none (hgrow1.lookup_ne_none (hdone y hy))
          · simp only [List.mem_singleton] at hy
            subst hy
            apply hgrow2.lookup_ne_none
            show mapLookup company1.Employees y.ID ≠ none
            rw [hlk1]; simp)
        (by
          have := hgrow2.unregistered_le p
          omega)
    refine ⟨st3, ?_, hinv3, hgrow1.trans (hgrow2.trans hgrow3), ?_, ?_⟩
    · rw [manageeLoop, hadd]
      simp only [hcheck]
      exact hloop
    · intro c hc hc0 hc3
      by_cases hc2 : mapLookup st2.company.Employees c.ID = none
      · rcases hnew3 c hc hc2 hc3 with h4 | h4
        · exact Or.inl h4
        · exact Or.inr ((hgrow1.trans hgrow2).lookup_none h4)
      · by_cases hc1 : mapLookup company1.Employees c.ID = none
        · rcases hnew2 c hc hc1 hc2 with h4 | h4
          · right
            rw [h4, heid]
            exact hnew
          · exact Or.inr (hgrow1.lookup_none h4)
        · rw [hlk1] at hc1
          by_cases hcx : c.ID = x.ID
          · have := id_inj h.nodup hc hxp hcx
            subst this
            exact Or.inl hxk
          · rw [if_neg hcx] at hc1
            exact absurd hc0 hc1
    · intro y hy
      apply hall3
      simpa using hy

/-- `CheckManageeMap` on a newly registered employee whose managees are all
unregistered: with a budget above the number of unregistered records it
returns nil, having registered the records pending on it, transitively. -/
theorem CheckManageeMap_drains (p : List RawEmployee) :
    ∀ (fuel : Nat) (S : String → Prop) (st : ImportState) (e : Employee),
      Inv p (fun j => S j ∨ j = e.ID) (fun _ => False) st →
      mapLookup st.company.Employees e.ID ≠ none →
      (∀ c ∈ p, c.Manager ≠ "" → c.Manager = e.ID →
        mapLookup st.company.Employees c.ID = none) →
      (unregistered p st).length < fuel →
      ∃ st1, CheckManageeMap fuel st e = some (st1, none) ∧
        Inv p S (fun _ => False) st1 ∧ Grows st st1 ∧ NewUnder p st st1 e.ID := by
  intro fuel
  induction fuel with
  | zero => intro S st e _ _ _ hf; omega
  | succ f ih =>
    intro S st e h hreg hkids hf
    rw [CheckManageeMap]
    rcases Option.eq_none_or_eq_some (mapLookup st.manageeMap e.ID) with hn | ⟨l, hl⟩
    · rw [hn]
      refine ⟨st, rfl, ?_, Grows.refl st, ?_⟩
      · apply h.change_keys
        intro j hj _ hS
        rcases hS with hS | hS
        · exact hS
        · rw [hS] at hj
          exact absurd hn hj
      · intro c _ h1 h2
        exact absurd h1 h2
    · obtain ⟨_, _, hl2⟩ := h.mm_list _ _ hl
      obtain ⟨st1, hloop, hinv1, hgrow1, hnew1, hall1⟩ :=
        manageeLoop_drains p f ih (fun j => S j ∨ j = e.ID) e.ID l [] st h hreg
          (by simpa using hl2.symm)
          (by
            intro y hy
            rw [hl2] at hy
            obtain ⟨hyp, hym, hyk⟩ := mem_manageesOf.1 hy
            exact hkids y hyp hym hyk)
          (by simp) (by omega)
      rw [hl]
      simp only [hloop]
      refine ⟨_, rfl, hinv1.delete_key ?_, hgrow1, hnew1⟩
      intro y hy
      apply hall1
      rw [hl2]
      simpa using hy

/-! ## The import loop -/

/-- A new record whose manager is registered (or the first record with an
empty manager id) is added, and the records pending on it are drained. -/
theorem Inv.register {p : List RawEmployee} {st : ImportState} {x : RawEmployee}
    {fuel : Nat} (h : Inv p (fun _ => False) (fun _ => False) st)
    (hx : x.ID ∉ p.map RawEmployee.ID)
    (hok : (x.Manager = "" ∧ st.company.CEO = none) ∨
      (x.Manager ≠ "" ∧ mapLookup st.company.Employees x.Manager ≠ none))
    (hfuel : p.length < fuel) :
    ∃ heap1 company1 e st2,
      AddEmployee st.heap st.company x = (heap1, company1, Except.ok e) ∧
      CheckManageeMap fuel ⟨heap1, company1, st.manageeMap⟩ e = some (st2, none) ∧
      Inv (p ++ [x]) (fun _ => False) (fun _ => False) st2 := by
  have hnew : mapLookup st.company.Employees x.ID = none := h.not_mem_ids hx
  have hext : Inv (p ++ [x]) (fun _ => False) (fun r => r = x) st := by
    apply h.extend hx
    intro hm
    rcases hok with ⟨h1, _⟩ | ⟨_, h2⟩
    · exact absurd h1 hm
    · by_contra hkey
      exact h.mm_keys _ hkey h2
  obtain ⟨heap1, company1, e, hadd, heid, hinv1, hlk1, hkids1, hlt1⟩ :=
    Inv.add hext (by simp) hnew hok
      (fun hm => ⟨manageesOf p x.Manager, [], by
        rw [manageesOf_append, manageesOf_singleton, if_pos ⟨hm, rfl⟩], by simp⟩)
  have hle := unregistered_length_le (p ++ [x]) st
  simp only [List.length_append, List.length_singleton] at hle
  obtain ⟨st2, hcheck, hinv2, _, _⟩ :=
    CheckManageeMap_drains (p ++ [x]) fuel (fun _ => False)
      ⟨heap1, company1, st.manageeMap⟩ e
      (hinv1.weaken (fun j hj => by rw [heid]; exact hj) (fun _ hf => hf))
      (by show mapLookup company1.Employees e.ID ≠ none
          rw [hlk1, heid]; simp)
      (by rw [heid]; exact hkids1)
      (by omega)
  exact ⟨heap1, company1, e, st2, hadd, hcheck, hinv2⟩

/-- The main loop of `ImportRawEmployeeData` on records with distinct ids,
with a budget of at least the number of records: it returns, either with nil
and the invariant for all the records, or with `MultipleCEOError` when the
records hold two empty manager ids. -/
theorem importLoop_inv (fuel : Nat) :
    ∀ (rest p : List RawEmployee) (st : ImportState),
      Inv p (fun _ => False) (fun _ => False) st →
      ((p ++ rest).map RawEmployee.ID).Nodup →
      (p ++ rest).length ≤ fuel →
      ∃ st1 err, importLoop fuel rest st = some (st1, err) ∧
        ((err = none ∧ Inv (p ++ rest) (fun _ => False) (fun _ => False) st1) ∨
         (err = some MultipleCEOError ∧
           2 ≤ ((p ++ rest).filter (fun r => decide (r.Manager = ""))).length)) := by
  intro rest
  induction rest with
  | nil =>
    intro p st h _ _
    exact ⟨st, none, rfl, Or.inl ⟨rfl, by simpa using h⟩⟩
  | cons x rest1 ih =>
    intro p st h hnd hlen
    have hx : x.ID ∉ p.map RawEmployee.ID := by
      rw [List.map_append, List.nodup_append] at hnd
      intro hmem
      exact hnd.2.2 hmem (by simp)
    have hassoc : p ++ [x] ++ rest1 = p ++ x :: rest1 := by simp
    have hplen : p.length < fuel := by
      simp only [List.length_append, List.length_cons] at hlen
      omega
    have hreg : (x.Manager = "" ∧ st.company.CEO = none) ∨
        (x.Manager ≠ "" ∧ mapLookup st.company.Employees x.Manager ≠ none) →
        ∃ st1 err, importLoop fuel (x :: rest1) st = some (st1, err) ∧
          ((err = none ∧ Inv (p ++ x :: rest1) (fun _ => False) (fun _ => False) st1) ∨
           (err = some MultipleCEOError ∧
             2 ≤ ((p ++ x :: rest1).filter (fun r => decide (r.Manager = ""))).length)) := by
      intro hok
      obtain ⟨heap1, company1, e, st2, hadd, hcheck, hinv2⟩ := h.register hx hok hplen
      obtain ⟨st3, err, hrun, hres⟩ :=
        ih (p ++ [x]) st2 hinv2 (by rw [hassoc]; exact hnd) (by rw [hassoc]; exact hlen)
      refine ⟨st3, err, ?_, ?_⟩
      · rw [importLoop, hadd]
        simp only [hcheck]
        exact hrun
      · rw [hassoc] at hres
        exact hres
    rcases AddEmployee_cases st.heap st.company x with
      ⟨hm, hc, _⟩ | ⟨hm, hc, hadd⟩ | ⟨hm, hl, _⟩ | ⟨em, hm, hl, _⟩
    · exact hreg (Or.inl ⟨hm, hc⟩)
    · refine ⟨⟨st.heap.alloc.1, st.company, st.manageeMap⟩, some MultipleCEOError, ?_,
        Or.inr ⟨rfl, ?_⟩⟩
      · rw [importLoop, hadd]
        simp
      · obtain ⟨r, hr, hrm⟩ := h.ceo_has hc
        have h1 : 0 < (p.filter (fun r => decide (r.Manager = ""))).length := by
          apply List.length_pos_of_mem (a := r)
          simp [hr, hrm]
        rw [List.filter_append, List.length_append, List.filter_cons_of_pos (by simpa using hm)]
        simp only [List.length_cons]
        omega
    · rw [importLoop_cons_missing fuel x rest1 st hm hl]
      obtain ⟨st3, err, hrun, hres⟩ :=
        ih (p ++ [x]) _ (h.pending hx hm hl).alloc (by rw [hassoc]; exact hnd)
          (by rw [hassoc]; exact hlen)
      refine ⟨st3, err, hrun, ?_⟩
      rw [hassoc] at hres
      exact hres
    · exact hreg (Or.inr ⟨hm, by rw [hl]; simp⟩)

/-- The state in which `ImportRawEmployeeData` starts on a fresh company. -/
theorem Inv.fresh :
    Inv [] (fun _ => False) (fun _ => False) ⟨Heap.empty, Company.fresh, []⟩ where
  nodup := by simp
  reg := by intro id e he; simp [Company.fresh, mapLookup] at he
  cell_inj := by intro id1 id2 e1 e2 h1; simp [Company.fresh, mapLookup] at h1
  cells := by intro id e he; simp [Company.fresh, mapLookup] at he
  ceo_first := fun _ => rfl
  ceo_root := by intro r hr; simp at hr
  ceo_has := by intro hc; exact absurd rfl hc
  mm_list := by intro j l hl; simp [mapLookup] at hl
  mm_keys := by intro j hj; simp [mapLookup] at hj
  pend := by intro r hr; simp at hr

/-! ## What the final state says about the records -/

theorem Inv.chain_of_registered {p : List RawEmployee} {S : String → Prop}
    {ex : RawEmployee → Prop} {st : ImportState} (h : Inv p S ex st)
    {rs : List RawEmployee} (hrs : (rs.map RawEmployee.ID).Nodup)
    (hsub : ∀ x, x ∈ p → x ∈ rs) {r : RawEmployee} (hr : r ∈ rs)
    (hreg : mapLookup st.company.Employees r.ID ≠ none) :
    r ∈ p ∧ ∃ root d, root ∈ rs ∧ root.Manager = "" ∧ ManagerChain rs root r d := by
  rcases Option.eq_none_or_eq_some (mapLookup st.company.Employees r.ID) with hn | ⟨e, he⟩
  · exact absurd hn hreg
  · obtain ⟨_, _, r1, hr1, hrid, _, _, root, d, hroot, hrootm, hchain⟩ := h.reg _ _ he
    have : r1 = r := id_inj hrs (hsub _ hr1) hr hrid
    subst this
    exact ⟨hr1, root, d, hsub _ hroot, hrootm, hchain.mono hsub⟩

theorem Inv.registered_of_chain {p : List RawEmployee} {st : ImportState}
    (h : Inv p (fun _ => False) (fun _ => False) st) {root : RawEmployee}
    (hroot : root ∈ p) (hrootm : root.Manager = "") {r : RawEmployee} {d : Nat}
    (hchain : ManagerChain p root r d) :
    mapLookup st.company.Employees r.ID ≠ none := by
  induction hchain with
  | here =>
    obtain ⟨h1, h2⟩ := h.ceo_root root hroot (fun hf => hf) hrootm
    rw [← h2]
    exact h1
  | up hr hm hmem hid _ ih =>
    intro hnone
    obtain ⟨_, hkey⟩ := h.pend _ hr (fun hf => hf) hnone
    rw [← hid] at hkey
    exact h.mm_keys _ hkey ih

theorem Inv.manageeMap_ne_nil {p : List RawEmployee} {S : String → Prop}
    {st : ImportState} (h : Inv p S (fun _ => False) st) {r : RawEmployee} (hr : r ∈ p)
    (hnone : mapLookup st.company.Employees r.ID = none) : 0 < mapLen st.manageeMap := by
  obtain ⟨_, hkey⟩ := h.pend r hr (fun hf => hf) hnone
  rcases Option.eq_none_or_eq_some (mapLookup st.manageeMap r.Manager) with hn | ⟨l, hl⟩
  · exact absurd hn hkey
  · exact mapLen_pos_of_lookup _ _ _ hl

theorem Inv.manageeMap_nil {p : List RawEmployee} {st : ImportState}
    (h : Inv p (fun _ => False) (fun _ => False) st)
    (hall : ∀ r ∈ p, mapLookup st.company.Employees r.ID ≠ none) :
    st.manageeMap = [] := by
  by_contra hne
  obtain ⟨k, l, hl⟩ := exists_lookup_of_ne_nil _ hne
  obtain ⟨_, hl1, hl2⟩ := h.mm_list k l hl
  obtain ⟨y, hy⟩ := List.exists_mem_of_ne_nil l hl1
  rw [hl2] at hy
  obtain ⟨hyp, hym, hyk⟩ := mem_manageesOf.1 hy
  rcases Option.eq_none_or_eq_some (mapLookup st.company.Employees y.ID) with hn | ⟨e, he⟩
  · exact hall y hyp hn
  · obtain ⟨_, _, r1, hr1, hrid, _, hor, _⟩ := h.reg _ _ he
    have : r1 = y := id_inj h.nodup hr1 hyp hrid
    subst this
    rcases hor with h0 | h0
    · exact hym h0
    · rw [hyk] at h0
      exact h.mm_keys k (by rw [hl]; simp) h0

theorem Inv.roots_le_one {p : List RawEmployee} {S : String → Prop} {st : ImportState}
    (h : Inv p S (fun _ => False) st) : (roots p).length ≤ 1 := by
  by_contra hlt
  have hnd : (roots p).Nodup :=
    (List.Nodup.of_map _ h.nodup).sublist (List.filter_sublist p)
  have hmem : ∀ r, r ∈ roots p → r ∈ p ∧ r.Manager = "" := by
    intro r hr
    simpa [roots] using hr
  match hl : roots p, hnd, hmem, hlt with
  | [], _, _, hlt => simp at hlt
  | [_], _, _, hlt => simp at hlt
  | a :: b :: _, hnd, hmem, _ =>
    obtain ⟨ha, ham⟩ := hmem a (by simp)
    obtain ⟨hb, hbm⟩ := hmem b (by simp)
    obtain ⟨h1, h2⟩ := h.ceo_root a ha (fun hf => hf) ham
    obtain ⟨_, h3⟩ := h.ceo_root b hb (fun hf => hf) hbm
    rcases Option.eq_none_or_eq_some (mapLookup st.company.Employees a.ID) with hn | ⟨e, he⟩
    · rw [hn] at h2
      exact h1 h2
    · have he2 : mapLookup st.company.Employees b.ID = some e := by
        rw [← h3, h2, he]
      have hab : a = b := id_inj h.nodup ha hb
        (((h.reg _ _ he).1).symm.trans (h.reg _ _ he2).1)
      subst hab
      simp at hnd

/-- `ImportRawEmployeeData` on a fresh company, for records with distinct ids
and a budget of at least their number: it returns `MultipleCEOError` when the
records hold two empty manager ids; otherwise the invariant holds at its
return, with nil and an empty pending map or with `InvalidEmployeesError` and
a non-empty one. -/
theorem ImportRawEmployeeData_result (fuel : Nat) (rs : List RawEmployee)
    (hnd : (rs.map RawEmployee.ID).Nodup) (hlen : rs.length ≤ fuel) :
    ∃ st err, ImportRawEmployeeData fuel Heap.empty Company.fresh rs = some (st, err) ∧
      ((err = some MultipleCEOError ∧ 2 ≤ (roots rs).length) ∨
       (Inv rs (fun _ => False) (fun _ => False) st ∧ (roots rs).length ≤ 1 ∧
         ((err = none ∧ st.manageeMap = []) ∨
          (err = some InvalidEmployeesError ∧ 0 < mapLen st.manageeMap)))) := by
  obtain ⟨st, err, hrun, hres⟩ :=
    importLoop_inv fuel rs [] ⟨Heap.empty, Company.fresh, []⟩ Inv.fresh
      (by simpa using hnd) (by simpa using hlen)
  simp only [List.nil_append] at hres
  rcases hres with ⟨herr, hinv⟩ | ⟨herr, hroots⟩
  · subst herr
    by_cases hmm : 0 < mapLen st.manageeMap
    · refine ⟨st, some InvalidEmployeesError, ?_, Or.inr ⟨hinv, hinv.roots_le_one,
        Or.inr ⟨rfl, hmm⟩⟩⟩
      simp [ImportRawEmployeeData, hrun, hmm]
    · refine ⟨st, none, ?_, Or.inr ⟨hinv, hinv.roots_le_one, Or.inl ⟨rfl, ?_⟩⟩⟩
      · simp only [ImportRawEmployeeData, hrun]
        rw [if_neg (by simpa using hmm)]
      · simp only [mapLen, List.length_pos, ne_eq, not_not] at hmm
        exact hmm
  · subst herr
    exact ⟨st, some MultipleCEOError, by simp [ImportRawEmployeeData, hrun],
      Or.inl ⟨rfl, hroots⟩⟩

/-! ## Structural errors -/

/-- C3. Every input with pairwise-distinct ids and at least two records with an
empty manager id fails with `MultipleCEOError`, wherever those records are and
whatever the other records are, at every budget of at least the number of
records. -/
theorem two_empty_managers_fail_MultipleCEOError (fuel : Nat) (rs : List RawEmployee)
    (hnd : (rs.map RawEmployee.ID).Nodup) (hroots : 2 ≤ (roots rs).length)
    (hfuel : rs.length ≤ fuel) :
    GenerateHierarchyFromCSV fuel rs = some ([], some MultipleCEOError) := by
  obtain ⟨st, err, himp, hres⟩ := ImportRawEmployeeData_result fuel rs hnd hfuel
  rcases hres with ⟨herr, _⟩ | ⟨_, hle, _⟩
  · subst herr
    simp [GenerateHierarchyFromCSV, himp]
  · omega

/-- Witness for C3: the CEO and a second record with an empty manager id, with
a pending record between them. -/
theorem two_empty_managers_fail_MultipleCEOError_witness :
    GenerateHierarchyFromCSV 3 [⟨"jamie", "1", ""⟩, ⟨"alan", "2", "7"⟩, ⟨"steve", "5", ""⟩] =
      some ([], some MultipleCEOError) :=
  two_empty_managers_fail_MultipleCEOError 3
    [⟨"jamie", "1", ""⟩, ⟨"alan", "2", "7"⟩, ⟨"steve", "5", ""⟩]
    (by decide) (by decide) (by decide)

/-- A record without a manager chain to a record with empty manager id is
never registered, and the import fails with `InvalidEmployeesError`. -/
theorem unreachable_fails_InvalidEmployeesError (fuel : Nat) (rs : List RawEmployee)
    (hnd : (rs.map RawEmployee.ID).Nodup) (hroots : (roots rs).length ≤ 1)
    (hfuel : rs.length ≤ fuel) (r : RawEmployee) (hr : r ∈ rs)
    (hno : ∀ root d, root.Manager = "" → ¬ ManagerChain rs root r d) :
    GenerateHierarchyFromCSV fuel rs = some ([], some InvalidEmployeesError) ∧
    ∃ st, ImportRawEmployeeData fuel Heap.empty Company.fresh rs =
        some (st, some InvalidEmployeesError) := by
  obtain ⟨st, err, himp, hres⟩ := ImportRawEmployeeData_result fuel rs hnd hfuel
  rcases hres with ⟨_, hge⟩ | ⟨hinv, _, hcase⟩
  · omega
  · have hnone : mapLookup st.company.Employees r.ID = none := by
      by_contra hreg
      obtain ⟨_, root, d, _, hrootm, hchain⟩ :=
        hinv.chain_of_registered hnd (fun _ hx => hx) hr hreg
      exact hno root d hrootm hchain
    have hpos := hinv.manageeMap_ne_nil hr hnone
    rcases hcase with ⟨_, hnil⟩ | ⟨herr, _⟩
    · rw [hnil] at hpos
      simp [mapLen] at hpos
    · subst herr
      exact ⟨by simp [GenerateHierarchyFromCSV, himp], st, himp⟩

/-- C4. An input with pairwise-distinct ids and at most one record with an
empty manager id, holding a record whose non-empty manager id is the id of no
record, fails with `InvalidEmployeesError`. -/
theorem missing_manager_fails_InvalidEmployeesError (fuel : Nat) (rs : List RawEmployee)
    (hnd : (rs.map RawEmployee.ID).Nodup) (hroots : (roots rs).length ≤ 1)
    (hfuel : rs.length ≤ fuel) (r : RawEmployee) (hr : r ∈ rs)
    (hm : r.Manager ≠ "") (hmiss : ∀ m ∈ rs, m.ID ≠ r.Manager) :
    GenerateHierarchyFromCSV fuel rs = some ([], some InvalidEmployeesError) := by
  refine (unreachable_fails_InvalidEmployeesError fuel rs hnd hroots hfuel r hr ?_).1
  intro root d hrootm hchain
  cases hchain with
  | here => exact hm hrootm
  | up _ _ hmem hid _ => exact hmiss _ hmem hid

/-- Witness for C4: `TestMissingManager`-like rows, the manager `9` is absent. -/
theorem missing_manager_fails_InvalidEmployeesError_witness :
    GenerateHierarchyFromCSV 3 [⟨"jamie", "1", ""⟩, ⟨"alan", "2", "1"⟩, ⟨"steve", "5", "9"⟩] =
      some ([], some InvalidEmployeesError) :=
  missing_manager_fails_InvalidEmployeesError 3
    [⟨"jamie", "1", ""⟩, ⟨"alan", "2", "1"⟩, ⟨"steve", "5", "9"⟩]
    (by decide) (by decide) (by decide) ⟨"steve", "5", "9"⟩ (by decide) (by decide)
    (by decide)

/-- No record of a set of records that all have a manager in the set has a
manager chain to a record with empty manager id. -/
theorem no_chain_of_closed {rs : List RawEmployee} (hnd : (rs.map RawEmployee.ID).Nodup)
    (C : RawEmployee → Prop)
    (hC : ∀ c, C c → c.Manager ≠ "" ∧ ∃ m, C m ∧ m ∈ rs ∧ m.ID = c.Manager)
    {root r : RawEmployee} {d : Nat} (hrootm : root.Manager = "")
    (hchain : ManagerChain rs root r d) : ¬ C r := by
  induction hchain with
  | here => intro hc; exact (hC _ hc).1 hrootm
  | up _ _ hmem hid _ ih =>
    intro hc
    obtain ⟨_, m1, hm1, hm1rs, hm1id⟩ := hC _ hc
    have : m1 = _ := id_inj hnd hm1rs hmem (hm1id.trans hid.symm)
    subst this
    exact ih hm1

/-- C5. An input with pairwise-distinct ids and at most one record with an
empty manager id, holding a record whose manager id is its own non-empty id,
fails with `InvalidEmployeesError`. -/
theorem own_manager_fails_InvalidEmployeesError (fuel : Nat) (rs : List RawEmployee)
    (hnd : (rs.map RawEmployee.ID).Nodup) (hroots : (roots rs).length ≤ 1)
    (hfuel : rs.length ≤ fuel) (r : RawEmployee) (hr : r ∈ rs)
    (hm : r.Manager ≠ "") (hown : r.Manager = r.ID) :
    GenerateHierarchyFromCSV fuel rs = some ([], some InvalidEmployeesError) := by
  refine (unreachable_fails_InvalidEmployeesError fuel rs hnd hroots hfuel r hr ?_).1
  intro root d hrootm hchain
  refine no_chain_of_closed hnd (fun c => c = r) ?_ hrootm hchain rfl
  intro c hc
  subst hc
  exact ⟨hm, c, rfl, hr, hown.symm⟩

/-- Witness for C5: `TestOwnManager`-like rows, `steve` manages himself. -/
theorem own_manager_fails_InvalidEmployeesError_witness :
    GenerateHierarchyFromCSV 3 [⟨"jamie", "1", ""⟩, ⟨"alan", "2", "1"⟩, ⟨"steve", "5", "5"⟩] =
      some ([], some InvalidEmployeesError) :=
  own_manager_fails_InvalidEmployeesError 3
    [⟨"jamie", "1", ""⟩, ⟨"alan", "2", "1"⟩, ⟨"steve", "5", "5"⟩]
    (by decide) (by decide) (by decide) ⟨"steve", "5", "5"⟩ (by decide) (by decide)
    (by decide)

theorem IsManagerCycle.closed {cyc rs : List RawEmployee} (hcyc : IsManagerCycle cyc)
    (hsub : ∀ r ∈ cyc, r ∈ rs) :
    ∀ c, c ∈ cyc → c.Manager ≠ "" ∧ ∃ m, m ∈ cyc ∧ m ∈ rs ∧ m.ID = c.Manager := by
  intro c hc
  obtain ⟨i, hi⟩ := List.get_of_mem hc
  obtain ⟨h1, h2, h3⟩ := hcyc.2 i
  rw [hi] at h1 h3
  exact ⟨h1, _, List.get_mem _ _ _, hsub _ (List.get_mem _ _ _), h3.symm⟩

/-- C6. An input with pairwise-distinct ids and at most one record with an
empty manager id, holding records that form a manager cycle of length at least
two (each record of the cycle has a manager, that is a non-empty manager id,
which is the id of the next record, the last one naming the first), fails with
`InvalidEmployeesError`, and no record of the cycle is registered in
`Employees`: not at the return of `ImportRawEmployeeData`, and not after any
number `k` of iterations of its loop. -/
theorem manager_cycle_fails_InvalidEmployeesError (fuel : Nat) (rs : List RawEmployee)
    (hnd : (rs.map RawEmployee.ID).Nodup) (hroots : (roots rs).length ≤ 1)
    (hfuel : rs.length ≤ fuel) (cyc : List RawEmployee) (hcyc : IsManagerCycle cyc)
    (hsub : ∀ r ∈ cyc, r ∈ rs) :
    GenerateHierarchyFromCSV fuel rs = some ([], some InvalidEmployeesError) ∧
    (∃ st, ImportRawEmployeeData fuel Heap.empty Company.fresh rs =
        some (st, some InvalidEmployeesError) ∧
      ∀ r ∈ cyc, mapLookup st.company.Employees r.ID = none) ∧
    (∀ k, ∃ st err,
      importLoop fuel (rs.take k) ⟨Heap.empty, Company.fresh, []⟩ = some (st, err) ∧
      ∀ r ∈ cyc, mapLookup st.company.Employees r.ID = none) := by
  have hclosed := hcyc.closed hsub
  have hunreg : ∀ (p : List RawEmployee) (st : ImportState),
      Inv p (fun _ => False) (fun _ => False) st → (∀ x, x ∈ p → x ∈ rs) →
      ∀ r ∈ cyc, mapLookup st.company.Employees r.ID = none := by
    intro p st hinv hp r hr
    by_contra hreg
    obtain ⟨_, root, d, _, hrootm, hchain⟩ :=
      hinv.chain_of_registered hnd hp (hsub r hr) hreg
    exact no_chain_of_closed hnd (fun c => c ∈ cyc) hclosed hrootm hchain hr
  obtain ⟨a, ha⟩ : ∃ a, a ∈ cyc := by
    have h2 := hcyc.1
    match cyc, h2 with
    | a :: _, _ => exact ⟨a, by simp⟩
  obtain ⟨st, err, himp, hres⟩ := ImportRawEmployeeData_result fuel rs hnd hfuel
  refine ⟨?_, ?_, ?_⟩
  · refine (unreachable_fails_InvalidEmployeesError fuel rs hnd hroots hfuel a
      (hsub a ha) ?_).1
    intro root d hrootm hchain
    exact no_chain_of_closed hnd (fun c => c ∈ cyc) hclosed hrootm hchain ha
  · rcases hres with ⟨_, hge⟩ | ⟨hinv, _, hcase⟩
    · omega
    · have hnone := hunreg rs st hinv (fun _ hx => hx)
      have hpos := hinv.manageeMap_ne_nil (hsub a ha) (hnone a ha)
      rcases hcase with ⟨_, hnil⟩ | ⟨herr, _⟩
      · rw [hnil] at hpos
        simp [mapLen] at hpos
      · subst herr
        exact ⟨st, himp, hnone⟩
  · intro k
    have hsubl : (rs.take k).Sublist rs := List.take_sublist k rs
    obtain ⟨st1, err1, hrun, hres1⟩ :=
      importLoop_inv fuel (rs.take k) [] ⟨Heap.empty, Company.fresh, []⟩ Inv.fresh
        (by simpa using hnd.sublist (hsubl.map _))
        (by
          have := hsubl.length_le
          simp only [List.nil_append]
          omega)
    simp only [List.nil_append] at hres1
    refine ⟨st1, err1, hrun, ?_⟩
    rcases hres1 with ⟨_, hinv⟩ | ⟨_, hge⟩
    · exact hunreg _ st1 hinv (fun x hx => List.mem_of_mem_take hx)
    · have : ((rs.take k).filter (fun r => decide (r.Manager = ""))).length ≤
          (roots rs).length := (hsubl.filter _).length_le
      omega

/-- Witness for C6: `TestCircularManager`-like rows, `alan` and `martin` name
each other. -/
theorem manager_cycle_fails_InvalidEmployeesError_witness :
    GenerateHierarchyFromCSV 3 [⟨"jamie", "1", ""⟩, ⟨"alan", "2", "3"⟩, ⟨"martin", "3", "2"⟩] =
      some ([], some InvalidEmployeesError) :=
  (manager_cycle_fails_InvalidEmployeesError 3
    [⟨"jamie", "1", ""⟩, ⟨"alan", "2", "3"⟩, ⟨"martin", "3", "2"⟩]
    (by decide) (by decide) (by decide)
    [⟨"alan", "2", "3"⟩, ⟨"martin", "3", "2"⟩]
    (by unfold IsManagerCycle; decide) (by decide)).1

/-! ## The rendered lines are the pre-order listing -/

theorem walkLoop_filterMap (rs : List RawEmployee) (heap : Heap) (E : GoMap Employee)
    (f d1 : Nat) :
    ∀ (l : List RawEmployee) (output : List String),
      (∀ c ∈ l, ∃ e, mapLookup E c.ID = some e ∧
        EmployeeWalk heap f e d1 = preorder rs f c d1) →
      walkLoop (EmployeeWalk heap f) d1 (l.filterMap (fun c => mapLookup E c.ID)) output =
        (listEach (fun c => preorder rs f c d1) l).map (fun rows => output ++ rows) := by
  intro l
  induction l with
  | nil => intro output _; simp [walkLoop, listEach]
  | cons c l ih =>
    intro output h
    obtain ⟨e, he, hw⟩ := h c (List.mem_cons_self _ _)
    have ih1 := fun out => ih out (fun x hx => h x (List.mem_cons_of_mem _ hx))
    simp only [List.filterMap_cons, he, walkLoop, listEach, hw]
    cases hp : preorder rs f c d1 with
    | none => simp
    | some rows =>
      simp only [ih1]
      cases hl : listEach (fun c => preorder rs f c d1) l with
      | none => simp
      | some more => simp

/-- With every record registered, `EmployeeWalk` on the employee of a record
is the pre-order listing of the record's subtree, at every budget. -/
theorem EmployeeWalk_eq_preorder {rs : List RawEmployee} {st : ImportState}
    (h : Inv rs (fun _ => False) (fun _ => False) st)
    (hall : ∀ r ∈ rs, mapLookup st.company.Employees r.ID ≠ none) :
    ∀ (fuel : Nat) (r : RawEmployee) (e : Employee) (depth : Nat), r ∈ rs →
      mapLookup st.company.Employees r.ID = some e →
      EmployeeWalk st.heap fuel e depth = preorder rs fuel r depth := by
  intro fuel
  induction fuel with
  | zero => intro r e depth _ _; rfl
  | succ f ih =>
    intro r e depth hr he
    obtain ⟨_, _, r1, hr1, hrid, hname, _⟩ := h.reg _ _ he
    have : r1 = r := id_inj h.nodup hr1 hr hrid
    subst this
    rw [EmployeeWalk, preorder, Heap.read, h.cells _ _ he,
      walkLoop_filterMap rs st.heap st.company.Employees f (depth + 1)]
    · rw [GenerateTabularRow, hname]
      cases listEach (fun c => preorder rs f c (depth + 1)) (manageesOf rs r1.ID) with
      | none => rfl
      | some rows => rfl
    · intro c hc
      obtain ⟨hcp, _, _⟩ := mem_manageesOf.1 hc
      rcases Option.eq_none_or_eq_some (mapLookup st.company.Employees c.ID) with
        hn | ⟨ec, hec⟩
      · exact absurd hn (hall c hcp)
      · exact ⟨ec, hec, ih c ec (depth + 1) hcp hec⟩

/-! ## Manager chains of a valid input -/

theorem ValidInput.single_root {rs : List RawEmployee} {root : RawEmployee}
    (hv : ValidInput rs root) : (roots rs).length ≤ 1 := by
  have hnd : (roots rs).Nodup :=
    (List.Nodup.of_map _ hv.nodup).sublist (List.filter_sublist rs)
  have hmem : ∀ r, r ∈ roots rs → r = root := by
    intro r hr
    have : r ∈ rs ∧ r.Manager = "" := by simpa [roots] using hr
    exact hv.root_unique r this.1 this.2
  match roots rs, hnd, hmem with
  | [], _, _ => simp
  | [_], _, _ => simp
  | a :: b :: _, hnd, hmem =>
    have ha := hmem a (by simp)
    have hb := hmem b (by simp)
    subst ha; subst hb
    simp at hnd

theorem ManagerChain.depth_unique {rs : List RawEmployee} {root : RawEmployee}
    (hnd : (rs.map RawEmployee.ID).Nodup) (hrootm : root.Manager = "")
    {r : RawEmployee} {d1 : Nat} (h1 : ManagerChain rs root r d1) :
    ∀ {d2 : Nat}, ManagerChain rs root r d2 → d1 = d2 := by
  induction h1 with
  | here =>
    intro d2 h2
    cases h2 with
    | here => rfl
    | up _ hm _ _ _ => exact absurd hrootm hm
  | up _ hm hmem hid _ ih =>
    intro d2 h2
    cases h2 with
    | here => exact absurd hrootm hm
    | up _ _ hmem2 hid2 hch2 =>
      have := id_inj hnd hmem2 hmem (hid2.trans hid.symm)
      subst this
      rw [ih hch2]

/-- Chains compose additively: `x` is `k` edges below `a`, `a` at depth `da`. -/
theorem ManagerChain.depth_add {rs : List RawEmployee} {root : RawEmployee}
    (hnd : (rs.map RawEmployee.ID).Nodup) (hrootm : root.Manager = "")
    {a x : RawEmployee} {k : Nat} (h : ManagerChain rs a x k) :
    ∀ {da dx : Nat}, ManagerChain rs root a da → ManagerChain rs root x dx →
      dx = da + k := by
  induction h with
  | here =>
    intro da dx h1 h2
    exact (h1.depth_unique hnd hrootm h2).symm
  | up _ hm hmem hid _ ih =>
    intro da dx h1 h2
    cases h2 with
    | here => exact absurd hrootm hm
    | up _ _ hmem2 hid2 hch2 =>
      have := id_inj hnd hmem2 hmem (hid2.trans hid.symm)
      subst this
      rw [ih h1 hch2]
      omega

theorem ManagerChain.top_unique {rs : List RawEmployee}
    (hnd : (rs.map RawEmployee.ID).Nodup) {a x : RawEmployee} {k : Nat}
    (h : ManagerChain rs a x k) : ∀ {b : RawEmployee}, ManagerChain rs b x k → a = b := by
  induction h with
  | here =>
    intro b h2
    cases h2 with
    | here => rfl
  | up _ hm hmem hid _ ih =>
    intro b h2
    cases h2 with
    | up _ _ hmem2 hid2 hch2 =>
      have := id_inj hnd hmem2 hmem (hid2.trans hid.symm)
      subst this
      exact ih hch2

/-- A chain extended at its upper end by one manager-edge. -/
theorem ManagerChain.snoc {rs : List RawEmployee} {c x : RawEmployee} {k : Nat}
    (h : ManagerChain rs c x k) {r : RawEmployee} (hc : c ∈ rs) (hcm : c.Manager ≠ "")
    (hr : r ∈ rs) (hid : r.ID = c.Manager) : ManagerChain rs r x (k + 1) := by
  induction h with
  | here => exact ManagerChain.up hc hcm hr hid ManagerChain.here
  | up hx hm hmem hid2 _ ih => exact ManagerChain.up hx hm hmem hid2 ih

/-- A chain of at least one edge, split at its upper end. -/
theorem ManagerChain.top_split {rs : List RawEmployee} {r x : RawEmployee} {k : Nat}
    (h : ManagerChain rs r x k) :
    ∀ {j : Nat}, k = j + 1 →
      ∃ c, c ∈ rs ∧ c.Manager ≠ "" ∧ c.Manager = r.ID ∧ ManagerChain rs c x j := by
  induction h with
  | here => intro j hj; omega
  | @up x0 m d hx hm hmem hid hch ih =>
    intro j hj
    cases d with
    | zero =>
      cases hch with
      | here =>
        have : j = 0 := by omega
        subst this
        exact ⟨x0, hx, hm, hid.symm, ManagerChain.here⟩
    | succ d1 =>
      obtain ⟨c, hc, hcm, hcr, hcc⟩ := ih (j := d1) rfl
      have : j = d1 + 1 := by omega
      subst this
      exact ⟨c, hc, hcm, hcr, ManagerChain.up hx hm hmem hid hcc⟩

/-- Every depth up to the depth of a record occurs among the records. -/
theorem ManagerChain.depths_below {rs : List RawEmployee} {root : RawEmployee}
    (hroot : root ∈ rs) {r : RawEmployee} {d : Nat} (h : ManagerChain rs root r d) :
    ∀ k, k ≤ d → ∃ y, y ∈ rs ∧ ManagerChain rs root y k := by
  induction h with
  | here =>
    intro k hk
    have : k = 0 := by omega
    subst this
    exact ⟨root, hroot, ManagerChain.here⟩
  | @up x0 m d hx hm hmem hid hch ih =>
    intro k hk
    by_cases hkd : k ≤ d
    · exact ih k hkd
    · have : k = d + 1 := by omega
      subst this
      exact ⟨x0, hx, ManagerChain.up hx hm hmem hid hch⟩

/-- The depth of a record is below the number of records. -/
theorem ValidInput.depth_lt {rs : List RawEmployee} {root : RawEmployee}
    (hv : ValidInput rs root) {r : RawEmployee} {d : Nat}
    (h : ManagerChain rs root r d) : d < rs.length := by
  classical
  have hex := h.depths_below hv.root_mem
  haveI : Nonempty RawEmployee := ⟨root⟩
  choose! w hw using hex
  have hinj : Set.InjOn w (Finset.range (d + 1) : Set Nat) := by
    intro a ha b hb hab
    simp only [Finset.coe_range, Set.mem_Iio] at ha hb
    have h1 := (hw a (by omega)).2
    have h2 := (hw b (by omega)).2
    rw [hab] at h1
    exact (h1.depth_unique hv.nodup hv.root_manager h2)
  have hsub : (Finset.range (d + 1)).image w ⊆ rs.toFinset := by
    intro y hy
    simp only [Finset.mem_image, Finset.mem_range] at hy
    obtain ⟨a, ha, rfl⟩ := hy
    simp only [List.mem_toFinset]
    exact (hw a (by omega)).1
  have hcard := Finset.card_le_card hsub
  rw [Finset.card_image_of_injOn hinj, Finset.card_range] at hcard
  have := List.toFinset_card_le rs
  omega

/-! ## The pre-order listing of a valid input -/

theorem listEach_some {α β : Type} (g : α → Option (List β)) :
    ∀ (l : List α), (∀ c ∈ l, ∃ x, g c = some x) → ∃ y, listEach g l = some y := by
  intro l
  induction l with
  | nil => intro _; exact ⟨[], rfl⟩
  | cons c l ih =>
    intro h
    obtain ⟨x, hx⟩ := h c (List.mem_cons_self _ _)
    obtain ⟨y, hy⟩ := ih (fun a ha => h a (List.mem_cons_of_mem _ ha))
    exact ⟨x ++ y, by simp [listEach, hx, hy]⟩

theorem listEach_cons_some {α β : Type} {g : α → Option (List β)} {c : α} {l : List α}
    {rows : List β} (h : listEach g (c :: l) = some rows) :
    ∃ x y, g c = some x ∧ listEach g l = some y ∧ rows = x ++ y := by
  simp only [listEach] at h
  cases hx : g c with
  | none => simp [hx] at h
  | some x =>
    cases hy : listEach g l with
    | none => simp [hx, hy] at h
    | some y =>
      simp only [hx, hy, Option.some.injEq] at h
      exact ⟨x, y, rfl, rfl, h.symm⟩

theorem listEach_map {α β γ : Type} (g : α → Option (List β)) (f : β → γ) :
    ∀ (l : List α),
      listEach (fun c => (g c).map (List.map f)) l = (listEach g l).map (List.map f) := by
  intro l
  induction l with
  | nil => rfl
  | cons c l ih =>
    simp only [listEach, ih]
    cases g c with
    | none => simp
    | some x =>
      cases listEach g l with
      | none => simp
      | some y => simp

theorem listEach_mem {α β : Type} (g : α → Option (List β)) :
    ∀ (l : List α) (rows : List β), listEach g l = some rows →
      ∀ y, y ∈ rows ↔ ∃ c ∈ l, ∃ ns, g c = some ns ∧ y ∈ ns := by
  intro l
  induction l with
  | nil =>
    intro rows h y
    simp only [listEach, Option.some.injEq] at h
    subst h
    simp
  | cons c l ih =>
    intro rows h y
    obtain ⟨x, more, hx, hmore, hrows⟩ := listEach_cons_some h
    subst hrows
    rw [List.mem_append, ih more hmore y]
    constructor
    · rintro (hy | ⟨c1, hc1, ns, hns, hy⟩)
      · exact ⟨c, List.mem_cons_self _ _, x, hx, hy⟩
      · exact ⟨c1, List.mem_cons_of_mem _ hc1, ns, hns, hy⟩
    · rintro ⟨c1, hc1, ns, hns, hy⟩
      rcases List.mem_cons.1 hc1 with rfl | hc1
      · rw [hx] at hns
        cases hns
        exact Or.inl hy
      · exact Or.inr ⟨c1, hc1, ns, hns, hy⟩

theorem listEach_nodup {α β : Type} (g : α → Option (List β)) :
    ∀ (l : List α) (rows : List β), listEach g l = some rows → l.Nodup →
      (∀ c ∈ l, ∀ ns, g c = some ns → ns.Nodup) →
      (∀ c1 ∈ l, ∀ c2 ∈ l, ∀ n1 n2 y, g c1 = some n1 → g c2 = some n2 →
        y ∈ n1 → y ∈ n2 → c1 = c2) →
      rows.Nodup := by
  intro l
  induction l with
  | nil =>
    intro rows h _ _ _
    simp only [listEach, Option.some.injEq] at h
    subst h
    simp
  | cons c l ih =>
    intro rows h hnd hns hdis
    obtain ⟨x, more, hx, hmore, hrows⟩ := listEach_cons_some h
    subst hrows
    rw [List.nodup_cons] at hnd
    rw [List.nodup_append]
    refine ⟨hns c (List.mem_cons_self _ _) x hx, ?_, ?_⟩
    · exact ih more hmore hnd.2
        (fun a ha => hns a (List.mem_cons_of_mem _ ha))
        (fun a ha b hb => hdis a (List.mem_cons_of_mem _ ha) b (List.mem_cons_of_mem _ hb))
    · intro y hy1 hy2
      obtain ⟨c1, hc1, ns, hns1, hy3⟩ := (listEach_mem g l more hmore y).1 hy2
      have := hdis c (List.mem_cons_self _ _) c1 (List.mem_cons_of_mem _ hc1) x ns y hx hns1
        hy1 hy3
      subst this
      exact hnd.1 hc1

/-- The listing is the list of rows of the nodes. -/
theorem preorder_eq_nodes (rs : List RawEmployee) :
    ∀ (fuel : Nat) (r : RawEmployee) (depth : Nat),
      preorder rs fuel r depth =
        (preorderNodes rs fuel r depth).map
          (List.map (fun n => GenerateTabularRow n.1.Name n.2)) := by
  intro fuel
  induction fuel with
  | zero => intro r depth; rfl
  | succ f ih =>
    intro r depth
    rw [preorder, preorderNodes]
    have : (fun c => preorder rs f c (depth + 1)) =
        (fun c => (preorderNodes rs f c (depth + 1)).map
          (List.map (fun n => GenerateTabularRow n.1.Name n.2))) := by
      funext c
      exact ih c (depth + 1)
    rw [this, listEach_map]
    cases listEach (fun c => preorderNodes rs f c (depth + 1)) (manageesOf rs r.ID) with
    | none => rfl
    | some nodes => rfl

theorem ValidInput.managee_depth {rs : List RawEmployee} {root : RawEmployee}
    {r c : RawEmployee} {d : Nat} (hr : r ∈ rs)
    (hd : ManagerChain rs root r d) (hc : c ∈ manageesOf rs r.ID) :
    c ∈ rs ∧ ManagerChain rs root c (d + 1) := by
  obtain ⟨hcp, hcm, hcr⟩ := mem_manageesOf.1 hc
  exact ⟨hcp, ManagerChain.up hcp hcm hr hcr.symm hd⟩

/-- On a valid input the listing of a record at its depth is complete as soon
as the budget covers the levels below its depth. -/
theorem ValidInput.preorderNodes_some {rs : List RawEmployee} {root : RawEmployee}
    (hv : ValidInput rs root) :
    ∀ (fuel : Nat) (r : RawEmployee) (d : Nat), r ∈ rs → ManagerChain rs root r d →
      rs.length ≤ fuel + d → ∃ ns, preorderNodes rs fuel r d = some ns := by
  intro fuel
  induction fuel with
  | zero =>
    intro r d _ hd hlen
    have := hv.depth_lt hd
    omega
  | succ f ih =>
    intro r d hr hd hlen
    obtain ⟨nodes, hnodes⟩ := listEach_some (fun c => preorderNodes rs f c (d + 1))
      (manageesOf rs r.ID) (by
        intro c hc
        obtain ⟨hcp, hcd⟩ := ValidInput.managee_depth hr hd hc
        exact ih c (d + 1) hcp hcd (by omega))
    exact ⟨(r, d) :: nodes, by rw [preorderNodes, hnodes]⟩

theorem listEach_some_inv {α β : Type} (g : α → Option (List β)) :
    ∀ (l : List α) (rows : List β), listEach g l = some rows →
      ∀ c ∈ l, ∃ ns, g c = some ns := by
  intro l
  induction l with
  | nil => intro rows _ c hc; simp at hc
  | cons a l ih =>
    intro rows h c hc
    obtain ⟨x, more, hx, hmore, _⟩ := listEach_cons_some h
    rcases List.mem_cons.1 hc with rfl | hc
    · exact ⟨x, hx⟩
    · exact ih more hmore c hc

/-- On a valid input the nodes listed for a record at its depth are exactly
the records whose manager chain passes through it, each once, with its depth. -/
theorem ValidInput.preorderNodes_spec {rs : List RawEmployee} {root : RawEmployee}
    (hv : ValidInput rs root) :
    ∀ (fuel : Nat) (r : RawEmployee) (d : Nat) (ns : List (RawEmployee × Nat)),
      r ∈ rs → ManagerChain rs root r d → preorderNodes rs fuel r d = some ns →
      (∀ x dx, (x, dx) ∈ ns ↔
        x ∈ rs ∧ ManagerChain rs root x dx ∧ ∃ k, ManagerChain rs r x k) ∧
      ns.Nodup := by
  intro fuel
  induction fuel with
  | zero => intro r d ns _ _ h; simp [preorderNodes] at h
  | succ f ih =>
    intro r d ns hr hd h
    rw [preorderNodes] at h
    cases hl : listEach (fun c => preorderNodes rs f c (d + 1)) (manageesOf rs r.ID) with
    | none => simp [hl] at h
    | some nodes =>
      simp only [hl, Option.some.injEq] at h
      subst h
      have hmem := listEach_mem _ _ _ hl
      have hsome := listEach_some_inv _ _ _ hl
      have hkid : ∀ c ∈ manageesOf rs r.ID, ∀ nc, preorderNodes rs f c (d + 1) = some nc →
          (∀ x dx, (x, dx) ∈ nc ↔
            x ∈ rs ∧ ManagerChain rs root x dx ∧ ∃ k, ManagerChain rs c x k) ∧
          nc.Nodup := by
        intro c hc nc hnc
        obtain ⟨hcp, hcd⟩ := ValidInput.managee_depth hr hd hc
        exact ih c (d + 1) nc hcp hcd hnc
      have hin : ∀ x dx, (x, dx) ∈ nodes ↔
          ∃ c ∈ manageesOf rs r.ID, x ∈ rs ∧ ManagerChain rs root x dx ∧
            ∃ k, ManagerChain rs c x k := by
        intro x dx
        rw [hmem]
        constructor
        · rintro ⟨c, hc, nc, hnc, hx⟩
          exact ⟨c, hc, ((hkid c hc nc hnc).1 x dx).1 hx⟩
        · rintro ⟨c, hc, hx⟩
          obtain ⟨nc, hnc⟩ := hsome c hc
          exact ⟨c, hc, nc, hnc, ((hkid c hc nc hnc).1 x dx).2 hx⟩
      constructor
      · intro x dx
        rw [List.mem_cons, hin]
        constructor
        · rintro (heq | ⟨c, hc, hx, hdx, k, hk⟩)
          · cases heq
            exact ⟨hr, hd, 0, ManagerChain.here⟩
          · obtain ⟨hcp, hcm, hcr⟩ := mem_manageesOf.1 hc
            exact ⟨hx, hdx, k + 1, hk.snoc hcp hcm hr hcr.symm⟩
        · rintro ⟨hx, hdx, k, hk⟩
          cases k with
          | zero =>
            cases hk
            have := hd.depth_unique hv.nodup hv.root_manager hdx
            subst this
            exact Or.inl rfl
          | succ j =>
            obtain ⟨c, hcp, hcm, hcr, hcx⟩ := hk.top_split rfl
            exact Or.inr ⟨c, mem_manageesOf.2 ⟨hcp, hcm, hcr⟩, hx, hdx, j, hcx⟩
      · rw [List.nodup_cons]
        constructor
        · intro hrn
          obtain ⟨c, hc, _, _, k, hk⟩ := (hin r d).1 hrn
          obtain ⟨_, hcd⟩ := ValidInput.managee_depth hr hd hc
          have := hk.depth_add hv.nodup hv.root_manager hcd hd
          omega
        · apply listEach_nodup _ _ _ hl
          · exact List.Nodup.of_map _ (manageesOf_nodup hv.nodup r.ID)
          · intro c hc nc hnc
            exact (hkid c hc nc hnc).2
          · intro c1 hc1 c2 hc2 n1 n2 y hn1 hn2 hy1 hy2
            obtain ⟨x, dx⟩ := y
            obtain ⟨_, hdx, k1, hk1⟩ := ((hkid c1 hc1 n1 hn1).1 x dx).1 hy1
            obtain ⟨_, _, k2, hk2⟩ := ((hkid c2 hc2 n2 hn2).1 x dx).1 hy2
            obtain ⟨_, hcd1⟩ := ValidInput.managee_depth hr hd hc1
            obtain ⟨_, hcd2⟩ := ValidInput.managee_depth hr hd hc2
            have e1 := hk1.depth_add hv.nodup hv.root_manager hcd1 hdx
            have e2 := hk2.depth_add hv.nodup hv.root_manager hcd2 hdx
            have : k1 = k2 := by omega
            subst this
            exact hk1.top_unique hv.nodup hk2

/-- On a valid input the listing from the CEO is complete with a budget of the
number of records, and holds one row per record, at the record's depth. -/
theorem ValidInput.preorder_perm {rs : List RawEmployee} {root : RawEmployee}
    (hv : ValidInput rs root) (fuel : Nat) (hfuel : rs.length ≤ fuel) :
    ∃ lines, preorder rs fuel root 0 = some lines ∧
      ∀ dep : RawEmployee → Nat, (∀ r ∈ rs, ManagerChain rs root r (dep r)) →
        lines.Perm (rs.map (fun r => GenerateTabularRow r.Name (dep r))) := by
  obtain ⟨ns, hns⟩ := hv.preorderNodes_some fuel root 0 hv.root_mem ManagerChain.here
    (by omega)
  obtain ⟨hmem, hnd⟩ := hv.preorderNodes_spec fuel root 0 ns hv.root_mem
    ManagerChain.here hns
  refine ⟨ns.map (fun n => GenerateTabularRow n.1.Name n.2), ?_, ?_⟩
  · rw [preorder_eq_nodes, hns]
    rfl
  · intro dep hdep
    have hT : (rs.map (fun r => (r, dep r))).Nodup := by
      apply List.Nodup.map _ (List.Nodup.of_map _ hv.nodup)
      intro a b hab
      exact (Prod.mk.inj hab).1
    have hperm : ns.Perm (rs.map (fun r => (r, dep r))) := by
      rw [List.perm_ext_iff_of_nodup hnd hT]
      rintro ⟨x, dx⟩
      rw [hmem, List.mem_map]
      constructor
      · rintro ⟨hx, hdx, _⟩
        exact ⟨x, hx, by rw [(hdep x hx).depth_unique hv.nodup hv.root_manager hdx]⟩
      · rintro ⟨r, hr, heq⟩
        simp only [Prod.mk.injEq] at heq
        obtain ⟨h1, h2⟩ := heq
        subst h1; subst h2
        exact ⟨hr, hdep _ hr, _, hdep _ hr⟩
    have := hperm.map (fun n => GenerateTabularRow n.1.Name n.2)
    rw [List.map_map] at this
    exact this

theorem ValidInput.exists_depth {rs : List RawEmployee} {root : RawEmployee}
    (hv : ValidInput rs root) :
    ∃ dep : RawEmployee → Nat, ∀ r ∈ rs, ManagerChain rs root r (dep r) := by
  have := hv.chain
  choose! dep hdep using this
  exact ⟨dep, hdep⟩

/-- The pipeline on a valid input, with a budget of at least the number of
records: the import returns nil with every record registered, and the
rendered lines are the pre-order listing from the CEO record. -/
theorem ValidInput.run {rs : List RawEmployee} {root : RawEmployee}
    (hv : ValidInput rs root) (fuel : Nat) (hfuel : rs.length ≤ fuel) :
    ∃ st lines, ImportRawEmployeeData fuel Heap.empty Company.fresh rs = some (st, none) ∧
      (∀ r ∈ rs, mapLookup st.company.Employees r.ID ≠ none) ∧
      GenerateHierarchyFromCSV fuel rs = some (lines, none) ∧
      preorder rs fuel root 0 = some lines := by
  obtain ⟨st, err, himp, hres⟩ := ImportRawEmployeeData_result fuel rs hv.nodup hfuel
  obtain ⟨lines, hlines, _⟩ := hv.preorder_perm fuel hfuel
  rcases hres with ⟨_, hge⟩ | ⟨hinv, _, hcase⟩
  · have := hv.single_root
    omega
  · have hall : ∀ r ∈ rs, mapLookup st.company.Employees r.ID ≠ none := by
      intro r hr
      obtain ⟨d, hd⟩ := hv.chain r hr
      exact hinv.registered_of_chain hv.root_mem hv.root_manager hd
    have hnil := hinv.manageeMap_nil hall
    rcases hcase with ⟨herr, _⟩ | ⟨_, hpos⟩
    · subst herr
      refine ⟨st, lines, himp, hall, ?_, hlines⟩
      obtain ⟨hceo, hceo2⟩ := hinv.ceo_root root hv.root_mem (fun hf => hf) hv.root_manager
      rcases Option.eq_none_or_eq_some (mapLookup st.company.Employees root.ID) with
        hn | ⟨e, he⟩
      · rw [hn] at hceo2
        exact absurd hceo2 hceo
      · rw [he] at hceo2
        have hw := EmployeeWalk_eq_preorder hinv hall fuel root e 0 hv.root_mem he
        simp [GenerateHierarchyFromCSV, himp, GenerateHierarchyTable, hceo2, hw, hlines]
    · rw [hnil] at hpos
      simp [mapLen] at hpos

/-! ## Valid inputs -/

theorem chainCheck_sound (rs : List RawEmployee) (root : RawEmployee) :
    ∀ (fuel : Nat) (r : RawEmployee), chainCheck rs root fuel r = true →
      ∃ d, ManagerChain rs root r d := by
  intro fuel
  induction fuel with
  | zero =>
    intro r h
    simp only [chainCheck, decide_eq_true_eq] at h
    subst h
    exact ⟨0, ManagerChain.here⟩
  | succ f ih =>
    intro r h
    simp only [chainCheck, Bool.or_eq_true, decide_eq_true_eq, Bool.and_eq_true,
      List.any_eq_true] at h
    rcases h with h | ⟨⟨hr, hm⟩, m, hmem, hid, hch⟩
    · subst h
      exact ⟨0, ManagerChain.here⟩
    · obtain ⟨d, hd⟩ := ih m hch
      exact ⟨d + 1, ManagerChain.up hr hm hmem hid hd⟩

theorem validCheck_sound {rs : List RawEmployee} {root : RawEmployee}
    (h : validCheck rs root = true) : ValidInput rs root := by
  simp only [validCheck, Bool.and_eq_true, decide_eq_true_eq, List.all_eq_true] at h
  obtain ⟨⟨⟨⟨h1, h2⟩, h3⟩, h4⟩, h5⟩ := h
  exact ⟨h1, h2, h3, h4, fun r hr => chainCheck_sound rs root _ r (h5 r hr)⟩

theorem ValidInput.perm {rs rs1 : List RawEmployee} {root : RawEmployee}
    (hv : ValidInput rs root) (hp : rs1.Perm rs) : ValidInput rs1 root where
  nodup := ((hp.map RawEmployee.ID).nodup_iff).2 hv.nodup
  root_mem := hp.mem_iff.2 hv.root_mem
  root_manager := hv.root_manager
  root_unique := fun r hr hm => hv.root_unique r (hp.mem_iff.1 hr) hm
  chain := by
    intro r hr
    obtain ⟨d, hd⟩ := hv.chain r (hp.mem_iff.1 hr)
    exact ⟨d, hd.mono (fun x hx => hp.mem_iff.2 hx)⟩

/-- C1. On every valid input (pairwise-distinct ids, one record with an empty
manager id, every manager chain reaching it), in whatever order the records
are listed, the pipeline returns no error and as many lines as there are
records, at every budget of at least the number of records. -/
theorem valid_input_renders_every_record (fuel : Nat) (rs : List RawEmployee)
    (root : RawEmployee) (hv : ValidInput rs root) (hfuel : rs.length ≤ fuel) :
    ∃ lines, GenerateHierarchyFromCSV fuel rs = some (lines, none) ∧
      lines.length = rs.length := by
  obtain ⟨_, lines, _, _, hrun, hpre⟩ := hv.run fuel hfuel
  obtain ⟨lines1, hpre1, hperm⟩ := hv.preorder_perm fuel hfuel
  obtain ⟨dep, hdep⟩ := hv.exists_depth
  rw [hpre] at hpre1
  cases hpre1
  refine ⟨lines, hrun, ?_⟩
  rw [(hperm dep hdep).length_eq, List.length_map]

/-- Witness for C1: every managee precedes its manager, two levels deep. -/
theorem valid_input_renders_every_record_witness :
    ValidInput testRowsReversed ⟨"jamie", "1", ""⟩ ∧
    ∃ lines, GenerateHierarchyFromCSV 6 testRowsReversed = some (lines, none) ∧
      lines.length = testRowsReversed.length :=
  ⟨validCheck_sound (by decide),
   valid_input_renders_every_record 6 testRowsReversed ⟨"jamie", "1", ""⟩
    (validCheck_sound (by decide)) (by decide)⟩

/-- C2. On every valid input the lines returned by the pipeline are the
pre-order depth-first listing of the hierarchy of the records: the CEO record
first at depth 0, each record as one tab per level followed by its name, its
subtree right after it, the managees of one manager in input order. The
listing holds one line per record, with as many tabs as the record has
manager-edges to the CEO record. -/
theorem valid_input_renders_preorder (fuel : Nat) (rs : List RawEmployee)
    (root : RawEmployee) (hv : ValidInput rs root) (hfuel : rs.length ≤ fuel) :
    ∃ lines, GenerateHierarchyFromCSV fuel rs = some (lines, none) ∧
      preorder rs fuel root 0 = some lines ∧
      lines.head? = some root.Name ∧
      ∀ dep : RawEmployee → Nat, (∀ r ∈ rs, ManagerChain rs root r (dep r)) →
        lines.Perm (rs.map (fun r => GenerateTabularRow r.Name (dep r))) := by
  obtain ⟨_, lines, _, _, hrun, hpre⟩ := hv.run fuel hfuel
  obtain ⟨lines1, hpre1, hperm⟩ := hv.preorder_perm fuel hfuel
  rw [hpre] at hpre1
  cases hpre1
  refine ⟨lines, hrun, hpre, ?_, hperm⟩
  cases fuel with
  | zero => simp [preorder] at hpre
  | succ f =>
    rw [preorder] at hpre
    cases hl : listEach (fun c => preorder rs f c (0 + 1)) (manageesOf rs root.ID) with
    | none => simp [hl] at hpre
    | some rows =>
      simp only [hl, Option.some.injEq] at hpre
      rw [← hpre]
      simp [stringsRepeat]

/-- Witness for C2: the six rows of `TestHierarchyGeneration` and their
expected output. -/
theorem valid_input_renders_preorder_witness :
    ValidInput testRows ⟨"jamie", "1", ""⟩ ∧
    GenerateHierarchyFromCSV 6 testRows =
      some (["jamie", "\talan", "\t\tmartin", "\t\talex", "\tsteve", "\t\tdavid"], none) ∧
    preorder testRows 6 ⟨"jamie", "1", ""⟩ 0 =
      some ["jamie", "\talan", "\t\tmartin", "\t\talex", "\tsteve", "\t\tdavid"] := by
  have hv : ValidInput testRows ⟨"jamie", "1", ""⟩ := validCheck_sound (by decide)
  obtain ⟨lines, hrun, hpre, _, _⟩ :=
    valid_input_renders_preorder 6 testRows ⟨"jamie", "1", ""⟩ hv (by decide)
  have hp : preorder testRows 6 ⟨"jamie", "1", ""⟩ 0 =
      some ["jamie", "\talan", "\t\tmartin", "\t\talex", "\tsteve", "\t\tdavid"] := by
    decide
  rw [hp] at hpre
  cases hpre
  exact ⟨hv, hrun, hp⟩

/-- C10. For a valid input and every permutation of it the pipeline succeeds
on both, and the two outputs hold the same lines with the same
multiplicities: one line per record, at the record's depth in the hierarchy.
Each manager has the same managees in both inputs, and each output is the
pre-order listing of its own input, so only the order of siblings differs. -/
theorem permuted_input_same_lines (fuel : Nat) (rs rs1 : List RawEmployee)
    (root : RawEmployee) (hv : ValidInput rs root) (hp : rs1.Perm rs)
    (hfuel : rs.length ≤ fuel) :
    ∃ lines lines1, ∃ dep : RawEmployee → Nat,
      GenerateHierarchyFromCSV fuel rs = some (lines, none) ∧
      GenerateHierarchyFromCSV fuel rs1 = some (lines1, none) ∧
      lines.Perm lines1 ∧
      (∀ r ∈ rs, ManagerChain rs root r (dep r)) ∧
      lines.Perm (rs.map (fun r => GenerateTabularRow r.Name (dep r))) ∧
      lines1.Perm (rs.map (fun r => GenerateTabularRow r.Name (dep r))) ∧
      (∀ id, (manageesOf rs1 id).Perm (manageesOf rs id)) ∧
      preorder rs fuel root 0 = some lines ∧ preorder rs1 fuel root 0 = some lines1 := by
  have hv1 : ValidInput rs1 root := hv.perm hp
  have hfuel1 : rs1.length ≤ fuel := by rw [hp.length_eq]; exact hfuel
  obtain ⟨_, lines, _, _, hrun, hpre⟩ := hv.run fuel hfuel
  obtain ⟨_, lines1, _, _, hrun1, hpre1⟩ := hv1.run fuel hfuel1
  obtain ⟨l, hl, hperm⟩ := hv.preorder_perm fuel hfuel
  obtain ⟨l1, hl1, hperm1⟩ := hv1.preorder_perm fuel hfuel1
  obtain ⟨dep, hdep⟩ := hv.exists_depth
  rw [hpre] at hl
  rw [hpre1] at hl1
  cases hl
  cases hl1
  have h1 := hperm dep hdep
  have h2 : lines1.Perm (rs.map (fun r => GenerateTabularRow r.Name (dep r))) :=
    (hperm1 dep (fun r hr =>
      (hdep r (hp.mem_iff.1 hr)).mono (fun x hx => hp.mem_iff.2 hx))).trans
        (hp.map _)
  exact ⟨lines, lines1, dep, hrun, hrun1, h1.trans h2.symm, hdep, h1, h2,
    fun id => hp.filter _, hpre, hpre1⟩

/-- Witness for C10: the rows of `TestHierarchyGeneration` and the same rows
with `steve` and his managee moved to the front. -/
theorem permuted_input_same_lines_witness :
    GenerateHierarchyFromCSV 6 testRows =
      some (["jamie", "\talan", "\t\tmartin", "\t\talex", "\tsteve", "\t\tdavid"], none) ∧
    GenerateHierarchyFromCSV 6
        [⟨"david", "6", "5"⟩, ⟨"steve", "5", "1"⟩, ⟨"jamie", "1", ""⟩,
         ⟨"alan", "2", "1"⟩, ⟨"martin", "3", "2"⟩, ⟨"alex", "4", "2"⟩] =
      some (["jamie", "\tsteve", "\t\tdavid", "\talan", "\t\tmartin", "\t\talex"], none) ∧
    ∃ lines lines1, ∃ dep : RawEmployee → Nat,
      GenerateHierarchyFromCSV 6 testRows = some (lines, none) ∧
      GenerateHierarchyFromCSV 6
          [⟨"david", "6", "5"⟩, ⟨"steve", "5", "1"⟩, ⟨"jamie", "1", ""⟩,
           ⟨"alan", "2", "1"⟩, ⟨"martin", "3", "2"⟩, ⟨"alex", "4", "2"⟩] =
        some (lines1, none) ∧
      lines.Perm lines1 ∧
      (∀ r ∈ testRows, ManagerChain testRows ⟨"jamie", "1", ""⟩ r (dep r)) ∧
      lines.Perm (testRows.map (fun r => GenerateTabularRow r.Name (dep r))) ∧
      lines1.Perm (testRows.map (fun r => GenerateTabularRow r.Name (dep r))) ∧
      (∀ id, (manageesOf
          [⟨"david", "6", "5"⟩, ⟨"steve", "5", "1"⟩, ⟨"jamie", "1", ""⟩,
           ⟨"alan", "2", "1"⟩, ⟨"martin", "3", "2"⟩, ⟨"alex", "4", "2"⟩] id).Perm
        (manageesOf testRows id)) ∧
      preorder testRows 6 ⟨"jamie", "1", ""⟩ 0 = some lines ∧
      preorder
          [⟨"david", "6", "5"⟩, ⟨"steve", "5", "1"⟩, ⟨"jamie", "1", ""⟩,
           ⟨"alan", "2", "1"⟩, ⟨"martin", "3", "2"⟩, ⟨"alex", "4", "2"⟩]
          6 ⟨"jamie", "1", ""⟩ 0 = some lines1 :=
  ⟨by decide, by decide,
   permuted_input_same_lines 6 testRows
    [⟨"david", "6", "5"⟩, ⟨"steve", "5", "1"⟩, ⟨"jamie", "1", ""⟩,
     ⟨"alan", "2", "1"⟩, ⟨"martin", "3", "2"⟩, ⟨"alex", "4", "2"⟩]
    ⟨"jamie", "1", ""⟩ (validCheck_sound (by decide)) (by decide) (by decide)⟩

/-! ## Further facts on `AddEmployee` and on cycles through an empty id -/

/-- `AddEmployee` keeps the managee slices a forest: the new employee's slice
is the newest one, and it is stored only in its manager's, older, slice. -/
theorem AddEmployee_HeapOrdered {heap heap1 : Heap} {company company1 : Company}
    {raw : RawEmployee} {res : Except HError Employee}
    (ho : HeapOrdered heap)
    (hreg : ∀ id e, mapLookup company.Employees id = some e → e.Managees < heap.next)
    (h : AddEmployee heap company raw = (heap1, company1, res)) :
    HeapOrdered heap1 ∧
    ∀ id e, mapLookup company1.Employees id = some e → e.Managees < heap1.next := by
  have halloc : HeapOrdered heap.alloc.1 := by
    intro a e he
    simp only [Heap.alloc, Function.update_apply] at he ⊢
    by_cases ha : a = heap.next
    · simp [ha] at he
    · simp only [ha, ↓reduceIte] at he
      obtain ⟨h1, h2⟩ := ho a e he
      exact ⟨h1, by omega⟩
  have hstore : ∀ (e0 : Employee), e0.Managees = heap.next →
      ∀ id e, mapLookup (mapStore company.Employees raw.ID e0) id = some e →
        e.Managees < heap.next + 1 := by
    intro e0 he0 id e he
    rw [mapLookup_mapStore] at he
    by_cases hid : id = raw.ID
    · simp only [hid, ↓reduceIte, Option.some.injEq] at he
      rw [← he, he0]
      omega
    · simp only [hid, ↓reduceIte] at he
      have := hreg id e he
      omega
  rcases AddEmployee_cases heap company raw with
    ⟨_, _, h3⟩ | ⟨_, _, h3⟩ | ⟨_, _, h3⟩ | ⟨m, _, hl, h3⟩
  · rw [h3] at h
    simp only [Prod.mk.injEq] at h
    obtain ⟨h1, h2, _⟩ := h
    subst h1; subst h2
    exact ⟨halloc, hstore _ rfl⟩
  · rw [h3] at h
    simp only [Prod.mk.injEq] at h
    obtain ⟨h1, h2, _⟩ := h
    subst h1; subst h2
    exact ⟨halloc, fun id e he => by have := hreg id e he; simp only [Heap.alloc]; omega⟩
  · rw [h3] at h
    simp only [Prod.mk.injEq] at h
    obtain ⟨h1, h2, _⟩ := h
    subst h1; subst h2
    exact ⟨halloc, fun id e he => by have := hreg id e he; simp only [Heap.alloc]; omega⟩
  · rw [h3] at h
    simp only [Prod.mk.injEq] at h
    obtain ⟨h1, h2, _⟩ := h
    subst h1; subst h2
    have hm := hreg _ _ hl
    refine ⟨?_, hstore _ rfl⟩
    intro a e he
    simp only [Heap.write, Heap.read, Function.update_apply] at he ⊢
    by_cases ha : a = m.Managees
    · simp only [ha, ↓reduceIte, List.mem_append, List.mem_singleton] at he
      rcases he with he | he
      · have := halloc _ _ he
        rw [ha]
        exact this
      · rw [he, ha]
        simp only [Employee.Managees_mk, Heap.alloc]
        omega
    · simp only [ha, ↓reduceIte] at he
      exact halloc _ _ he

/-- An empty manager id means no manager, also when a record has the empty
id: `jamie` has the empty manager id and `alan`, whose id is empty, names
`jamie`. These two records are not a manager cycle (`jamie` is the root), and
the import succeeds with `jamie` as CEO and `alan` below. -/
theorem manager_cycle_through_empty_id_succeeds :
    (([⟨"jamie", "1", ""⟩, ⟨"alan", "", "1"⟩] : List RawEmployee).map RawEmployee.ID).Nodup ∧
    (roots [⟨"jamie", "1", ""⟩, ⟨"alan", "", "1"⟩]).length ≤ 1 ∧
    (⟨"jamie", "1", ""⟩ : RawEmployee).Manager = (⟨"alan", "", "1"⟩ : RawEmployee).ID ∧
    (⟨"alan", "", "1"⟩ : RawEmployee).Manager = (⟨"jamie", "1", ""⟩ : RawEmployee).ID ∧
    GenerateHierarchyFromCSV 2 [⟨"jamie", "1", ""⟩, ⟨"alan", "", "1"⟩] =
      some (["jamie", "\talan"], none) := by
  decide

/-! ## The recursion budget only decides whether there is a result -/

theorem manageeLoop_mono
    {check check1 : ImportState → Employee → Option (ImportState × Option HError)}
    (h : ∀ st e r, check st e = some r → check1 st e = some r) :
    ∀ (l : List RawEmployee) (st : ImportState) (r : ImportState × Option HError),
      manageeLoop check l st = some r → manageeLoop check1 l st = some r := by
  intro l
  induction l with
  | nil => intro st r hr; exact hr
  | cons x rest ih =>
    intro st r hr
    rw [manageeLoop] at hr ⊢
    rcases hadd : AddEmployee st.heap st.company x with ⟨heap1, company1, res⟩
    rw [hadd] at hr
    cases res with
    | error e1 => exact hr
    | ok e =>
      simp only at hr ⊢
      cases hch : check ⟨heap1, company1, st.manageeMap⟩ e with
      | none => simp [hch] at hr
      | some r2 =>
        obtain ⟨st2, err2⟩ := r2
        simp only [hch] at hr
        simp only [h _ _ _ hch]
        exact ih st2 r hr

theorem CheckManageeMap_mono_succ :
    ∀ (f : Nat) (st : ImportState) (e : Employee) (r : ImportState × Option HError),
      CheckManageeMap f st e = some r → CheckManageeMap (f + 1) st e = some r := by
  intro f
  induction f with
  | zero => intro st e r hr; simp [CheckManageeMap] at hr
  | succ f ih =>
    intro st e r hr
    rw [CheckManageeMap] at hr ⊢
    cases hl : mapLookup st.manageeMap e.ID with
    | none => simpa [hl] using hr
    | some l =>
      simp only [hl] at hr ⊢
      cases hloop : manageeLoop (CheckManageeMap f) l st with
      | none => simp [hloop] at hr
      | some r1 =>
        rw [manageeLoop_mono ih l st r1 hloop]
        rw [hloop] at hr
        exact hr

theorem CheckManageeMap_mono {f f1 : Nat} (hf : f ≤ f1) (st : ImportState) (e : Employee)
    (r : ImportState × Option HError) (h : CheckManageeMap f st e = some r) :
    CheckManageeMap f1 st e = some r := by
  induction hf with
  | refl => exact h
  | step _ ih => exact CheckManageeMap_mono_succ _ st e r ih

theorem importLoop_mono {f f1 : Nat} (hf : f ≤ f1) :
    ∀ (rs : List RawEmployee) (st : ImportState) (r : ImportState × Option HError),
      importLoop f rs st = some r → importLoop f1 rs st = some r := by
  intro rs
  induction rs with
  | nil => intro st r hr; exact hr
  | cons x rest ih =>
    intro st r hr
    rw [importLoop] at hr ⊢
    rcases hadd : AddEmployee st.heap st.company x with ⟨heap1, company1, res⟩
    rw [hadd] at hr
    cases res with
    | error e1 =>
      simp only at hr ⊢
      by_cases he : e1 = MissingManagerError
      · simp only [he, ↓reduceIte] at hr ⊢
        exact ih _ r hr
      · simp only [he, ↓reduceIte] at hr ⊢
        exact hr
    | ok e =>
      simp only at hr ⊢
      cases hch : CheckManageeMap f ⟨heap1, company1, st.manageeMap⟩ e with
      | none => simp [hch] at hr
      | some r2 =>
        obtain ⟨st2, err2⟩ := r2
        rw [CheckManageeMap_mono hf _ e _ hch]
        rw [hch] at hr
        cases err2 with
        | none => exact ih st2 r hr
        | some e2 => exact hr

theorem ImportRawEmployeeData_mono {f f1 : Nat} (hf : f ≤ f1) (heap : Heap)
    (company : Company) (rs : List RawEmployee) (r : ImportState × Option HError)
    (h : ImportRawEmployeeData f heap company rs = some r) :
    ImportRawEmployeeData f1 heap company rs = some r := by
  simp only [ImportRawEmployeeData] at h ⊢
  cases hloop : importLoop f rs ⟨heap, company, []⟩ with
  | none => simp [hloop] at h
  | some r1 =>
    rw [importLoop_mono hf rs _ r1 hloop]
    rw [hloop] at h
    exact h

theorem walkLoop_mono {walk walk1 : Employee → Nat → Option (List String)}
    (h : ∀ e d r, walk e d = some r → walk1 e d = some r) (depth : Nat) :
    ∀ (l : List Employee) (output r : List String),
      walkLoop walk depth l output = some r → walkLoop walk1 depth l output = some r := by
  intro l
  induction l with
  | nil => intro output r hr; exact hr
  | cons c rest ih =>
    intro output r hr
    rw [walkLoop] at hr ⊢
    cases hw : walk c depth with
    | none => simp [hw] at hr
    | some rows =>
      rw [h _ _ _ hw]
      rw [hw] at hr
      exact ih _ r hr

theorem EmployeeWalk_mono_succ (heap : Heap) :
    ∀ (f : Nat) (e : Employee) (d : Nat) (r : List String),
      EmployeeWalk heap f e d = some r → EmployeeWalk heap (f + 1) e d = some r := by
  intro f
  induction f with
  | zero => intro e d r hr; simp [EmployeeWalk] at hr
  | succ f ih =>
    intro e d r hr
    rw [EmployeeWalk] at hr ⊢
    exact walkLoop_mono ih _ _ _ r hr

theorem EmployeeWalk_mono (heap : Heap) {f f1 : Nat} (hf : f ≤ f1) (e : Employee) (d : Nat)
    (r : List String) (h : EmployeeWalk heap f e d = some r) :
    EmployeeWalk heap f1 e d = some r := by
  induction hf with
  | refl => exact h
  | step _ ih => exact EmployeeWalk_mono_succ heap _ e d r ih

theorem GenerateHierarchyFromCSV_mono {f f1 : Nat} (hf : f ≤ f1) (rs : List RawEmployee)
    (r : List String × Option HError) (h : GenerateHierarchyFromCSV f rs = some r) :
    GenerateHierarchyFromCSV f1 rs = some r := by
  simp only [GenerateHierarchyFromCSV] at h ⊢
  cases himp : ImportRawEmployeeData f Heap.empty Company.fresh rs with
  | none => simp [himp] at h
  | some r1 =>
    obtain ⟨st, err⟩ := r1
    rw [ImportRawEmployeeData_mono hf _ _ rs _ himp]
    rw [himp] at h
    cases err with
    | some e1 => exact h
    | none =>
      simp only [GenerateHierarchyTable] at h ⊢
      cases hc : st.company.CEO with
      | none => simpa [hc] using h
      | some ceo =>
        simp only [hc] at h ⊢
        cases hw : EmployeeWalk st.heap f ceo 0 with
        | none => simp [hw] at h
        | some out =>
          rw [EmployeeWalk_mono st.heap hf ceo 0 out hw]
          rw [hw] at h
          exact h

/-! ## No `AddEmployee` call of a drain fails -/

theorem AddEmployee_ok {heap heap1 : Heap} {company company1 : Company}
    {raw : RawEmployee} {e : Employee}
    (h : AddEmployee heap company raw = (heap1, company1, Except.ok e)) :
    e.ID = raw.ID ∧ e.Name = raw.Name ∧ e.Managees = heap.next ∧
    company1.Employees = mapStore company.Employees raw.ID e ∧
    ((raw.Manager = "" ∧ company.CEO = none) ∨
      (raw.Manager ≠ "" ∧ mapLookup company.Employees raw.Manager ≠ none)) := by
  rcases AddEmployee_cases heap company raw with
    ⟨h1, h2, h3⟩ | ⟨_, _, h3⟩ | ⟨_, _, h3⟩ | ⟨m, h1, h2, h3⟩
  · rw [h3] at h
    simp only [Prod.mk.injEq, Except.ok.injEq] at h
    obtain ⟨_, hc, he⟩ := h
    subst hc; subst he
    exact ⟨rfl, rfl, rfl, rfl, Or.inl ⟨h1, h2⟩⟩
  · rw [h3] at h; simp at h
  · rw [h3] at h; simp at h
  · rw [h3] at h
    simp only [Prod.mk.injEq, Except.ok.injEq] at h
    obtain ⟨_, hc, he⟩ := h
    subst hc; subst he
    exact ⟨rfl, rfl, rfl, rfl, Or.inr ⟨h1, by rw [h2]; simp⟩⟩

theorem AddEmployee_keys_kept {heap heap1 : Heap} {company company1 : Company}
    {raw : RawEmployee} {res : Except HError Employee}
    (h : AddEmployee heap company raw = (heap1, company1, res)) (id : String)
    (hid : mapLookup company.Employees id ≠ none) :
    mapLookup company1.Employees id ≠ none := by
  cases res with
  | error err =>
    rw [(AddEmployee_error h).1]
    exact hid
  | ok e =>
    rw [(AddEmployee_ok h).2.2.2.1, mapLookup_mapStore]
    by_cases hx : id = raw.ID
    · simp [hx]
    · simpa [hx] using hid

theorem PendingWf.delete {mm : GoMap (List RawEmployee)} (h : PendingWf mm) (k : String) :
    PendingWf (mapDelete mm k) := by
  intro j l hl
  rw [mapLookup_mapDelete] at hl
  by_cases hj : j = k
  · simp [hj] at hl
  · simp only [hj, ↓reduceIte] at hl
    exact h j l hl

theorem manageeLoop_safe (f : Nat)
    (ih : ∀ (st : ImportState) (e : Employee), PendingWf st.manageeMap →
      mapLookup st.company.Employees e.ID ≠ none →
      CheckManageeMap f st e = CheckManageeMapStrict f st e ∧
      ∀ st1 err, CheckManageeMap f st e = some (st1, err) →
        err = none ∧ PendingWf st1.manageeMap ∧
        ∀ id, mapLookup st.company.Employees id ≠ none →
          mapLookup st1.company.Employees id ≠ none)
    (k : String) (hk : k ≠ "") :
    ∀ (l : List RawEmployee) (st : ImportState), PendingWf st.manageeMap →
      (∀ m ∈ l, m.Manager = k) → mapLookup st.company.Employees k ≠ none →
      manageeLoop (CheckManageeMap f) l st =
        manageeLoopStrict (CheckManageeMapStrict f) l st ∧
      ∀ st1 err, manageeLoop (CheckManageeMap f) l st = some (st1, err) →
        err = none ∧ PendingWf st1.manageeMap ∧
        ∀ id, mapLookup st.company.Employees id ≠ none →
          mapLookup st1.company.Employees id ≠ none := by
  intro l
  induction l with
  | nil =>
    intro st hwf _ _
    refine ⟨rfl, ?_⟩
    intro st1 err h
    simp only [manageeLoop, Option.some.injEq, Prod.mk.injEq] at h
    obtain ⟨h1, h2⟩ := h
    subst h1; subst h2
    exact ⟨rfl, hwf, fun _ hid => hid⟩
  | cons x rest ihl =>
    intro st hwf hl hreg
    have hxm : x.Manager = k := hl x (List.mem_cons_self _ _)
    rcases hadd : AddEmployee st.heap st.company x with ⟨heap1, company1, res⟩
    cases res with
    | error e1 =>
      rcases (AddEmployee_error hadd).2 with ⟨_, h1, _⟩ | ⟨_, _, h2⟩
      · rw [hxm] at h1; exact absurd h1 hk
      · rw [hxm] at h2; exact absurd h2 hreg
    | ok e =>
      have hkeep := fun id => AddEmployee_keys_kept hadd id
      obtain ⟨heid, _, _, hE, _⟩ := AddEmployee_ok hadd
      have hereg : mapLookup company1.Employees e.ID ≠ none := by
        rw [hE, mapLookup_mapStore, heid]
        simp
      obtain ⟨heq, hres⟩ := ih ⟨heap1, company1, st.manageeMap⟩ e hwf hereg
      rw [manageeLoop, manageeLoopStrict, hadd]
      simp only
      rw [← heq]
      cases hch : CheckManageeMap f ⟨heap1, company1, st.manageeMap⟩ e with
      | none => simp
      | some r2 =>
        obtain ⟨st2, err2⟩ := r2
        obtain ⟨herr, hwf2, hkeep2⟩ := hres st2 err2 hch
        subst herr
        simp only
        obtain ⟨heq3, hres3⟩ := ihl st2 hwf2
          (fun y hy => hl y (List.mem_cons_of_mem _ hy)) (hkeep2 k (hkeep k hreg))
        refine ⟨heq3, ?_⟩
        intro st1 err h
        obtain ⟨h4, h5, h6⟩ := hres3 st1 err h
        exact ⟨h4, h5, fun id hid => h6 id (hkeep2 id (hkeep id hid))⟩

/-- With a well-formed pending map and the drained employee registered,
`CheckManageeMap` is `CheckManageeMapStrict` at every budget, and whenever it
returns, it returns nil. -/
theorem CheckManageeMap_safe :
    ∀ (f : Nat) (st : ImportState) (e : Employee), PendingWf st.manageeMap →
      mapLookup st.company.Employees e.ID ≠ none →
      CheckManageeMap f st e = CheckManageeMapStrict f st e ∧
      ∀ st1 err, CheckManageeMap f st e = some (st1, err) →
        err = none ∧ PendingWf st1.manageeMap ∧
        ∀ id, mapLookup st.company.Employees id ≠ none →
          mapLookup st1.company.Employees id ≠ none := by
  intro f
  induction f with
  | zero =>
    intro st e _ _
    refine ⟨rfl, ?_⟩
    intro st1 err h
    simp [CheckManageeMap] at h
  | succ f ih =>
    intro st e hwf hreg
    rw [CheckManageeMap, CheckManageeMapStrict]
    cases hl : mapLookup st.manageeMap e.ID with
    | none =>
      refine ⟨rfl, ?_⟩
      intro st1 err h
      simp only [Option.some.injEq, Prod.mk.injEq] at h
      obtain ⟨h1, h2⟩ := h
      subst h1; subst h2
      exact ⟨rfl, hwf, fun _ hid => hid⟩
    | some l =>
      obtain ⟨hk, hlm⟩ := hwf _ _ hl
      obtain ⟨heq, hres⟩ := manageeLoop_safe f ih e.ID hk l st hwf hlm hreg
      simp only
      rw [← heq]
      refine ⟨rfl, ?_⟩
      intro st1 err h
      cases hloop : manageeLoop (CheckManageeMap f) l st with
      | none => simp [hloop] at h
      | some r1 =>
        obtain ⟨st2, err2⟩ := r1
        obtain ⟨herr, hwf2, hkeep2⟩ := hres st2 err2 hloop
        subst herr
        simp only [hloop, Option.some.injEq, Prod.mk.injEq] at h
        obtain ⟨h1, h2⟩ := h
        subst h1; subst h2
        exact ⟨rfl, hwf2.delete _, hkeep2⟩

theorem importLoop_safe (fuel : Nat) :
    ∀ (rs : List RawEmployee) (st st1 : ImportState) (err : Option HError),
      PendingWf st.manageeMap → importLoop fuel rs st = some (st1, err) →
      (err = none ∨ err = some MultipleCEOError) ∧ PendingWf st1.manageeMap := by
  intro rs
  induction rs with
  | nil =>
    intro st st1 err hwf h
    simp only [importLoop, Option.some.injEq, Prod.mk.injEq] at h
    obtain ⟨h1, h2⟩ := h
    subst h1; subst h2
    exact ⟨Or.inl rfl, hwf⟩
  | cons x rest ih =>
    intro st st1 err hwf h
    rw [importLoop] at h
    rcases hadd : AddEmployee st.heap st.company x with ⟨heap1, company1, res⟩
    rw [hadd] at h
    cases res with
    | error e1 =>
      rcases (AddEmployee_error hadd).2 with ⟨he, _, _⟩ | ⟨he, hm, _⟩
      · subst he
        simp only [reduceCtorEq, ↓reduceIte, Option.some.injEq, Prod.mk.injEq] at h
        obtain ⟨h1, h2⟩ := h
        subst h1; subst h2
        exact ⟨Or.inr rfl, hwf⟩
      · subst he
        simp only [↓reduceIte] at h
        refine ih _ st1 err ?_ h
        intro k l hl
        simp only [mapLookup_mapStore] at hl
        by_cases hk : k = x.Manager
        · subst hk
          simp only [↓reduceIte, Option.some.injEq] at hl
          subst hl
          refine ⟨hm, ?_⟩
          intro m hmem
          rcases List.mem_append.1 hmem with hmem | hmem
          · rcases Option.eq_none_or_eq_some (mapLookup st.manageeMap x.Manager) with
              hn | ⟨l0, hs⟩
            · rw [hn] at hmem
              simp at hmem
            · rw [hs] at hmem
              exact (hwf _ _ hs).2 m hmem
          · simp only [List.mem_singleton] at hmem
            rw [hmem]
        · simp only [hk, ↓reduceIte] at hl
          exact hwf k l hl
    | ok e =>
      simp only at h
      obtain ⟨heid, _, _, hE, _⟩ := AddEmployee_ok hadd
      have hereg : mapLookup company1.Employees e.ID ≠ none := by
        rw [hE, mapLookup_mapStore, heid]
        simp
      obtain ⟨_, hres⟩ :=
        CheckManageeMap_safe fuel ⟨heap1, company1, st.manageeMap⟩ e hwf hereg
      cases hch : CheckManageeMap fuel ⟨heap1, company1, st.manageeMap⟩ e with
      | none => simp [hch] at h
      | some r2 =>
        obtain ⟨st2, err2⟩ := r2
        obtain ⟨herr, hwf2, _⟩ := hres st2 err2 hch
        subst herr
        simp only [hch] at h
        exact ih st2 st1 err hwf2 h

/-- The loop over `p ++ q` is the loop over `p` followed, if it returned nil,
by the loop over `q` from the state reached. -/
theorem importLoop_append (fuel : Nat) (q : List RawEmployee) :
    ∀ (p : List RawEmployee) (st : ImportState),
      importLoop fuel (p ++ q) st =
        match importLoop fuel p st with
        | none => none
        | some (st1, some err) => some (st1, some err)
        | some (st1, none) => importLoop fuel q st1 := by
  intro p
  induction p with
  | nil => intro st; simp [importLoop]
  | cons x rest ih =>
    intro st
    rw [List.cons_append, importLoop, importLoop]
    rcases hadd : AddEmployee st.heap st.company x with ⟨heap1, company1, res⟩
    cases res with
    | error e1 =>
      simp only
      by_cases he : e1 = MissingManagerError
      · simp only [he, ↓reduceIte]
        exact ih _
      · simp only [he, ↓reduceIte]
    | ok e =>
      simp only
      cases hch : CheckManageeMap fuel ⟨heap1, company1, st.manageeMap⟩ e with
      | none => rfl
      | some r2 =>
        obtain ⟨st2, err2⟩ := r2
        cases err2 with
        | none => exact ih st2
        | some e2 => rfl

theorem PendingWf.nil : PendingWf [] := by
  intro k l hl
  simp [mapLookup] at hl

/-- A nil result of `ImportRawEmployeeData` on records with distinct ids:
every record is registered; the CEO is unset only for the empty input, and
otherwise the input is valid. -/
theorem ImportRawEmployeeData_nil_valid (fuel : Nat) (rs : List RawEmployee)
    (hnd : (rs.map RawEmployee.ID).Nodup) (hfuel : rs.length ≤ fuel) (st : ImportState)
    (h : ImportRawEmployeeData fuel Heap.empty Company.fresh rs = some (st, none)) :
    (∀ r ∈ rs, mapLookup st.company.Employees r.ID ≠ none) ∧
    (st.company.CEO = none → rs = []) ∧
    (st.company.CEO ≠ none → ∃ root, ValidInput rs root) := by
  obtain ⟨st1, err1, himp, hres⟩ := ImportRawEmployeeData_result fuel rs hnd hfuel
  rw [h] at himp
  simp only [Option.some.injEq, Prod.mk.injEq] at himp
  obtain ⟨h1, h2⟩ := himp
  subst h1; subst h2
  rcases hres with ⟨herr, _⟩ | ⟨hinv, _, hcase⟩
  · simp at herr
  · rcases hcase with ⟨_, hnil⟩ | ⟨herr, _⟩
    · have hall : ∀ r ∈ rs, mapLookup st.company.Employees r.ID ≠ none := by
        intro r hr hnone
        have := hinv.manageeMap_ne_nil hr hnone
        rw [hnil] at this
        simp [mapLen] at this
      refine ⟨hall, ?_, ?_⟩
      · intro hc
        have hE := hinv.ceo_first hc
        cases rs with
        | nil => rfl
        | cons r rest =>
          have := hall r (List.mem_cons_self _ _)
          rw [hE] at this
          simp [mapLookup] at this
      · intro hc
        obtain ⟨root, hroot, hrootm⟩ := hinv.ceo_has hc
        have huniq : ∀ r ∈ rs, r.Manager = "" → r = root := by
          intro r hr hrm
          obtain ⟨_, h3⟩ := hinv.ceo_root r hr (fun hf => hf) hrm
          obtain ⟨_, h4⟩ := hinv.ceo_root root hroot (fun hf => hf) hrootm
          rcases Option.eq_none_or_eq_some (mapLookup st.company.Employees r.ID) with
            hn | ⟨e, he⟩
          · exact absurd hn (hall r hr)
          · have he2 : mapLookup st.company.Employees root.ID = some e := by
              rw [← h4, h3, he]
            exact id_inj hnd hr hroot
              (((hinv.reg _ _ he).1).symm.trans (hinv.reg _ _ he2).1)
        refine ⟨root, hnd, hroot, hrootm, huniq, ?_⟩
        intro r hr
        obtain ⟨_, root1, d, hroot1, hroot1m, hchain⟩ :=
          hinv.chain_of_registered hnd (fun _ hx => hx) hr (hall r hr)
        have := huniq root1 hroot1 hroot1m
        subst this
        exact ⟨d, hchain⟩
    · simp at herr

/-! ## The errors of the import, termination, and what success implies -/

theorem ImportRawEmployeeData_errors_aux (fuel : Nat) (rs : List RawEmployee)
    (st : ImportState) (err : Option HError)
    (h : ImportRawEmployeeData fuel Heap.empty Company.fresh rs = some (st, err)) :
    err = none ∨ err = some MultipleCEOError ∨ err = some InvalidEmployeesError := by
  simp only [ImportRawEmployeeData] at h
  cases hloop : importLoop fuel rs ⟨Heap.empty, Company.fresh, []⟩ with
  | none => simp [hloop] at h
  | some r =>
    obtain ⟨st1, err1⟩ := r
    obtain ⟨herr, _⟩ := importLoop_safe fuel rs _ st1 err1 PendingWf.nil hloop
    rcases herr with herr | herr
    · subst herr
      simp only [hloop] at h
      split at h
      · simp only [Option.some.injEq, Prod.mk.injEq] at h
        exact Or.inr (Or.inr h.2.symm)
      · simp only [Option.some.injEq, Prod.mk.injEq] at h
        exact Or.inl h.2.symm
    · subst herr
      simp only [hloop, Option.some.injEq, Prod.mk.injEq] at h
      exact Or.inr (Or.inl h.2.symm)

theorem GenerateHierarchyFromCSV_returns (fuel : Nat) (rs : List RawEmployee)
    (hnd : (rs.map RawEmployee.ID).Nodup) (hfuel : rs.length ≤ fuel) :
    ∃ lines err, GenerateHierarchyFromCSV fuel rs = some (lines, err) := by
  obtain ⟨st, err, himp, _⟩ := ImportRawEmployeeData_result fuel rs hnd hfuel
  cases err with
  | some e1 => exact ⟨[], some e1, by simp [GenerateHierarchyFromCSV, himp]⟩
  | none =>
    obtain ⟨_, h2, h3⟩ := ImportRawEmployeeData_nil_valid fuel rs hnd hfuel st himp
    by_cases hc : st.company.CEO = none
    · exact ⟨[], some MissingCEOError, by
        simp [GenerateHierarchyFromCSV, himp, GenerateHierarchyTable, hc]⟩
    · obtain ⟨root, hv⟩ := h3 hc
      obtain ⟨_, lines, _, _, hrun, _⟩ := hv.run fuel hfuel
      exact ⟨lines, none, hrun⟩

/-- C11. `ImportRawEmployeeData` on a fresh company never returns
`MissingManagerError`: whenever it returns, at any budget and on any input,
its error is nil, `MultipleCEOError` or `InvalidEmployeesError`, and the error
of the pipeline is nil or one of `MultipleCEOError`, `InvalidEmployeesError`,
`MissingCEOError`. With pairwise-distinct ids and a budget of at least the
number of records both do return. -/
theorem ImportRawEmployeeData_never_MissingManagerError (fuel : Nat)
    (rs : List RawEmployee) :
    (∀ st err, ImportRawEmployeeData fuel Heap.empty Company.fresh rs = some (st, err) →
      err ≠ some MissingManagerError ∧
      (err = none ∨ err = some MultipleCEOError ∨ err = some InvalidEmployeesError)) ∧
    (∀ lines err, GenerateHierarchyFromCSV fuel rs = some (lines, err) →
      err ≠ some MissingManagerError ∧
      (err = none ∨ err = some MultipleCEOError ∨ err = some InvalidEmployeesError ∨
        err = some MissingCEOError)) ∧
    ((rs.map RawEmployee.ID).Nodup → rs.length ≤ fuel →
      (∃ st err, ImportRawEmployeeData fuel Heap.empty Company.fresh rs = some (st, err)) ∧
      ∃ lines err, GenerateHierarchyFromCSV fuel rs = some (lines, err)) := by
  refine ⟨?_, ?_, ?_⟩
  · intro st err h
    have := ImportRawEmployeeData_errors_aux fuel rs st err h
    refine ⟨?_, this⟩
    rcases this with h1 | h1 | h1 <;> simp [h1]
  · intro lines err h
    have key : err = none ∨ err = some MultipleCEOError ∨
        err = some InvalidEmployeesError ∨ err = some MissingCEOError := by
      simp only [GenerateHierarchyFromCSV] at h
      cases himp : ImportRawEmployeeData fuel Heap.empty Company.fresh rs with
      | none => simp [himp] at h
      | some r =>
        obtain ⟨st, e⟩ := r
        have h1 := ImportRawEmployeeData_errors_aux fuel rs st e himp
        cases e with
        | some e1 =>
          simp only [himp, Option.some.injEq, Prod.mk.injEq] at h
          rw [← h.2]
          rcases h1 with h1 | h1 | h1
          · simp at h1
          · exact Or.inr (Or.inl h1)
          · exact Or.inr (Or.inr (Or.inl h1))
        | none =>
          simp only [himp, GenerateHierarchyTable] at h
          cases hc : st.company.CEO with
          | none =>
            simp only [hc, Option.some.injEq, Prod.mk.injEq] at h
            exact Or.inr (Or.inr (Or.inr h.2.symm))
          | some ceo =>
            simp only [hc] at h
            cases hw : EmployeeWalk st.heap fuel ceo 0 with
            | none => simp [hw] at h
            | some out =>
              simp only [hw, Option.some.injEq, Prod.mk.injEq] at h
              exact Or.inl h.2.symm
    refine ⟨?_, key⟩
    rcases key with h1 | h1 | h1 | h1 <;> simp [h1]
  · intro hnd hfuel
    obtain ⟨st, err, himp, _⟩ := ImportRawEmployeeData_result fuel rs hnd hfuel
    exact ⟨⟨st, err, himp⟩, GenerateHierarchyFromCSV_returns fuel rs hnd hfuel⟩

/-- Witness for C11: a record pending on an absent manager ends as
`InvalidEmployeesError`. -/
theorem ImportRawEmployeeData_never_MissingManagerError_witness :
    GenerateHierarchyFromCSV 2 [⟨"jamie", "1", ""⟩, ⟨"alan", "2", "7"⟩] =
      some ([], some InvalidEmployeesError) ∧
    ∃ lines err, GenerateHierarchyFromCSV 2 [⟨"jamie", "1", ""⟩, ⟨"alan", "2", "7"⟩] =
      some (lines, err) :=
  ⟨by decide,
   ((ImportRawEmployeeData_never_MissingManagerError 2
      [⟨"jamie", "1", ""⟩, ⟨"alan", "2", "7"⟩]).2.2 (by decide) (by decide)).2⟩

theorem CheckManageeMap_same_id_loops (a : RawEmployee) (ha : a.Manager = a.ID)
    (hne : a.Manager ≠ "") :
    ∀ (fuel : Nat) (st : ImportState) (e : Employee),
      mapLookup st.manageeMap a.ID = some [a] → e.ID = a.ID →
      mapLookup st.company.Employees a.ID ≠ none →
      CheckManageeMap fuel st e = none := by
  intro fuel
  induction fuel with
  | zero => intro st e _ _ _; rfl
  | succ f ih =>
    intro st e hmm he hreg
    rw [CheckManageeMap, he, hmm]
    simp only
    rw [manageeLoop]
    rcases hadd : AddEmployee st.heap st.company a with ⟨heap1, company1, res⟩
    cases res with
    | error e1 =>
      rcases (AddEmployee_error hadd).2 with ⟨_, h1, _⟩ | ⟨_, _, h2⟩
      · exact absurd h1 hne
      · rw [ha] at h2; exact absurd h2 hreg
    | ok e2 =>
      simp only
      obtain ⟨heid, _, _, hE, _⟩ := AddEmployee_ok hadd
      rw [ih ⟨heap1, company1, st.manageeMap⟩ e2 hmm heid (by
        show mapLookup company1.Employees a.ID ≠ none
        rw [hE, mapLookup_mapStore]; simp)]

/-- C12, as stated, fails with a repeated id: `alan` has id `5` and manager
`5`, `jamie` has id `5` and no manager. Registering `jamie` drains the key `5`,
which registers `alan` under id `5` and drains the key `5` again, for ever:
the import returns at no recursion budget. -/
theorem ImportRawEmployeeData_repeated_id_diverges :
    ¬ ∃ fuel res, ImportRawEmployeeData fuel Heap.empty Company.fresh
        [⟨"alan", "5", "5"⟩, ⟨"jamie", "5", ""⟩] = some res := by
  rintro ⟨fuel, res, h⟩
  simp only [ImportRawEmployeeData] at h
  rw [importLoop_cons_missing fuel _ _ _ (by decide) (by rfl), importLoop,
    AddEmployee_root (by rfl) (by rfl)] at h
  simp only at h
  rw [CheckManageeMap_same_id_loops ⟨"alan", "5", "5"⟩ rfl (by decide) fuel _ _
    (by decide) (by rfl) (by simp [mapLookup_mapStore])] at h
  simp at h

/-- C12, amended. On every input with pairwise-distinct ids
`ImportRawEmployeeData` on a fresh company terminates: the recursion of
`CheckManageeMap` is never deeper than the number of records, so every budget
of at least that number gives the same result. -/
theorem ImportRawEmployeeData_terminates (rs : List RawEmployee)
    (hnd : (rs.map RawEmployee.ID).Nodup) :
    ∃ res, ∀ fuel, rs.length ≤ fuel →
      ImportRawEmployeeData fuel Heap.empty Company.fresh rs = some res := by
  obtain ⟨st, err, himp, _⟩ := ImportRawEmployeeData_result rs.length rs hnd (le_refl _)
  exact ⟨(st, err), fun fuel hf => ImportRawEmployeeData_mono hf _ _ rs _ himp⟩

/-- Witness for C12, amended: the reversed test rows, every record pending
until the CEO arrives. -/
theorem ImportRawEmployeeData_terminates_witness :
    ∃ res, ∀ fuel, testRowsReversed.length ≤ fuel →
      ImportRawEmployeeData fuel Heap.empty Company.fresh testRowsReversed = some res :=
  ImportRawEmployeeData_terminates testRowsReversed (by decide)

/-- C19. In every run of `ImportRawEmployeeData` on a fresh company, take the
state `st` the loop has reached after some records `p` and a next record `x`
that `AddEmployee` accepts. The pending map is well formed (each record sits
under its own, non-empty manager id), the drained employee is registered, and
the drain `CheckManageeMap` that the loop then starts equals, at every budget,
the drain that would return any error of a recursive call: no `AddEmployee`
call in it fails, and whenever it returns it returns nil. That drain is the
one of the run on every input that starts with `p` and `x`; with
pairwise-distinct ids it does return nil. -/
theorem drain_calls_succeed (fuel : Nat) (p : List RawEmployee) (x : RawEmployee)
    (st : ImportState) (heap1 : Heap) (company1 : Company) (e : Employee)
    (hrun : importLoop fuel p ⟨Heap.empty, Company.fresh, []⟩ = some (st, none))
    (hadd : AddEmployee st.heap st.company x = (heap1, company1, Except.ok e)) :
    PendingWf st.manageeMap ∧ mapLookup company1.Employees e.ID ≠ none ∧
    (∀ f, CheckManageeMap f ⟨heap1, company1, st.manageeMap⟩ e =
        CheckManageeMapStrict f ⟨heap1, company1, st.manageeMap⟩ e ∧
      ∀ st1 err, CheckManageeMap f ⟨heap1, company1, st.manageeMap⟩ e = some (st1, err) →
        err = none) ∧
    (∀ rest, importLoop fuel (p ++ x :: rest) ⟨Heap.empty, Company.fresh, []⟩ =
      match CheckManageeMap fuel ⟨heap1, company1, st.manageeMap⟩ e with
      | none => none
      | some (st2, some err) => some (st2, some err)
      | some (st2, none) => importLoop fuel rest st2) ∧
    (((p ++ [x]).map RawEmployee.ID).Nodup → (p ++ [x]).length ≤ fuel →
      ∃ st1, CheckManageeMap fuel ⟨heap1, company1, st.manageeMap⟩ e = some (st1, none)) := by
  have hwf : PendingWf st.manageeMap :=
    (importLoop_safe fuel p _ st none PendingWf.nil hrun).2
  obtain ⟨heid, _, _, hE, hok⟩ := AddEmployee_ok hadd
  have hereg : mapLookup company1.Employees e.ID ≠ none := by
    rw [hE, mapLookup_mapStore, heid]
    simp
  refine ⟨hwf, hereg, ?_, ?_, ?_⟩
  · intro f
    obtain ⟨heq, hres⟩ := CheckManageeMap_safe f ⟨heap1, company1, st.manageeMap⟩ e hwf hereg
    exact ⟨heq, fun st1 err h => (hres st1 err h).1⟩
  · intro rest
    rw [importLoop_append, hrun]
    simp only
    rw [importLoop, hadd]
  · intro hnd hlen
    have hsub : p.Sublist (p ++ [x]) := List.sublist_append_left p [x]
    obtain ⟨st1, err1, hrun1, hres1⟩ :=
      importLoop_inv fuel p [] ⟨Heap.empty, Company.fresh, []⟩ Inv.fresh
        (by simpa using hnd.sublist (hsub.map _))
        (by
          have := hsub.length_le
          simp only [List.nil_append]
          omega)
    rw [hrun] at hrun1
    simp only [Option.some.injEq, Prod.mk.injEq] at hrun1
    obtain ⟨h1, h2⟩ := hrun1
    subst h1; subst h2
    simp only [List.nil_append] at hres1
    rcases hres1 with ⟨_, hinv⟩ | ⟨herr, _⟩
    · have hx : x.ID ∉ p.map RawEmployee.ID := by
        rw [List.map_append, List.nodup_append] at hnd
        intro hmem
        exact hnd.2.2 hmem (by simp)
      have hplen : p.length < fuel := by
        simp only [List.length_append, List.length_singleton] at hlen
        omega
      obtain ⟨heap2, company2, e2, st2, hadd2, hcheck, _⟩ := hinv.register hx hok hplen
      rw [hadd] at hadd2
      simp only [Prod.mk.injEq, Except.ok.injEq] at hadd2
      obtain ⟨h3, h4, h5⟩ := hadd2
      subst h3; subst h4; subst h5
      exact ⟨st2, hcheck⟩
    · simp at herr

/-- Witness for C19: the CEO arrives after two records pending on it. -/
theorem drain_calls_succeed_witness :
    ∃ st1, CheckManageeMap 3
      ⟨(Heap.empty.alloc.1.alloc.1).alloc.1,
        ⟨mapStore [] "1" (Employee.mk "jamie" "1" none 2),
          some (Employee.mk "jamie" "1" none 2)⟩,
        mapStore (mapStore [] "1" [⟨"alan", "2", "1"⟩]) "1"
          [⟨"alan", "2", "1"⟩, ⟨"steve", "5", "1"⟩]⟩
      (Employee.mk "jamie" "1" none 2) = some (st1, none) :=
  (drain_calls_succeed 3 [⟨"alan", "2", "1"⟩, ⟨"steve", "5", "1"⟩] ⟨"jamie", "1", ""⟩
    ⟨Heap.empty.alloc.1.alloc.1, Company.fresh,
      mapStore (mapStore [] "1" [⟨"alan", "2", "1"⟩]) "1"
        [⟨"alan", "2", "1"⟩, ⟨"steve", "5", "1"⟩]⟩
    _ _ _ rfl rfl).2.2.2.2 (by decide) (by decide)

/-- C20. Success implies validity: on an input with pairwise-distinct ids, if
the pipeline returns without error, at any budget, then the input holds exactly
one record with an empty manager id, every record's manager chain reaches it,
and every record is registered in `Employees` at the return of the import. -/
theorem success_implies_valid (fuel : Nat) (rs : List RawEmployee) (lines : List String)
    (hnd : (rs.map RawEmployee.ID).Nodup)
    (h : GenerateHierarchyFromCSV fuel rs = some (lines, none)) :
    ∃ root st, ValidInput rs root ∧
      ImportRawEmployeeData fuel Heap.empty Company.fresh rs = some (st, none) ∧
      (∀ r ∈ rs, mapLookup st.company.Employees r.ID ≠ none) ∧
      lines.length = rs.length := by
  have hst : ∃ st, ImportRawEmployeeData fuel Heap.empty Company.fresh rs = some (st, none) ∧
      st.company.CEO ≠ none := by
    simp only [GenerateHierarchyFromCSV] at h
    cases himp : ImportRawEmployeeData fuel Heap.empty Company.fresh rs with
    | none => simp [himp] at h
    | some r =>
      obtain ⟨st, e⟩ := r
      cases e with
      | some e1 => simp [himp] at h
      | none =>
        refine ⟨st, rfl, ?_⟩
        intro hc
        simp [himp, GenerateHierarchyTable, hc] at h
  obtain ⟨st, himp, hceo⟩ := hst
  have hf : fuel ≤ max fuel rs.length := le_max_left _ _
  have hn : rs.length ≤ max fuel rs.length := le_max_right _ _
  have himp1 := ImportRawEmployeeData_mono hf _ _ rs _ himp
  obtain ⟨hall, _, hvalid⟩ :=
    ImportRawEmployeeData_nil_valid (max fuel rs.length) rs hnd hn st himp1
  obtain ⟨root, hv⟩ := hvalid hceo
  refine ⟨root, st, hv, himp, hall, ?_⟩
  obtain ⟨_, lines1, _, _, hrun1, hpre1⟩ := hv.run (max fuel rs.length) hn
  obtain ⟨lines2, hpre2, hperm⟩ := hv.preorder_perm (max fuel rs.length) hn
  obtain ⟨dep, hdep⟩ := hv.exists_depth
  have h1 := GenerateHierarchyFromCSV_mono hf rs _ h
  rw [h1] at hrun1
  rw [hpre1] at hpre2
  cases hrun1
  cases hpre2
  rw [(hperm dep hdep).length_eq, List.length_map]

/-- Witness for C20: the rows of `TestHierarchyGeneration`. -/
theorem success_implies_valid_witness :
    ∃ root st, ValidInput testRows root ∧
      ImportRawEmployeeData 6 Heap.empty Company.fresh testRows = some (st, none) ∧
      (∀ r ∈ testRows, mapLookup st.company.Employees r.ID ≠ none) ∧
      ["jamie", "\talan", "\t\tmartin", "\t\talex", "\tsteve", "\t\tdavid"].length =
        testRows.length :=
  success_implies_valid 6 testRows
    ["jamie", "\talan", "\t\tmartin", "\t\talex", "\tsteve", "\t\tdavid"]
    (by decide) (by decide)

/-! ## `EmployeeWalk` on an employee tree -/

theorem walkLoop_eq_listEach (walk : Employee → Nat → Option (List String)) (d : Nat) :
    ∀ (l : List Employee) (output : List String),
      walkLoop walk d l output =
        (listEach (fun c => walk c d) l).map (fun rows => output ++ rows) := by
  intro l
  induction l with
  | nil => intro output; simp [walkLoop, listEach]
  | cons c l ih =>
    intro output
    simp only [walkLoop, listEach]
    cases hw : walk c d with
    | none => simp
    | some rows =>
      simp only [ih]
      cases hl : listEach (fun c => walk c d) l with
      | none => simp
      | some more => simp

/-- `EmployeeWalk` unfolds to the row of the employee followed by the walks of
its managees, one level deeper, in stored order. -/
theorem EmployeeWalk_succ (heap : Heap) (fuel : Nat) (e : Employee) (d : Nat) :
    EmployeeWalk heap (fuel + 1) e d =
      (listEach (fun c => EmployeeWalk heap fuel c (d + 1)) (heap.read e.Managees)).map
        (fun rest => GenerateTabularRow e.Name d :: rest) := by
  rw [EmployeeWalk, walkLoop_eq_listEach]
  cases listEach (fun c => EmployeeWalk heap fuel c (d + 1)) (heap.read e.Managees) with
  | none => rfl
  | some rest => rfl

/-- The lines of `EmployeeWalk` are the rows of the nodes of the subtree, a
node `k` edges below the employee at depth `d + k`. -/
theorem EmployeeWalk_eq_subtree (heap : Heap) (d : Nat) :
    ∀ (fuel : Nat) (e : Employee) (k : Nat),
      EmployeeWalk heap fuel e (d + k) =
        (subtree heap fuel e k).map
          (List.map (fun n => GenerateTabularRow n.1.Name (d + n.2))) := by
  intro fuel
  induction fuel with
  | zero => intro e k; rfl
  | succ f ih =>
    intro e k
    rw [EmployeeWalk_succ, subtree]
    have : (fun c => EmployeeWalk heap f c (d + k + 1)) =
        (fun c => (subtree heap f c (k + 1)).map
          (List.map (fun n => GenerateTabularRow n.1.Name (d + n.2)))) := by
      funext c
      exact ih c (k + 1)
    rw [this, listEach_map]
    cases listEach (fun c => subtree heap f c (k + 1)) (heap.read e.Managees) with
    | none => rfl
    | some nodes => rfl

theorem Reach.shift_mem (heap : Heap) :
    ∀ (fuel : Nat) (e : Employee) (k0 : Nat) (nodes : List (Employee × Nat)),
      subtree heap fuel e k0 = some nodes →
      ∀ x k, (x, k) ∈ nodes ↔ ∃ j, k = k0 + j ∧ Reach heap e x j := by
  intro fuel
  induction fuel with
  | zero => intro e k0 nodes h; simp [subtree] at h
  | succ f ih =>
    intro e k0 nodes h x k
    rw [subtree] at h
    cases hl : listEach (fun c => subtree heap f c (k0 + 1)) (heap.read e.Managees) with
    | none => simp [hl] at h
    | some rows =>
      simp only [hl, Option.some.injEq] at h
      subst h
      rw [List.mem_cons, listEach_mem _ _ _ hl]
      constructor
      · rintro (heq | ⟨c, hc, nc, hnc, hx⟩)
        · simp only [Prod.mk.injEq] at heq
          obtain ⟨h1, h2⟩ := heq
          subst h1; subst h2
          exact ⟨0, rfl, Reach.here _⟩
        · obtain ⟨j, hj, hr⟩ := (ih c (k0 + 1) nc hnc x k).1 hx
          exact ⟨j + 1, by omega, Reach.down hc hr⟩
      · rintro ⟨j, hj, hr⟩
        cases hr with
        | here => exact Or.inl (by simp [hj])
        | @down _ c _ j1 hc hr1 =>
          obtain ⟨nc, hnc⟩ := listEach_some_inv _ _ _ hl c hc
          exact Or.inr ⟨c, hc, nc, hnc, (ih c (k0 + 1) nc hnc x k).2 ⟨j1, by omega, hr1⟩⟩

theorem subtree_some_of_ordered (heap : Heap) (ho : HeapOrdered heap) :
    ∀ (fuel : Nat) (e : Employee) (k : Nat),
      e.Managees < heap.next → heap.next - e.Managees ≤ fuel →
      ∃ nodes, subtree heap fuel e k = some nodes := by
  intro fuel
  induction fuel with
  | zero => intro e k h1 h2; omega
  | succ fuel ih =>
    intro e k h1 h2
    obtain ⟨nodes, hnodes⟩ := listEach_some (fun c => subtree heap fuel c (k + 1))
      (heap.read e.Managees) (by
        intro c hc
        obtain ⟨h3, h4⟩ := ho _ _ hc
        exact ih c (k + 1) h4 (by omega))
    exact ⟨(e, k) :: nodes, by rw [subtree, hnodes]⟩

/-- Every employee reachable from `e` has its row among the lines of
`EmployeeWalk`, with one tab more per managee-edge. -/
theorem EmployeeWalk_mem_of_Reach (heap : Heap) (fuel : Nat) (e : Employee) (d : Nat)
    (lines : List String) (h : EmployeeWalk heap fuel e d = some lines)
    {x : Employee} {k : Nat} (hr : Reach heap e x k) :
    GenerateTabularRow x.Name (d + k) ∈ lines := by
  have h1 := EmployeeWalk_eq_subtree heap d fuel e 0
  rw [Nat.add_zero, h] at h1
  cases hs : subtree heap fuel e 0 with
  | none => simp [hs] at h1
  | some nodes =>
    simp only [hs, Option.map_some', Option.some.injEq] at h1
    rw [h1]
    have := (Reach.shift_mem heap fuel e 0 nodes hs x k).2 ⟨k, by omega, hr⟩
    exact List.mem_map.2 ⟨(x, k), this, rfl⟩

theorem stringsRepeat_tab_data (n : Nat) :
    (stringsRepeat "\t" n).data = List.replicate n '\t' := by
  induction n with
  | zero => rfl
  | succ n ih =>
    rw [stringsRepeat, String.data_append, ih, List.replicate_succ]
    rfl

/-- `GenerateTabularRow name depth` is `depth` tab characters followed by the
name. -/
theorem GenerateTabularRow_data (name : String) (depth : Nat) :
    (GenerateTabularRow name depth).data = List.replicate depth '\t' ++ name.data := by
  rw [GenerateTabularRow, String.data_append, stringsRepeat_tab_data]

/-- C16. On an employee tree (an employee whose slice is allocated, in a heap
whose managee slices form a forest) `EmployeeWalk(e, d)` returns, once the
budget covers the allocated slices, one line per node of the subtree of `e`:
the row of a node `k` managee-edges below `e` is `GenerateTabularRow` of its
name at depth `d + k`. The first line is `GenerateTabularRow(e.Name, d)`, which
is `d` tab characters followed by the name, and the rest is the concatenation
of `EmployeeWalk(c, d + 1)` for the managees `c` of `e` in stored order. -/
theorem EmployeeWalk_lists_subtree (heap : Heap) (e : Employee) (fuel d : Nat)
    (ho : HeapOrdered heap) (he : e.Managees < heap.next) (hf : heap.next ≤ fuel) :
    ∃ lines nodes rest,
      EmployeeWalk heap (fuel + 1) e d = some lines ∧
      subtree heap (fuel + 1) e 0 = some nodes ∧
      (∀ x k, (x, k) ∈ nodes ↔ Reach heap e x k) ∧
      lines.length = nodes.length ∧
      lines = nodes.map (fun n => GenerateTabularRow n.1.Name (d + n.2)) ∧
      listEach (fun c => EmployeeWalk heap fuel c (d + 1)) (heap.read e.Managees) =
        some rest ∧
      lines = GenerateTabularRow e.Name d :: rest ∧
      (GenerateTabularRow e.Name d).data = List.replicate d '\t' ++ e.Name.data := by
  obtain ⟨nodes, hnodes⟩ := subtree_some_of_ordered heap ho (fuel + 1) e 0 he (by omega)
  obtain ⟨rest, hrest⟩ := listEach_some (fun c => EmployeeWalk heap fuel c (d + 1))
    (heap.read e.Managees) (by
      intro c hc
      obtain ⟨h3, h4⟩ := ho _ _ hc
      exact EmployeeWalk_some_of_ordered heap ho fuel c (d + 1) h4 (by omega))
  have hw : EmployeeWalk heap (fuel + 1) e d =
      some (nodes.map (fun n => GenerateTabularRow n.1.Name (d + n.2))) := by
    have := EmployeeWalk_eq_subtree heap d (fuel + 1) e 0
    rw [hnodes] at this
    exact this
  refine ⟨nodes.map (fun n => GenerateTabularRow n.1.Name (d + n.2)), nodes, rest, hw,
    hnodes, ?_, by simp, rfl, hrest, ?_, GenerateTabularRow_data _ _⟩
  · intro x k
    rw [Reach.shift_mem heap (fuel + 1) e 0 nodes hnodes x k]
    constructor
    · rintro ⟨j, hj, hr⟩
      have : k = j := by omega
      subst this
      exact hr
    · intro hr
      exact ⟨k, by omega, hr⟩
  · have h2 := EmployeeWalk_succ heap fuel e d
    rw [hw, hrest] at h2
    simpa using h2

/-- Witness for C16: `jamie` with the single managee `alan`, walked at depth 3. -/
theorem EmployeeWalk_lists_subtree_witness :
    ∃ lines nodes rest,
      EmployeeWalk ⟨fun a => if a = 0 then [Employee.mk "alan" "2" none 1] else [], 2⟩ 3
        (Employee.mk "jamie" "1" none 0) 3 = some lines ∧
      subtree ⟨fun a => if a = 0 then [Employee.mk "alan" "2" none 1] else [], 2⟩ 3
        (Employee.mk "jamie" "1" none 0) 0 = some nodes ∧
      (∀ x k, (x, k) ∈ nodes ↔
        Reach ⟨fun a => if a = 0 then [Employee.mk "alan" "2" none 1] else [], 2⟩
          (Employee.mk "jamie" "1" none 0) x k) ∧
      lines.length = nodes.length ∧
      lines = nodes.map (fun n => GenerateTabularRow n.1.Name (3 + n.2)) ∧
      listEach (fun c =>
          EmployeeWalk ⟨fun a => if a = 0 then [Employee.mk "alan" "2" none 1] else [], 2⟩ 2
            c (3 + 1))
        ((⟨fun a => if a = 0 then [Employee.mk "alan" "2" none 1] else [], 2⟩ : Heap).read
          (Employee.mk "jamie" "1" none 0).Managees) = some rest ∧
      lines = GenerateTabularRow (Employee.mk "jamie" "1" none 0).Name 3 :: rest ∧
      (GenerateTabularRow (Employee.mk "jamie" "1" none 0).Name 3).data =
        List.replicate 3 '\t' ++ (Employee.mk "jamie" "1" none 0).Name.data :=
  EmployeeWalk_lists_subtree
    ⟨fun a => if a = 0 then [Employee.mk "alan" "2" none 1] else [], 2⟩
    (Employee.mk "jamie" "1" none 0) 2 3
    (by
      intro a e h
      by_cases ha : a = 0
      · subst ha
        simp only [↓reduceIte, List.mem_singleton] at h
        subst h
        simp [Employee.Managees]
      · simp [ha] at h)
    (by simp [Employee.Managees]) (by simp)

/-! ## `AddEmployee` on a company state -/

theorem Reach.mono_heap {heap heap1 : Heap}
    (hsub : ∀ a c, c ∈ heap.read a → c ∈ heap1.read a) {e x : Employee} {k : Nat}
    (h : Reach heap e x k) : Reach heap1 e x k := by
  induction h with
  | here e => exact Reach.here e
  | down hc _ ih => exact Reach.down (hsub _ _ hc) ih

theorem Reach.snoc_managee {heap : Heap} {e m x : Employee} {k : Nat} (h : Reach heap e m k)
    (hx : x ∈ heap.read m.Managees) : Reach heap e x (k + 1) := by
  induction h with
  | here e => exact Reach.down hx (Reach.here x)
  | down hc _ ih => exact Reach.down hc (ih hx)

theorem Reach.same_slice {heap : Heap} {e m x : Employee} {k : Nat} {a : Nat}
    (h : Reach heap e m k) (hm : m.Managees = a) (hx : x ∈ heap.read a) :
    Reach heap e x (k + 1) := by
  subst hm
  exact h.snoc_managee hx

theorem alloc_read (heap : Heap) (a : Nat) (ha : a < heap.next) :
    (heap.alloc.1).read a = heap.read a := by
  have : a ≠ heap.next := by omega
  simp [Heap.alloc, Heap.read, Function.update_noteq this]

theorem HeapOrdered.unallocated {heap : Heap} (ho : HeapOrdered heap) {a : Nat}
    (ha : heap.next ≤ a) : heap.cells a = [] := by
  rw [List.eq_nil_iff_forall_not_mem]
  intro e he
  obtain ⟨h1, h2⟩ := ho a e he
  omega

theorem alloc_cells_of_ordered {heap : Heap} (ho : HeapOrdered heap) :
    (heap.alloc.1).cells = heap.cells := by
  funext a
  simp only [Heap.alloc, Function.update_apply]
  by_cases ha : a = heap.next
  · rw [if_pos ha, ho.unallocated (by omega)]
  · rw [if_neg ha]

/-- C13. For every company state and every record with an empty manager id:
if the CEO is set, `AddEmployee` fails with `MultipleCEOError` and leaves the
company as it was; otherwise it succeeds and returns an employee with the
record's name and id, no manager and an empty managee list, which is the new
CEO and is registered in `Employees` under its id, the other entries and the
allocated managee lists being unchanged. -/
theorem AddEmployee_empty_manager (heap : Heap) (company : Company) (raw : RawEmployee)
    (hm : raw.Manager = "") :
    (company.CEO ≠ none →
      ∃ heap1, AddEmployee heap company raw =
        (heap1, company, Except.error MultipleCEOError)) ∧
    (company.CEO = none →
      ∃ heap1 company1 e,
        AddEmployee heap company raw = (heap1, company1, Except.ok e) ∧
        e.Name = raw.Name ∧ e.ID = raw.ID ∧ e.Manager = none ∧
        heap1.read e.Managees = [] ∧
        company1.CEO = some e ∧
        mapLookup company1.Employees raw.ID = some e ∧
        (∀ id, id ≠ raw.ID →
          mapLookup company1.Employees id = mapLookup company.Employees id) ∧
        ∀ a, a < heap.next → heap1.read a = heap.read a) := by
  constructor
  · intro hc
    exact ⟨_, AddEmployee_second_root hm hc⟩
  · intro hc
    refine ⟨_, _, _, AddEmployee_root hm hc, rfl, rfl, rfl, ?_, rfl, ?_, ?_, ?_⟩
    · simp [Heap.alloc, Heap.read, Employee.Managees]
    · simp [mapLookup_mapStore]
    · intro id hid
      simp [mapLookup_mapStore, hid]
    · intro a ha
      exact alloc_read heap a ha

/-- Witness for C13: the first record of the test rows on a fresh company. -/
theorem AddEmployee_empty_manager_witness :
    ∃ heap1 company1 e,
      AddEmployee Heap.empty Company.fresh ⟨"jamie", "1", ""⟩ =
        (heap1, company1, Except.ok e) ∧
      e.Name = "jamie" ∧ e.ID = "1" ∧ e.Manager = none ∧
      heap1.read e.Managees = [] ∧
      company1.CEO = some e ∧
      mapLookup company1.Employees "1" = some e ∧
      (∀ id, id ≠ "1" →
        mapLookup company1.Employees id = mapLookup Company.fresh.Employees id) ∧
      ∀ a, a < Heap.empty.next → heap1.read a = Heap.empty.read a :=
  (AddEmployee_empty_manager Heap.empty Company.fresh ⟨"jamie", "1", ""⟩ rfl).2 rfl

theorem AddEmployee_found_heap {heap : Heap} {manager e : Employee}
    (hm : manager.Managees < heap.next) :
    (∀ a, ((heap.alloc.1).write manager.Managees
        ((heap.alloc.1).read manager.Managees ++ [e])).read a =
      if a = manager.Managees then heap.read manager.Managees ++ [e]
      else if a = heap.next then [] else heap.read a) := by
  intro a
  have hne : manager.Managees ≠ heap.next := by omega
  simp only [Heap.write, Heap.alloc, Heap.read, Function.update_apply, hne, ↓reduceIte]

theorem AddEmployee_found_aux (heap : Heap) (company : Company) (raw : RawEmployee)
    (manager : Employee) (hm : raw.Manager ≠ "")
    (hl : mapLookup company.Employees raw.Manager = some manager)
    (halloc : manager.Managees < heap.next) :
    ∃ heap1 company1 e,
      AddEmployee heap company raw = (heap1, company1, Except.ok e) ∧
      e.Name = raw.Name ∧ e.ID = raw.ID ∧ e.Manager = some manager ∧
      e.Managees = heap.next ∧
      heap1.read e.Managees = [] ∧
      heap1.read manager.Managees = heap.read manager.Managees ++ [e] ∧
      (∀ a, a < heap.next → a ≠ manager.Managees → heap1.read a = heap.read a) ∧
      company1.Employees = mapStore company.Employees raw.ID e ∧
      company1.CEO = company.CEO ∧
      (HeapOrdered heap → ∀ a c, c ∈ heap.read a → c ∈ heap1.read a) := by
  have hcell := @AddEmployee_found_heap heap manager
    (Employee.mk raw.Name raw.ID (some manager) heap.next) halloc
  have hne : heap.next ≠ manager.Managees := by omega
  refine ⟨_, _, _, AddEmployee_found hm hl, rfl, rfl, rfl, rfl, ?_, ?_, ?_, rfl, rfl, ?_⟩
  · rw [hcell]
    simp [Employee.Managees_mk, hne]
  · rw [hcell]
    simp
  · intro a ha hma
    rw [hcell]
    have : a ≠ heap.next := by omega
    simp [hma, this]
  · intro ho a c hc
    rw [hcell]
    by_cases h1 : a = manager.Managees
    · subst h1
      simp only [↓reduceIte]
      exact List.mem_append_left _ hc
    · by_cases h2 : a = heap.next
      · subst h2
        have := ho.unallocated (le_refl heap.next)
        simp only [Heap.read] at hc
        rw [this] at hc
        simp at hc
      · simpa [h1, h2] using hc

/-- C14. For every company state and every record with a non-empty manager id
`m`: if `m` is not a key of `Employees`, `AddEmployee` fails with
`MissingManagerError` and leaves the company as it was. If `m` is the key of
`manager`, whose managee slice is allocated, `AddEmployee` succeeds: the new
employee has the record's name and id, the manager `manager` and an empty
managee list; it is the new last element of the manager's managee list, whose
earlier elements are unchanged, as are the other allocated lists; it is
registered under its id, and the CEO is unchanged. In a heap whose slices form
a forest, the new employee is then reachable from the CEO through every
employee that shares the manager's slice (the CEO itself for `k = 0`), and
rendered one level below it. -/
theorem AddEmployee_with_manager (heap : Heap) (company : Company) (raw : RawEmployee)
    (hm : raw.Manager ≠ "") :
    (mapLookup company.Employees raw.Manager = none →
      ∃ heap1, AddEmployee heap company raw =
        (heap1, company, Except.error MissingManagerError)) ∧
    (∀ manager, mapLookup company.Employees raw.Manager = some manager →
      manager.Managees < heap.next →
      ∃ heap1 company1 e,
        AddEmployee heap company raw = (heap1, company1, Except.ok e) ∧
        e.Name = raw.Name ∧ e.ID = raw.ID ∧ e.Manager = some manager ∧
        heap1.read e.Managees = [] ∧
        heap1.read manager.Managees = heap.read manager.Managees ++ [e] ∧
        (∀ a, a < heap.next → a ≠ manager.Managees → heap1.read a = heap.read a) ∧
        mapLookup company1.Employees raw.ID = some e ∧
        (∀ id, id ≠ raw.ID →
          mapLookup company1.Employees id = mapLookup company.Employees id) ∧
        company1.CEO = company.CEO ∧
        (HeapOrdered heap → ∀ ceo, company1.CEO = some ceo →
          ∀ mc k, Reach heap ceo mc k → mc.Managees = manager.Managees →
            Reach heap1 ceo e (k + 1) ∧
            ∀ fuel lines, EmployeeWalk heap1 fuel ceo 0 = some lines →
              GenerateTabularRow raw.Name (k + 1) ∈ lines)) := by
  constructor
  · intro hl
    exact ⟨_, AddEmployee_missing hm hl⟩
  · intro manager hl halloc
    obtain ⟨heap1, company1, e, hadd, h1, h2, h3, _, h5, h6, h7, h8, h9, h10⟩ :=
      AddEmployee_found_aux heap company raw manager hm hl halloc
    refine ⟨heap1, company1, e, hadd, h1, h2, h3, h5, h6, h7, ?_, ?_, h9, ?_⟩
    · rw [h8]
      simp [mapLookup_mapStore]
    · intro id hid
      rw [h8]
      simp [mapLookup_mapStore, hid]
    · intro ho ceo _ mc k hr hmc
      have hr1 : Reach heap1 ceo e (k + 1) :=
        (hr.mono_heap (h10 ho)).same_slice hmc (by rw [h6]; simp)
      refine ⟨hr1, ?_⟩
      intro fuel lines hw
      have := EmployeeWalk_mem_of_Reach heap1 fuel ceo 0 lines hw hr1
      rw [h1, Nat.zero_add] at this
      exact this

/-- Witness for C14: `alan` is added below the CEO `jamie`. -/
theorem AddEmployee_with_manager_witness :
    ∃ heap1 company1 e,
      AddEmployee ⟨fun _ => [], 1⟩
          ⟨[("1", Employee.mk "jamie" "1" none 0)], some (Employee.mk "jamie" "1" none 0)⟩
          ⟨"alan", "2", "1"⟩ = (heap1, company1, Except.ok e) ∧
      e.Name = "alan" ∧ e.Manager = some (Employee.mk "jamie" "1" none 0) ∧
      heap1.read 0 = [e] ∧ company1.CEO = some (Employee.mk "jamie" "1" none 0) := by
  obtain ⟨heap1, company1, e, hadd, h1, _, h3, _, h6, _, _, _, h9, _⟩ :=
    (AddEmployee_with_manager ⟨fun _ => [], 1⟩
      ⟨[("1", Employee.mk "jamie" "1" none 0)], some (Employee.mk "jamie" "1" none 0)⟩
      ⟨"alan", "2", "1"⟩ (by decide)).2 (Employee.mk "jamie" "1" none 0) rfl
      (by simp [Employee.Managees])
  exact ⟨heap1, company1, e, hadd, h1, h3,
    by simpa [Heap.read, Employee.Managees] using h6, h9⟩

/-- C18. `AddEmployee` is atomic on failure: when it returns an error, the
error is `MultipleCEOError` or `MissingManagerError`, the company (the
`Employees` map and the CEO) is as before the call, and so is every allocated
managee list; in a heap whose slices form a forest, so is the whole heap. -/
theorem AddEmployee_failure_atomic (heap heap1 : Heap) (company company1 : Company)
    (raw : RawEmployee) (err : HError)
    (h : AddEmployee heap company raw = (heap1, company1, Except.error err)) :
    (err = MultipleCEOError ∨ err = MissingManagerError) ∧
    company1 = company ∧ company1.Employees = company.Employees ∧
    company1.CEO = company.CEO ∧
    (∀ a, a < heap.next → heap1.read a = heap.read a) ∧
    (HeapOrdered heap → heap1.cells = heap.cells) := by
  obtain ⟨hco, hcase⟩ := AddEmployee_error h
  have hheap : heap1 = heap.alloc.1 := by
    rcases AddEmployee_cases heap company raw with
      ⟨_, _, h3⟩ | ⟨_, _, h3⟩ | ⟨_, _, h3⟩ | ⟨m, _, _, h3⟩
    · rw [h3] at h; simp at h
    · rw [h3] at h
      simp only [Prod.mk.injEq] at h
      exact h.1.symm
    · rw [h3] at h
      simp only [Prod.mk.injEq] at h
      exact h.1.symm
    · rw [h3] at h; simp at h
  subst hco
  subst hheap
  refine ⟨?_, rfl, rfl, rfl, fun a ha => alloc_read heap a ha,
    fun ho => alloc_cells_of_ordered ho⟩
  rcases hcase with ⟨he, _⟩ | ⟨he, _⟩
  · exact Or.inl he
  · exact Or.inr he

/-- Witness for C18: a record with an absent manager on a company with a CEO. -/
theorem AddEmployee_failure_atomic_witness :
    (MissingManagerError = MultipleCEOError ∨ MissingManagerError = MissingManagerError) ∧
    (⟨[("1", Employee.mk "jamie" "1" none 0)], some (Employee.mk "jamie" "1" none 0)⟩ :
      Company) =
      ⟨[("1", Employee.mk "jamie" "1" none 0)], some (Employee.mk "jamie" "1" none 0)⟩ ∧
    ∀ a, a < 1 → ((⟨fun _ => [], 1⟩ : Heap).alloc.1).read a = (⟨fun _ => [], 1⟩ : Heap).read a :=
  have h := AddEmployee_failure_atomic ⟨fun _ => [], 1⟩ ((⟨fun _ => [], 1⟩ : Heap).alloc.1)
    ⟨[("1", Employee.mk "jamie" "1" none 0)], some (Employee.mk "jamie" "1" none 0)⟩
    ⟨[("1", Employee.mk "jamie" "1" none 0)], some (Employee.mk "jamie" "1" none 0)⟩
    ⟨"alan", "2", "7"⟩ MissingManagerError (@AddEmployee_missing ⟨fun _ => [], 1⟩
      ⟨[("1", Employee.mk "jamie" "1" none 0)], some (Employee.mk "jamie" "1" none 0)⟩
      ⟨"alan", "2", "7"⟩ (by decide) rfl)
  ⟨h.1, h.2.1, h.2.2.2.2.1⟩

theorem AddEmployee_next (heap : Heap) (company : Company) (raw : RawEmployee) :
    (AddEmployee heap company raw).1.next = heap.next + 1 := by
  rcases AddEmployee_cases heap company raw with
    ⟨_, _, h3⟩ | ⟨_, _, h3⟩ | ⟨_, _, h3⟩ | ⟨m, _, _, h3⟩ <;>
  · rw [h3]
    simp [Heap.alloc, Heap.write]

/-- An empty manager id means no manager, also when the empty string is a key
of `Employees`: in the company built from `("jamie","1","")` and
`("alan","","1")` the record `("steve","1","")` is a second CEO record, and
`AddEmployee` returns `MultipleCEOError`. -/
theorem AddEmployee_repeated_id_empty_manager_fails :
    ∃ st, ImportRawEmployeeData 2 Heap.empty Company.fresh
        [⟨"jamie", "1", ""⟩, ⟨"alan", "", "1"⟩] = some (st, none) ∧
      (mapLookup st.company.Employees "1").isSome = true ∧
      (mapLookup st.company.Employees "").isSome = true ∧
      errorOf (AddEmployee st.heap st.company ⟨"steve", "1", ""⟩).2.2 =
        some MultipleCEOError :=
  ⟨_, rfl, by decide, by decide, by decide⟩

/-- C17. `AddEmployee` does not check for duplicate ids. In a company state
whose heap is a forest and whose registered employees have allocated slices:
for every record whose id is the key of `old` and whose manager id (non-empty,
an empty one meaning no manager) is the key of `manager`, `AddEmployee`
succeeds; the entry of the id is now
the new employee, the key set and the other entries are unchanged, every
managee list keeps its elements (so `old` stays in its manager's list) and the
new employee, which differs from `old`, is appended to the list of `manager`.
When `old` and `manager` are reachable from an allocated employee `ceo`, the
walk from `ceo` returns with the rows of both `old` and the new employee. -/
theorem AddEmployee_repeated_id (heap : Heap) (company : Company) (raw : RawEmployee)
    (old manager : Employee) (hm : raw.Manager ≠ "")
    (hold : mapLookup company.Employees raw.ID = some old)
    (hl : mapLookup company.Employees raw.Manager = some manager)
    (ho : HeapOrdered heap)
    (hreg : ∀ id e, mapLookup company.Employees id = some e → e.Managees < heap.next) :
    ∃ heap1 company1 e,
      AddEmployee heap company raw = (heap1, company1, Except.ok e) ∧
      e.Name = raw.Name ∧ e.ID = raw.ID ∧ e.Manager = some manager ∧ e ≠ old ∧
      mapLookup company1.Employees raw.ID = some e ∧
      (∀ id, mapLookup company1.Employees id ≠ none ↔
        mapLookup company.Employees id ≠ none) ∧
      (∀ id, id ≠ raw.ID →
        mapLookup company1.Employees id = mapLookup company.Employees id) ∧
      company1.CEO = company.CEO ∧
      (∀ a c, c ∈ heap.read a → c ∈ heap1.read a) ∧
      heap1.read manager.Managees = heap.read manager.Managees ++ [e] ∧
      (∀ ceo mc k j, ceo.Managees < heap.next → Reach heap ceo mc k →
        mc.Managees = manager.Managees → Reach heap ceo old j →
        ∀ fuel, heap.next + 1 ≤ fuel →
          ∃ lines nodes, EmployeeWalk heap1 fuel ceo 0 = some lines ∧
            subtree heap1 fuel ceo 0 = some nodes ∧
            lines = nodes.map (fun n => GenerateTabularRow n.1.Name n.2) ∧
            (old, j) ∈ nodes ∧ (e, k + 1) ∈ nodes) := by
  obtain ⟨heap1, company1, e, hadd, h1, h2, h3, h4, _, h6, _, h8, h9, h10⟩ :=
    AddEmployee_found_aux heap company raw manager hm hl (hreg _ _ hl)
  have hsub := h10 ho
  refine ⟨heap1, company1, e, hadd, h1, h2, h3, ?_, ?_, ?_, ?_, h9, hsub, h6, ?_⟩
  · intro heq
    have := hreg _ _ hold
    rw [← heq, h4] at this
    omega
  · rw [h8]
    simp [mapLookup_mapStore]
  · intro id
    rw [h8, mapLookup_mapStore]
    by_cases hid : id = raw.ID
    · subst hid
      simp [hold]
    · simp [hid]
  · intro id hid
    rw [h8]
    simp [mapLookup_mapStore, hid]
  · intro ceo mc k j hceo hr hmc hro fuel hf
    have ho1 := (AddEmployee_HeapOrdered ho hreg hadd).1
    have hn : heap1.next = heap.next + 1 := by
      have := AddEmployee_next heap company raw
      rw [hadd] at this
      exact this
    obtain ⟨nodes, hnodes⟩ := subtree_some_of_ordered heap1 ho1 fuel ceo 0
      (by omega) (by omega)
    have hw := EmployeeWalk_eq_subtree heap1 0 fuel ceo 0
    rw [hnodes] at hw
    simp only [Nat.zero_add, Option.map_some'] at hw
    have hmem := Reach.shift_mem heap1 fuel ceo 0 nodes hnodes
    refine ⟨_, nodes, hw, hnodes, rfl, ?_, ?_⟩
    · exact (hmem old j).2 ⟨j, by omega, hro.mono_heap hsub⟩
    · exact (hmem e (k + 1)).2 ⟨k + 1, by omega,
        (hr.mono_heap hsub).same_slice hmc (by rw [h6]; simp)⟩

/-- Witness for C17: `alan` (id `"2"`) is a managee of the CEO
`jamie`; the record `("steve","2","1")` repeats the id of `alan`. -/
theorem AddEmployee_repeated_id_witness :
    ∃ heap1 company1 e,
      AddEmployee ⟨fun a => if a = 0 then [Employee.mk "alan" "2" none 1] else [], 2⟩
          ⟨[("2", Employee.mk "alan" "2" none 1), ("1", Employee.mk "jamie" "1" none 0)],
            some (Employee.mk "jamie" "1" none 0)⟩
          ⟨"steve", "2", "1"⟩ = (heap1, company1, Except.ok e) ∧
      e.Name = "steve" ∧ e ≠ Employee.mk "alan" "2" none 1 ∧
      mapLookup company1.Employees "2" = some e ∧
      heap1.read 0 = [Employee.mk "alan" "2" none 1, e] := by
  obtain ⟨heap1, company1, e, hadd, h1, _, _, h4, h5, _, _, _, _, h6, _⟩ :=
    AddEmployee_repeated_id
      ⟨fun a => if a = 0 then [Employee.mk "alan" "2" none 1] else [], 2⟩
      ⟨[("2", Employee.mk "alan" "2" none 1), ("1", Employee.mk "jamie" "1" none 0)],
        some (Employee.mk "jamie" "1" none 0)⟩
      ⟨"steve", "2", "1"⟩ (Employee.mk "alan" "2" none 1) (Employee.mk "jamie" "1" none 0)
      (by decide) rfl rfl
      (by
        intro a e he
        by_cases ha : a = 0
        · subst ha
          simp only [↓reduceIte, List.mem_singleton] at he
          subst he
          simp [Employee.Managees]
        · simp [ha] at he)
      (by
        intro id e he
        simp only [mapLookup] at he
        split at he
        · simp only [Option.some.injEq] at he
          subst he
          simp [Employee.Managees]
        · split at he
          · simp only [Option.some.injEq] at he
            subst he
            simp [Employee.Managees]
          · simp at he)
  exact ⟨heap1, company1, e, hadd, h1, h4, h5,
    by simpa [Heap.read, Employee.Managees] using h6⟩

/-! ## Managees of one manager keep their input order -/

theorem preorderNodes_head (rs : List RawEmployee) (fuel : Nat) (r : RawEmployee) (d : Nat)
    (ns : List (RawEmployee × Nat)) (h : preorderNodes rs fuel r d = some ns) :
    ∃ t, ns = (r, d) :: t := by
  cases fuel with
  | zero => simp [preorderNodes] at h
  | succ f =>
    rw [preorderNodes] at h
    cases hl : listEach (fun c => preorderNodes rs f c (d + 1)) (manageesOf rs r.ID) with
    | none => simp [hl] at h
    | some rows =>
      simp only [hl, Option.some.injEq] at h
      exact ⟨rows, h.symm⟩

theorem listEach_heads {α β : Type} (g : α → Option (List β)) (hd : β → α) :
    ∀ (l : List α) (rows : List β), listEach g l = some rows →
      (∀ c ∈ l, ∀ x, g c = some x → ∃ y t, x = y :: t ∧ hd y = c) →
      l.Sublist (rows.map hd) := by
  intro l
  induction l with
  | nil => intro rows _ _; exact List.nil_sublist _
  | cons c l ih =>
    intro rows h hh
    obtain ⟨x, more, hx, hmore, hrows⟩ := listEach_cons_some h
    obtain ⟨y, t, hxy, hy⟩ := hh c (List.mem_cons_self _ _) x hx
    subst hrows
    subst hxy
    have h1 := ih more hmore (fun c1 hc1 => hh c1 (List.mem_cons_of_mem _ hc1))
    simp only [List.cons_append, List.map_cons, List.map_append, hy]
    exact List.Sublist.cons₂ _ (List.sublist_append_of_sublist_right h1)

theorem listEach_sublist {α β : Type} (g : α → Option (List β)) :
    ∀ (l : List α) (rows : List β), listEach g l = some rows →
      ∀ c ∈ l, ∀ x, g c = some x → x.Sublist rows := by
  intro l
  induction l with
  | nil => intro rows _ c hc; simp at hc
  | cons a l ih =>
    intro rows h c hc x hx
    obtain ⟨xa, more, hxa, hmore, hrows⟩ := listEach_cons_some h
    subst hrows
    rcases List.mem_cons.1 hc with rfl | hc
    · rw [hxa] at hx
      cases hx
      exact List.sublist_append_left _ _
    · exact List.sublist_append_of_sublist_right (ih more hmore c hc x hx)

/-- The managees of every listed record are listed in input order. -/
theorem preorderNodes_managees (rs : List RawEmployee) :
    ∀ (fuel : Nat) (r : RawEmployee) (d : Nat) (ns : List (RawEmployee × Nat)),
      preorderNodes rs fuel r d = some ns →
      ∀ m dm, (m, dm) ∈ ns → (manageesOf rs m.ID).Sublist (ns.map Prod.fst) := by
  intro fuel
  induction fuel with
  | zero => intro r d ns h; simp [preorderNodes] at h
  | succ f ih =>
    intro r d ns h m dm hm
    rw [preorderNodes] at h
    cases hl : listEach (fun c => preorderNodes rs f c (d + 1)) (manageesOf rs r.ID) with
    | none => simp [hl] at h
    | some rows =>
      simp only [hl, Option.some.injEq] at h
      subst h
      rw [List.map_cons]
      apply List.Sublist.cons
      rcases List.mem_cons.1 hm with heq | hm
      · simp only [Prod.mk.injEq] at heq
        rw [heq.1]
        apply listEach_heads _ Prod.fst _ _ hl
        intro c _ x hx
        obtain ⟨t, ht⟩ := preorderNodes_head rs f c (d + 1) x hx
        exact ⟨(c, d + 1), t, ht, rfl⟩
      · obtain ⟨c, hc, nsc, hnsc, hmc⟩ := (listEach_mem _ _ _ hl (m, dm)).1 hm
        exact (ih c (d + 1) nsc hnsc m dm hmc).trans
          ((listEach_sublist _ _ _ hl c hc nsc hnsc).map Prod.fst)

/-- C15. For every valid input (pairwise-distinct ids, one CEO record, every
manager chain reaching it) the pipeline succeeds and its lines are the rows of
a list `nodes` of the records with their depths, a rearrangement of the input;
any two records with the same manager id, the first before the second in the
input, are in that order in `nodes`, that is in the output, wherever their
manager stands in the input. -/
theorem siblings_keep_input_order (fuel : Nat) (rs : List RawEmployee)
    (root : RawEmployee) (hv : ValidInput rs root) (hfuel : rs.length ≤ fuel) :
    ∃ nodes : List (RawEmployee × Nat),
      GenerateHierarchyFromCSV fuel rs =
        some (nodes.map (fun n => GenerateTabularRow n.1.Name n.2), none) ∧
      (nodes.map Prod.fst).Perm rs ∧
      (∀ n ∈ nodes, ManagerChain rs root n.1 n.2) ∧
      ∀ a b : RawEmployee, a.Manager = b.Manager → [a, b].Sublist rs →
        [a, b].Sublist (nodes.map Prod.fst) := by
  obtain ⟨_, lines, _, _, hrun, hpre⟩ := hv.run fuel hfuel
  obtain ⟨ns, hns⟩ := hv.preorderNodes_some fuel root 0 hv.root_mem ManagerChain.here
    (by omega)
  obtain ⟨hmem, hnd⟩ := hv.preorderNodes_spec fuel root 0 ns hv.root_mem
    ManagerChain.here hns
  rw [preorder_eq_nodes, hns] at hpre
  simp only [Option.map_some', Option.some.injEq] at hpre
  subst hpre
  refine ⟨ns, hrun, ?_, ?_, ?_⟩
  · have hnd1 : (ns.map Prod.fst).Nodup := by
      apply List.Nodup.map_on _ hnd
      rintro ⟨x, dx⟩ hx ⟨y, dy⟩ hy hxy
      simp only at hxy
      subst hxy
      have := ManagerChain.depth_unique hv.nodup hv.root_manager
        ((hmem x dx).1 hx).2.1 ((hmem x dy).1 hy).2.1
      rw [this]
    apply (List.perm_ext_iff_of_nodup hnd1 (List.Nodup.of_map _ hv.nodup)).2
    intro x
    constructor
    · intro hx
      obtain ⟨⟨y, dy⟩, hy, rfl⟩ := List.mem_map.1 hx
      exact ((hmem y dy).1 hy).1
    · intro hx
      obtain ⟨dx, hdx⟩ := hv.chain x hx
      exact List.mem_map.2 ⟨(x, dx), (hmem x dx).2 ⟨hx, hdx, dx, hdx⟩, rfl⟩
  · rintro ⟨x, dx⟩ hx
    exact ((hmem x dx).1 hx).2.1
  · intro a b hab hsub
    have ha : a ∈ rs := hsub.subset (by simp)
    have hb : b ∈ rs := hsub.subset (by simp)
    by_cases ham : a.Manager = ""
    · have h1 := hv.root_unique a ha ham
      have h2 := hv.root_unique b hb (hab ▸ ham)
      have hnd2 : ([a, b] : List RawEmployee).Nodup :=
        (List.Nodup.of_map _ hv.nodup).sublist hsub
      rw [h1, h2] at hnd2
      simp at hnd2
    · obtain ⟨d, hd⟩ := hv.chain a ha
      cases hd with
      | here => exact absurd hv.root_manager ham
      | @up _ m d1 _ _ hm hmid hchain =>
        have hmn : (m, d1) ∈ ns := (hmem m d1).2 ⟨hm, hchain, d1, hchain⟩
        have hs := preorderNodes_managees rs fuel root 0 ns hns m d1 hmn
        refine List.Sublist.trans ?_ hs
        have hf := hsub.filter (fun c => decide (c.Manager ≠ "" ∧ c.Manager = m.ID))
        have hbm : b.Manager ≠ "" := hab ▸ ham
        have e1 : ([a, b] : List RawEmployee).filter
            (fun c => decide (c.Manager ≠ "" ∧ c.Manager = m.ID)) = [a, b] := by
          rw [List.filter_eq_self]
          intro c hc
          simp only [List.mem_cons, List.mem_singleton, List.not_mem_nil, or_false] at hc
          rcases hc with rfl | rfl
          · simp only [decide_eq_true_eq]
            exact ⟨ham, hmid.symm⟩
          · simp only [decide_eq_true_eq]
            exact ⟨hbm, by rw [← hab, hmid]⟩
        rw [e1] at hf
        exact hf

/-- Witness for C15: in `testRowsReversed` every managee precedes its manager;
`alex` precedes `martin` and `steve` precedes `alan` in the input and in the
output. -/
theorem siblings_keep_input_order_witness :
    ∃ nodes : List (RawEmployee × Nat),
      GenerateHierarchyFromCSV 6 testRowsReversed =
        some (nodes.map (fun n => GenerateTabularRow n.1.Name n.2), none) ∧
      [⟨"alex", "4", "2"⟩, ⟨"martin", "3", "2"⟩].Sublist (nodes.map Prod.fst) ∧
      [⟨"steve", "5", "1"⟩, ⟨"alan", "2", "1"⟩].Sublist (nodes.map Prod.fst) := by
  obtain ⟨nodes, h1, _, _, h4⟩ :=
    siblings_keep_input_order 6 testRowsReversed ⟨"jamie", "1", ""⟩
      (validCheck_sound (by decide)) (by decide)
  exact ⟨nodes, h1, h4 ⟨"alex", "4", "2"⟩ ⟨"martin", "3", "2"⟩ rfl (by decide),
    h4 ⟨"steve", "5", "1"⟩ ⟨"alan", "2", "1"⟩ rfl (by decide)⟩

end Hierarchy
